import Mathlib

/-! The completion coordinator of `src/autocomplete.cc`.

A shallow embedding of `class Autocomplete` (autocomplete.h, autocomplete.cc).

* The fields of the class that the coordinator itself owns (`state`, the recorded
  prefix, `rows`, the `std::thread` handle, the dispatcher queue) are the fields of
  the structure `Autocomplete`.
* Every call the coordinator makes to a collaborator (a `std::function` hook, the
  thread, the dispatcher, the completion dialog, the text buffer) is appended, in
  program order, to the field `log`.
* What the collaborators answer (the result of `run_check()`, `is_processing()`,
  the caret position, what `add_rows` appended) is supplied by the records `Env`
  and `WorkerRun`, one per operation, so the answers may change between operations.
  The hooks are taken not to call back into the coordinator.
* The body of the worker is one step up to its last statement (the worker reads and
  writes nothing of the coordinator but `rows`, and never the state), and its
  return is a second step, so that a posted continuation may run while the thread
  has not ended yet.
* `thread.join()` waits for the worker to end: in the embedding what is left of a
  thread that has not ended is executed at the join, the body with the answers
  `Env.joined`.
-/

/-- The enumeration `Autocomplete::State` of autocomplete.h. -/
inductive Autocomplete.State
  | IDLE
  | STARTING
  | RESTARTING
  | CANCELED
  deriving DecidableEq, Repr

/-- The two lambdas the worker hands to `dispatcher.post`: the one of lines 84-118
(`success`) and the one of lines 121-124 (`error`). -/
inductive Autocomplete.Continuation
  | success
  | error
  deriving DecidableEq, Repr

/-- A call made by the coordinator to one of its collaborators. -/
inductive Autocomplete.Effect
  | before_add_rows
  | after_add_rows
  | on_add_rows_error
  | reparse
  | cancel_reparse
  | get_parse_lock
  | stop_parse
  | add_rows (buffer : List Char) (line_nr column_nr : Int)
  | thread_join
  | thread_spawn
  | thread_exit
  | post (c : Autocomplete.Continuation)
  | create (start_mark : Nat)
  | setup_dialog
  | add_row (row : String)
  | begin_user_action
  | show
  deriving DecidableEq, Repr

/-- The handle `std::thread thread`: default constructed (not joinable), holding a
worker that has not run its body yet (with the captured `line_nr`, `column_nr` and
`buffer`), holding a worker that has run the statements of its body and has not
returned from it yet, or holding a worker that has ended and has not been joined. -/
inductive Autocomplete.Thread
  | empty
  | running (line_nr column_nr : Int) (buffer : List Char)
  | returning
  | finished
  deriving DecidableEq, Repr

/-- The members of `class Autocomplete` the coordinator owns, and the log of its
calls. The member `prefix` is named `pfx` here. -/
structure Autocomplete where
  pass_buffer_and_strip_word : Bool
  state : Autocomplete.State
  pfx : List Char
  rows : List String
  thread : Autocomplete.Thread
  dispatcher : List Autocomplete.Continuation
  log : List Autocomplete.Effect
  deriving DecidableEq, Repr

namespace Autocomplete

/-- What the text view answers during one operation: the text of the buffer, the
line, byte index in the line and character offset of the insert mark,
`has_focus()`, and `backward_chars` of an iterator (given the offset of the
iterator and the count: the returned flag and the offset afterwards). -/
structure View where
  text : List Char
  line : Nat
  line_index : Nat
  offset : Nat
  has_focus : Bool
  backward_chars : Nat → Nat → Bool × Nat

/-- What the worker meets while its body runs: the answer of `is_processing()`
after `get_parse_lock()`, the rows `add_rows` appends, and the answer of
`is_processing()` after `add_rows` has returned. -/
structure WorkerRun where
  processing_at_lock : Bool
  added : List String
  processing_at_end : Bool
  deriving DecidableEq, Repr

/-- The answers of the collaborators during one operation on the interactive
context. -/
structure Env where
  interactive_completion : Bool
  last_keyval : Nat
  is_continue_key : Nat → Bool
  is_restart_key : Nat → Bool
  run_check : Bool
  is_processing : Bool
  dialog_visible : Bool
  view : View
  joined : WorkerRun

/-- The coordinator right after its constructor. -/
def init (pass_buffer_and_strip_word : Bool) : Autocomplete :=
  { pass_buffer_and_strip_word := pass_buffer_and_strip_word
    state := State.IDLE
    pfx := []
    rows := []
    thread := Thread.empty
    dispatcher := []
    log := [] }

/-- Record a call to a collaborator. -/
def emit (e : Effect) (s : Autocomplete) : Autocomplete :=
  { s with log := s.log ++ [e] }

/-- The call `dispatcher.post(c)`. -/
def post (c : Continuation) (s : Autocomplete) : Autocomplete :=
  emit (Effect.post c) { s with dispatcher := s.dispatcher ++ [c] }

/-- The condition of the loop of lines 66-67 on one character. -/
def is_word_char (c : Char) : Bool :=
  (decide ('a' ≤ c) && decide (c ≤ 'z')) || (decide ('A' ≤ c) && decide (c ≤ 'Z')) ||
    (decide ('0' ≤ c) && decide (c ≤ '9')) || c == '_'

/-- The loop of lines 66-71. The first argument is `pos + 1`, so that `pos >= 0`
is `pos + 1 ≠ 0`; an index outside of the text ends the loop. -/
def strip_word : Nat → List Char → Int → List Char × Int
  | 0, buffer, column_nr => (buffer, column_nr)
  | pos + 1, buffer, column_nr =>
    match buffer[pos]? with
    | some c =>
      if is_word_char c then strip_word pos (buffer.set pos ' ') (column_nr - 1)
      else (buffer, column_nr)
    | none => (buffer, column_nr)

/-- The statements of the body of the worker thread, lines 73-126, run with the
captured `line_nr`, `column_nr` and `buffer`; the worker has then only to return. -/
def worker_body (w : WorkerRun) (line_nr column_nr : Int) (buffer : List Char)
    (s : Autocomplete) : Autocomplete :=
  let s := emit Effect.get_parse_lock s
  if !w.processing_at_lock then { s with thread := Thread.returning }
  else
    let s := emit Effect.stop_parse s
    let s := { s with rows := [] }
    let s := emit (Effect.add_rows buffer line_nr column_nr) s
    let s := { s with rows := s.rows ++ w.added }
    let s := if w.processing_at_end then post Continuation.success s
             else post Continuation.error s
    { s with thread := Thread.returning }

/-- The worker returns from its body and its thread ends. -/
def worker_return (s : Autocomplete) : Autocomplete :=
  emit Effect.thread_exit { s with thread := Thread.finished }

/-- Lines 57-58: `if(thread.joinable()) thread.join();`. -/
def join (w : WorkerRun) (s : Autocomplete) : Autocomplete :=
  match s.thread with
  | Thread.empty => s
  | Thread.running line_nr column_nr buffer =>
    let s := worker_body w line_nr column_nr buffer s
    let s := worker_return s
    emit Effect.thread_join { s with thread := Thread.empty }
  | Thread.returning =>
    let s := worker_return s
    emit Effect.thread_join { s with thread := Thread.empty }
  | Thread.finished => emit Effect.thread_join { s with thread := Thread.empty }

/-- Lines 129-130: `if(state != State::IDLE) cancel_reparse();`. -/
def cancel_reparse_unless_idle (s : Autocomplete) : Autocomplete :=
  if s.state ≠ State.IDLE then emit Effect.cancel_reparse s else s

/-- The method `Autocomplete::run`, lines 42-131. -/
def run (env : Env) (s : Autocomplete) : Autocomplete :=
  if env.run_check then
    if !env.is_processing then s
    else
      let s := if s.state = State.CANCELED then { s with state := State.RESTARTING } else s
      if s.state ≠ State.IDLE then s
      else
        let s := { s with state := State.STARTING }
        let s := emit Effect.before_add_rows s
        let s := join env.joined s
        let line_nr : Int := (env.view.line : Int) + 1
        let column_nr : Int := (env.view.line_index : Int) + 1
        let stripped : List Char × Int :=
          if s.pass_buffer_and_strip_word then
            strip_word env.view.offset env.view.text column_nr
          else ([], column_nr)
        let s := emit Effect.thread_spawn
          { s with thread := Thread.running line_nr stripped.2 stripped.1 }
        cancel_reparse_unless_idle s
  else cancel_reparse_unless_idle s

/-- The method `Autocomplete::stop`, lines 133-136. -/
def stop (s : Autocomplete) : Autocomplete :=
  if s.state = State.STARTING ∨ s.state = State.RESTARTING then
    { s with state := State.CANCELED }
  else s

/-- The loop of lines 109-112: every row is handed to the dialog and then cleared. -/
def add_rows_to_dialog (s : Autocomplete) : Autocomplete :=
  { s with log := s.log ++ s.rows.map Effect.add_row, rows := s.rows.map (fun _ => "") }

/-- The continuation posted at line 84 (lines 85-117). -/
def success_continuation (env : Env) (s : Autocomplete) : Autocomplete :=
  let s := emit Effect.after_add_rows s
  if s.state = State.RESTARTING then
    let s := { s with state := State.IDLE }
    let s := emit Effect.reparse s
    run env s
  else if s.state = State.CANCELED ∨ s.rows.isEmpty then
    let s := { s with state := State.IDLE }
    emit Effect.reparse s
  else
    let start_iter := env.view.offset
    let pfx_size := s.pfx.length
    let moved := env.view.backward_chars start_iter pfx_size
    if decide (pfx_size > 0) && !moved.1 then
      let s := { s with state := State.IDLE }
      emit Effect.reparse s
    else
      let start_iter := if pfx_size > 0 then moved.2 else start_iter
      let s := emit (Effect.create start_iter) s
      let s := emit Effect.setup_dialog s
      let s := add_rows_to_dialog s
      let s := { s with state := State.IDLE }
      let s := emit Effect.begin_user_action s
      emit Effect.show s

/-- The continuation posted at line 121 (lines 122-123). -/
def error_continuation (s : Autocomplete) : Autocomplete :=
  let s := { s with state := State.CANCELED }
  emit Effect.on_add_rows_error s

/-- The dispatcher runs the oldest posted continuation on the interactive
context; with nothing posted nothing happens. -/
def deliver (env : Env) (s : Autocomplete) : Autocomplete :=
  match s.dispatcher with
  | [] => s
  | Continuation.success :: rest => success_continuation env { s with dispatcher := rest }
  | Continuation.error :: rest => error_continuation { s with dispatcher := rest }

/-- The worker held by the thread handle runs the statements of its body; with no
worker that has its body to run nothing happens. -/
def worker (w : WorkerRun) (s : Autocomplete) : Autocomplete :=
  match s.thread with
  | Thread.running line_nr column_nr buffer => worker_body w line_nr column_nr buffer s
  | _ => s

/-- The worker held by the thread handle returns from its body; with no worker at
the end of its body nothing happens. -/
def worker_exit (s : Autocomplete) : Autocomplete :=
  match s.thread with
  | Thread.returning => worker_return s
  | _ => s

/-- The handler connected to `signal_changed`, lines 6-21. -/
def signal_changed (env : Env) (s : Autocomplete) : Autocomplete :=
  if env.dialog_visible then emit Effect.cancel_reparse s
  else if !env.view.has_focus then s
  else if env.is_continue_key env.last_keyval &&
      (env.interactive_completion || decide (s.state ≠ State.IDLE)) then
    run env s
  else
    let s := stop s
    if env.is_restart_key env.last_keyval && env.interactive_completion then run env s
    else s

/-- The handler connected to `signal_mark_set`, lines 23-26. -/
def signal_mark_set (mark_name : String) (s : Autocomplete) : Autocomplete :=
  if mark_name = "insert" then stop s else s

/-- The handler connected to `signal_focus_out_event`, lines 36-39. -/
def signal_focus_out (s : Autocomplete) : Autocomplete :=
  stop s

/-- What can happen to a coordinator: the calls and notifications on the
interactive context, a worker running the statements of its body, a worker
returning from its body, and the dispatcher delivering a continuation. -/
inductive Event
  | run (env : Env)
  | stop
  | changed (env : Env)
  | mark_set (mark_name : String)
  | focus_out
  | worker (w : WorkerRun)
  | exit
  | deliver (env : Env)

/-- One event. -/
def step (s : Autocomplete) : Event → Autocomplete
  | Event.run env => run env s
  | Event.stop => stop s
  | Event.changed env => signal_changed env s
  | Event.mark_set mark_name => signal_mark_set mark_name s
  | Event.focus_out => signal_focus_out s
  | Event.worker w => worker w s
  | Event.exit => worker_exit s
  | Event.deliver env => deliver env s

/-- A sequence of events, oldest first. -/
def exec (s : Autocomplete) (events : List Event) : Autocomplete :=
  events.foldl step s

/-- The number of workers spawned according to a log. -/
def spawned (log : List Effect) : Nat :=
  log.count Effect.thread_spawn

/-- The number of workers that have returned from their body according to a log. -/
def exited (log : List Effect) : Nat :=
  log.count Effect.thread_exit

/-- The calls that open a presentation: creating the dialog, wiring it, handing it
a row, starting the editing transaction, showing it. -/
def is_presentation : Effect → Bool
  | Effect.create _ => true
  | Effect.setup_dialog => true
  | Effect.add_row _ => true
  | Effect.begin_user_action => true
  | Effect.show => true
  | _ => false

/-- The presentation calls of a log, in order. -/
def presentation (log : List Effect) : List Effect :=
  log.filter is_presentation

/-- Whether a worker body is executing after one more call: a spawn needs that no
body is executing, the return of a body needs that one is; `none` records that
this was violated. -/
def alive_step : Option Bool → Effect → Option Bool
  | some false, Effect.thread_spawn => some true
  | some true, Effect.thread_spawn => none
  | some true, Effect.thread_exit => some false
  | some false, Effect.thread_exit => none
  | a, _ => a

/-- Whether a worker body is executing after the calls of a log, starting from
`alive`; `none` when a worker was spawned while another body was executing, or a
body returned with none executing. -/
def alive_after (alive : Option Bool) (log : List Effect) : Option Bool :=
  log.foldl alive_step alive

/-- The thread handle holds a worker that has its body still to run. -/
def is_running : Thread → Bool
  | Thread.running _ _ _ => true
  | _ => false

/-- The thread handle holds a worker that has not returned from its body. -/
def is_alive : Thread → Bool
  | Thread.running _ _ _ => true
  | Thread.returning => true
  | _ => false

/-- A view with the caret at `offset` of `text` on the first line, focused, whose
iterators move back by `count` when `count` is at most the offset and fail
otherwise. -/
def view_at (text : List Char) (offset : Nat) : View :=
  { text := text
    line := 0
    line_index := offset
    offset := offset
    has_focus := true
    backward_chars := fun off count => if count ≤ off then (true, off - count) else (false, off) }

/-- An environment in which `run_check()` and `is_processing()` answer true, no
key continues or restarts, and no dialog is visible. -/
def env_ok : Env :=
  { interactive_completion := false
    last_keyval := 0
    is_continue_key := fun _ => false
    is_restart_key := fun _ => false
    run_check := true
    is_processing := true
    dialog_visible := false
    view := view_at [] 0
    joined := { processing_at_lock := true, added := [], processing_at_end := true } }

/-- What the statements of the body of a worker append to the log. -/
def worker_log (w : WorkerRun) (l c : Int) (b : List Char) : List Effect :=
  if w.processing_at_lock then
    [Effect.get_parse_lock, Effect.stop_parse, Effect.add_rows b l c,
      Effect.post (if w.processing_at_end then Continuation.success else Continuation.error)]
  else [Effect.get_parse_lock]

/-- What the join of lines 57-58 appends to the log. -/
def join_log (w : WorkerRun) : Thread → List Effect
  | Thread.empty => []
  | Thread.running l c b => worker_log w l c b ++ [Effect.thread_exit, Effect.thread_join]
  | Thread.returning => [Effect.thread_exit, Effect.thread_join]
  | Thread.finished => [Effect.thread_join]

/-- The request captured at lines 59-72. -/
def request (env : Env) (pass : Bool) : Thread :=
  Thread.running ((env.view.line : Int) + 1)
    (if pass then strip_word env.view.offset env.view.text ((env.view.line_index : Int) + 1)
      else ([], (env.view.line_index : Int) + 1)).2
    (if pass then strip_word env.view.offset env.view.text ((env.view.line_index : Int) + 1)
      else ([], (env.view.line_index : Int) + 1)).1

/-- What the join of lines 57-58 posts to the dispatcher. -/
def join_posts (w : WorkerRun) : Thread → List Continuation
  | Thread.running _ _ _ =>
    if w.processing_at_lock then
      [if w.processing_at_end then Continuation.success else Continuation.error]
    else []
  | _ => []

/-- The rows after the join of lines 57-58. -/
def join_rows (w : WorkerRun) (rows : List String) : Thread → List String
  | Thread.running _ _ _ => if w.processing_at_lock then w.added else rows
  | _ => rows

/-- The mark the presentation is anchored at (lines 96-107). -/
def anchor (view : View) (pfx_size : Nat) : Nat :=
  if pfx_size > 0 then (view.backward_chars view.offset pfx_size).2 else view.offset

/-- The condition of line 102: the recorded prefix is not empty and the iterator
cannot be moved back by its length. -/
def anchor_fails (view : View) (pfx_size : Nat) : Bool :=
  decide (pfx_size > 0) && !(view.backward_chars view.offset pfx_size).1

/-- The invariant of the reachable states: the log and the thread handle agree on
whether a worker has not returned from its body, an idle coordinator has no worker
with its body still to run and no posted continuation, and a continuation is
posted only by the body. -/
def Inv (s : Autocomplete) : Prop :=
  alive_after (some false) s.log = some (is_alive s.thread) ∧
  spawned s.log = exited s.log + (if is_alive s.thread = true then 1 else 0) ∧
  (s.state = State.IDLE → is_running s.thread = false ∧ s.dispatcher = []) ∧
  (is_running s.thread = true → s.dispatcher = []) ∧
  s.dispatcher.length ≤ 1

/-- A worker that passes both checks of `is_processing()` and leaves three rows. -/
def three_rows : WorkerRun :=
  { processing_at_lock := true, added := ["a", "b", "c"], processing_at_end := true }

/-- A worker that passes the check at the lock, leaves no row and finds
`is_processing()` false after `add_rows`. -/
def shutdown_at_end : WorkerRun :=
  { processing_at_lock := true, added := [], processing_at_end := false }

/-- An environment like `env_ok` in which `is_processing()` answers false. -/
def env_shutdown : Env :=
  { env_ok with is_processing := false }

/-- A worker that finds `is_processing()` false right after `get_parse_lock()`. -/
def shutdown_at_lock : WorkerRun :=
  { processing_at_lock := false, added := [], processing_at_end := false }

/-- The call `run()` starts a worker: the state becomes `STARTING` and exactly one
worker is spawned. -/
def starts_worker (env : Env) (s : Autocomplete) : Prop :=
  (run env s).state = State.STARTING ∧ spawned (run env s).log = spawned s.log + 1

/-- A worker that passes both checks of `is_processing()` and leaves five rows. -/
def five_rows : WorkerRun :=
  { processing_at_lock := true, added := ["a", "b", "c", "d", "e"], processing_at_end := true }

/-- A worker that passes both checks of `is_processing()` and leaves no row. -/
def no_rows : WorkerRun :=
  { processing_at_lock := true, added := [], processing_at_end := true }

/-- An environment like `env_ok` with interactive completion enabled, in which the
last key, 97, is a continue key. -/
def env_typing : Env :=
  { env_ok with
    interactive_completion := true
    last_keyval := 97
    is_continue_key := fun key => key == 97 }

/-- A call made by one of the callbacks that `setup_dialog` (lines 138-179) hands to
the completion dialog. -/
inductive Relay
  | on_show
  | end_user_action
  | tooltips_hide
  | tooltips_clear
  | on_hide
  | reparse
  | on_changed (index : Nat) (text : String)
  | get_tooltip (index : Nat)
  | tooltips_emplace_back (tooltip : String)
  | tooltips_show
  | on_select (index : Nat) (text : String) (hide_window : Bool)
  deriving DecidableEq, Repr

/-- The callback `on_show` of the dialog, lines 139-141. -/
def dialog_on_show : List Relay :=
  [Relay.on_show]

/-- The callback `on_hide` of the dialog, lines 143-149. -/
def dialog_on_hide : List Relay :=
  [Relay.end_user_action, Relay.tooltips_hide, Relay.tooltips_clear, Relay.on_hide, Relay.reparse]

/-- The callback `on_changed` of the dialog, lines 151-171, with the answer of the
hook `get_tooltip`. -/
def dialog_on_changed (get_tooltip : Nat → String) (s : Autocomplete) (index : Nat)
    (text : String) : List Relay :=
  if index ≥ s.rows.length then [Relay.tooltips_hide]
  else
    [Relay.on_changed index text, Relay.get_tooltip index] ++
      (if (get_tooltip index).isEmpty then [Relay.tooltips_hide]
       else [Relay.tooltips_clear, Relay.tooltips_emplace_back (get_tooltip index),
         Relay.tooltips_show])

/-- The callback `on_select` of the dialog, lines 173-178. -/
def dialog_on_select (s : Autocomplete) (index : Nat) (text : String) (hide_window : Bool) :
    List Relay :=
  if index ≥ s.rows.length then []
  else [Relay.on_select index text hide_window]

/-- An environment like `env_ok` in which `run_check()` answers false. -/
def env_unchecked : Env :=
  { env_ok with run_check := false }

/-- An environment like `env_ok` while the completion dialog is visible. -/
def env_dialog : Env :=
  { env_ok with dialog_visible := true }

/-- A coordinator in state `STARTING` with one row, whose recorded prefix is one
character long. -/
def one_row_one_char : Autocomplete :=
  { init false with state := State.STARTING, rows := ["x"], pfx := ['a'] }

/-- An environment like `env_ok` with the caret after the three characters of the
text `abc`. -/
def env_caret3 : Env :=
  { env_ok with view := view_at ['a', 'b', 'c'] 3 }

end Autocomplete

/-! The method `replace_text` of `src/source_base.cc`.

The text buffer and the line diff are not part of the sources. The buffer is its
text, a list of characters, with the operations `replace_text` calls on it; its
lines end after a line feed, a carriage return, a carriage return followed by a
line feed, or a paragraph separator. The line diff is a parameter. -/

namespace BaseView

/-- A hunk of the line diff as `replace_text` reads it: for the old and for the new
text, the number of the first line of the hunk (counted from 1) and its number of
lines. -/
structure Hunk where
  old_lines : Nat × Nat
  new_lines : Nat × Nat
  deriving DecidableEq, Repr

/-- The paragraph separator, U+2029. -/
def paragraph_separator : Char :=
  Char.ofNat 0x2029

/-- The length of the first line of a text in the text buffer, including the
characters that end the line. -/
def line_end : List Char → Nat
  | [] => 0
  | c :: rest =>
    if c = '\r' then (if rest.head? = some '\n' then 2 else 1)
    else if c = '\n' ∨ c = paragraph_separator then 1
    else line_end rest + 1

/-- The call `get_buffer()->get_iter_at_line(line)`: the offset at which the line
starts, lines counted from 0; the end of the text when it has no such line. -/
def get_iter_at_line (text : List Char) : Nat → Nat
  | 0 => 0
  | line + 1 => line_end text + get_iter_at_line (text.drop (line_end text)) line

/-- The call `get_buffer()->erase(start, end)`. -/
def erase (text : List Char) (start stop : Nat) : List Char :=
  text.take (min start stop) ++ text.drop (max start stop)

/-- The call `get_buffer()->insert(iter, first, last)`. -/
def insert (text : List Char) (iter : Nat) (inserted : List Char) : List Char :=
  text.take iter ++ inserted ++ text.drop iter

/-- The loop of lines 180-185: the lines that end in a line feed, and the characters
after the last line feed. The first argument holds the characters from `line_start`
to the current one. -/
def new_lines_loop : List Char → List Char → List (List Char) × List Char
  | line, [] => ([], line)
  | line, chr :: rest =>
    if chr = '\n' then
      ((line ++ [chr]) :: (new_lines_loop [] rest).1, (new_lines_loop [] rest).2)
    else new_lines_loop (line ++ [chr]) rest

/-- The vector `new_lines` of lines 176-187, each pair of pointers as the text
between them. -/
def new_lines (new_text : List Char) : List (List Char) :=
  if new_text = [] ∨ new_text.getLast? ≠ some '\n' then
    (new_lines_loop [] new_text).1 ++ [(new_lines_loop [] new_text).2]
  else (new_lines_loop [] new_text).1

/-- The text from `new_lines[first].first` to `new_lines[last].second`. -/
def text_between (lines : List (List Char)) (first last : Nat) : List Char :=
  ((lines.drop first).take (last + 1 - first)).flatten

/-- The body of the loop of lines 192-217 for one hunk, on the text of the buffer.
The insert mark, which the loop also moves, takes no part in the text and is left
out. Line numbers are natural numbers, so `first - 1` is `0` for a first line `0`. -/
def apply_hunk (lines : List (List Char)) (hunk : Hunk) (text : List Char) : List Char :=
  let erased : List Char × Nat :=
    if hunk.old_lines.2 ≠ 0 then
      let start := get_iter_at_line text (hunk.old_lines.1 - 1)
      let stop := get_iter_at_line text (hunk.old_lines.1 - 1 + hunk.old_lines.2)
      let text := erase text start stop
      (text, get_iter_at_line text (hunk.old_lines.1 - 1))
    else (text, get_iter_at_line text hunk.old_lines.1)
  if hunk.new_lines.2 ≠ 0 then
    insert erased.1 erased.2
      (text_between lines (hunk.new_lines.1 - 1) (hunk.new_lines.1 - 1 + hunk.new_lines.2 - 1))
  else erased.1

/-- The method `Source::BaseView::replace_text`, lines 159-224, on the text of the
buffer. The line diff `get_hunks` answers `none` when it throws. -/
def replace_text (get_hunks : List Char → List Char → Option (List Hunk))
    (text new_text : List Char) : List Char :=
  if text.length = 0 then text ++ new_text
  else if new_text = [] then new_text
  else
    match get_hunks text new_text with
    | some hunks => hunks.foldr (apply_hunk (new_lines new_text)) text
    | none => text

/-- The lines of the text of the buffer, the first argument bounding their number. -/
def buffer_lines_upto : Nat → List Char → List (List Char)
  | 0, _ => []
  | bound + 1, text =>
    if text = [] then []
    else text.take (line_end text) :: buffer_lines_upto bound (text.drop (line_end text))

/-- The lines of the text of the buffer, each with the characters that end it. -/
def buffer_lines (text : List Char) : List (List Char) :=
  buffer_lines_upto text.length text

/-- The hunks are those of a line diff without context between the remaining old
lines and the remaining new lines, `old_done` old and `new_done` new lines being
done: each hunk comes after a run of lines common to both (not empty but before the
first hunk), its line numbers are those of Git (the line before the hunk when the
hunk has no line on that side), and after the last hunk the two texts agree. -/
def hunks_ok (first : Bool) (old_done new_done : Nat) (old new : List (List Char)) :
    List Hunk → Bool
  | [] => decide (old = new)
  | hunk :: hunks =>
    let common := (if hunk.old_lines.2 = 0 then hunk.old_lines.1 else hunk.old_lines.1 - 1) - old_done
    decide (hunk.old_lines.1 =
      if hunk.old_lines.2 = 0 then old_done + common else old_done + common + 1) &&
    decide (hunk.new_lines.2 = 0 ∨ hunk.new_lines.1 = new_done + common + 1) &&
    (first || decide (1 ≤ common)) &&
    decide (common + hunk.old_lines.2 ≤ old.length) &&
    decide (common + hunk.new_lines.2 ≤ new.length) &&
    decide (old.take common = new.take common) &&
    hunks_ok false (old_done + common + hunk.old_lines.2) (new_done + common + hunk.new_lines.2)
      (old.drop (common + hunk.old_lines.2)) (new.drop (common + hunk.new_lines.2)) hunks

/-- The lines are the first lines of the text made of them and of `after`: each is
not empty and ends where the first line of what is left of the text ends. -/
def first_lines : List (List Char) → List Char → Prop
  | [], _ => True
  | line :: lines, after =>
    line ≠ [] ∧ line_end (line ++ (lines.flatten ++ after)) = line.length ∧
      first_lines lines after

/-- Every line but the last ends in a line feed. -/
def lf_but_last (lines : List (List Char)) : Prop :=
  ∀ (before : List (List Char)) (line : List Char) (after : List (List Char)),
    lines = before ++ line :: after → after ≠ [] → line.getLast? = some '\n'

/-- A line diff that answers one hunk: a new line 2 put in after the old line 1. -/
def one_line_added (_ _ : List Char) : Option (List Hunk) :=
  some [{ old_lines := (1, 0), new_lines := (2, 1) }]

/-- A line diff that answers one hunk: the old line 2 replaced by the new line 2. -/
def second_line_changed (_ _ : List Char) : Option (List Hunk) :=
  some [{ old_lines := (2, 1), new_lines := (2, 1) }]

/-- Every line of the text ends in a line feed, alone or after a carriage return:
the text holds no paragraph separator and no carriage return but before a line
feed. -/
def lf_only : List Char → Bool
  | [] => true
  | c :: rest =>
    (c != paragraph_separator) && (c != '\r' || rest.head? == some '\n') && lf_only rest

/-- The length of a text up to its first line feed, the line feed included. -/
def lf_end : List Char → Nat
  | [] => 0
  | c :: rest => if c = '\n' then 1 else lf_end rest + 1

/-- A line diff that answers one hunk: the old line 3 replaced by the new line 3. -/
def third_line_changed (_ _ : List Char) : Option (List Hunk) :=
  some [{ old_lines := (3, 1), new_lines := (3, 1) }]

end BaseView

/-! The method `cleanup_whitespace_characters` of `src/source_base.cc`, with
`get_iter_at_line_end`.

Both walk over the buffer with iterators and ask them for the start and the end of
their line. Erasing inside a line leaves the lines of the text widget as they are,
also where a carriage return then comes to stand before a line feed of the next
line, so the buffer is here the list of its lines, each with the characters that end
it, and an iterator is a line and an offset in it. -/

namespace TextBuffer

/-- An iterator of the text buffer: the line, counted from 0, and the number of
characters between the start of the line and the iterator. -/
structure Iter where
  line : Nat
  line_offset : Nat
  deriving DecidableEq, Repr

/-- The call `get_line_count()`. -/
def get_line_count (buffer : List (List Char)) : Nat :=
  buffer.length

/-- The characters of a line, those that end it included. -/
def line_text (buffer : List (List Char)) (line : Nat) : List Char :=
  buffer.getD line []

/-- The call `end()`: the iterator after the last character of the last line. -/
def end_iter (buffer : List (List Char)) : Iter :=
  { line := buffer.length - 1, line_offset := (line_text buffer (buffer.length - 1)).length }

/-- The call `get_iter_at_line(line)`: the start of the line, or the end of the
buffer when there is no such line. -/
def get_iter_at_line (buffer : List (List Char)) (line : Nat) : Iter :=
  if line < buffer.length then { line := line, line_offset := 0 } else end_iter buffer

/-- The character `*iter`; `none` at the end of the buffer, where the text widget
answers the character 0. -/
def get_char (buffer : List (List Char)) (iter : Iter) : Option Char :=
  (line_text buffer iter.line)[iter.line_offset]?

/-- The call `iter.starts_line()`. -/
def starts_line (iter : Iter) : Bool :=
  iter.line_offset == 0

/-- The call `iter.ends_line()`: the iterator is at the end of the buffer or at the
first of the characters that end its line; a line feed is not the first of them when
a carriage return precedes it in its line. -/
def ends_line (buffer : List (List Char)) (iter : Iter) : Bool :=
  match get_char buffer iter with
  | none => true
  | some c =>
    if c = '\r' ∨ c = BaseView.paragraph_separator then true
    else if c = '\n' then
      if iter.line_offset = 0 then true
      else (line_text buffer iter.line)[iter.line_offset - 1]? != some '\r'
    else false

/-- The call `iter.backward_char()`; at the start of the buffer the iterator stays. -/
def backward_char (buffer : List (List Char)) (iter : Iter) : Iter :=
  if iter.line_offset ≠ 0 then { iter with line_offset := iter.line_offset - 1 }
  else if iter.line ≠ 0 then
    { line := iter.line - 1, line_offset := (line_text buffer (iter.line - 1)).length - 1 }
  else iter

/-- The call `iter.forward_char()`: the answer of the call, which is false when the
iterator is at the end of the buffer afterwards, and the iterator afterwards. -/
def forward_char (buffer : List (List Char)) (iter : Iter) : Bool × Iter :=
  if iter = end_iter buffer then (false, iter)
  else
    let next : Iter :=
      if iter.line_offset + 1 < (line_text buffer iter.line).length ∨
          iter.line + 1 = buffer.length then
        { iter with line_offset := iter.line_offset + 1 }
      else { line := iter.line + 1, line_offset := 0 }
    (decide (next ≠ end_iter buffer), next)

/-- The call `erase(start, stop)` with `start` not after `stop`: what is left of the
line of `start` before it and of the line of `stop` from it on becomes one line; the
lines before and after stay as they are. -/
def erase (buffer : List (List Char)) (start stop : Iter) : List (List Char) :=
  buffer.take start.line ++
    [(line_text buffer start.line).take start.line_offset ++
      (line_text buffer stop.line).drop stop.line_offset] ++
    buffer.drop (stop.line + 1)

/-- The call `insert(end(), "\n")`: the last line gets the line feed and an empty
line follows it. -/
def insert_line_feed_at_end (buffer : List (List Char)) : List (List Char) :=
  buffer.take (buffer.length - 1) ++ [line_text buffer (buffer.length - 1) ++ ['\n'], []]

/-- The lines a text has when it is set as the text of the buffer: a line ends after
a line feed, a carriage return, a carriage return followed by a line feed, or a
paragraph separator, and the last line, empty or not, ends with the text. The first
argument holds the characters of the line that has been begun. -/
def lines_of (line : List Char) : List Char → List (List Char)
  | [] => [line]
  | c :: rest =>
    if c = '\r' then
      match rest with
      | d :: rest2 =>
        if d = '\n' then (line ++ ['\r', '\n']) :: lines_of [] rest2
        else (line ++ ['\r']) :: lines_of [] (d :: rest2)
      | [] => [line ++ ['\r'], []]
    else if c = '\n' ∨ c = BaseView.paragraph_separator then (line ++ [c]) :: lines_of [] rest
    else lines_of (line ++ [c]) rest

/-- The text of the buffer, `get_text()`. -/
def get_text (buffer : List (List Char)) : List Char :=
  buffer.flatten

end TextBuffer

namespace BaseView

/-- The loop of line 510, `while(!iter.ends_line() && iter.forward_char())`, with a
bound on the number of rounds. -/
def forward_to_line_end (buffer : List (List Char)) : Nat → TextBuffer.Iter → TextBuffer.Iter
  | 0, iter => iter
  | fuel + 1, iter =>
    if !TextBuffer.ends_line buffer iter then
      if (TextBuffer.forward_char buffer iter).1 then
        forward_to_line_end buffer fuel (TextBuffer.forward_char buffer iter).2
      else (TextBuffer.forward_char buffer iter).2
    else iter

/-- The method `get_iter_at_line_end`, lines 498-514. The loop of its last branch
moves on one character a round, so the length of the line bounds its rounds. -/
def get_iter_at_line_end (buffer : List (List Char)) (line_nr : Nat) : TextBuffer.Iter :=
  if line_nr ≥ TextBuffer.get_line_count buffer then TextBuffer.end_iter buffer
  else if line_nr + 1 < TextBuffer.get_line_count buffer then
    let iter := TextBuffer.get_iter_at_line buffer (line_nr + 1)
    let iter := TextBuffer.backward_char buffer iter
    if !TextBuffer.ends_line buffer iter then TextBuffer.backward_char buffer iter else iter
  else
    forward_to_line_end buffer ((TextBuffer.line_text buffer line_nr).length + 1)
      (TextBuffer.get_iter_at_line buffer line_nr)

/-- The loop of lines 655-656, with a bound on the number of rounds. -/
def backward_over_blanks (buffer : List (List Char)) : Nat → TextBuffer.Iter → TextBuffer.Iter
  | 0, iter => iter
  | fuel + 1, iter =>
    if !TextBuffer.starts_line iter &&
        (TextBuffer.get_char buffer iter == some ' ' ||
          TextBuffer.get_char buffer iter == some '\t' || TextBuffer.ends_line buffer iter) then
      backward_over_blanks buffer fuel (TextBuffer.backward_char buffer iter)
    else iter

/-- Lines 657-658: `if(*iter != ' ' && *iter != '\t') iter.forward_char();`. -/
def forward_unless_blank (buffer : List (List Char)) (iter : TextBuffer.Iter) : TextBuffer.Iter :=
  if TextBuffer.get_char buffer iter ≠ some ' ' ∧ TextBuffer.get_char buffer iter ≠ some '\t' then
    (TextBuffer.forward_char buffer iter).2
  else iter

/-- The body of the loop of lines 649-662 for one line. The loop of lines 655-656
moves back one character a round and ends at the start of the line, so the offset
of `end_iter` in its line bounds its rounds. -/
def cleanup_line (buffer : List (List Char)) (line : Nat) : List (List Char) :=
  let iter := TextBuffer.get_iter_at_line buffer line
  let end_iter := get_iter_at_line_end buffer line
  if iter = end_iter then buffer
  else
    let iter := backward_over_blanks buffer (end_iter.line_offset + 1) end_iter
    let iter := forward_unless_blank buffer iter
    if iter = end_iter then buffer else TextBuffer.erase buffer iter end_iter

/-- The loop of lines 649-662 from `line` on, with a bound on the number of rounds. -/
def cleanup_lines : Nat → Nat → List (List Char) → List (List Char)
  | 0, _, buffer => buffer
  | fuel + 1, line, buffer =>
    if line < TextBuffer.get_line_count buffer then
      cleanup_lines fuel (line + 1) (cleanup_line buffer line)
    else buffer

/-- The method `cleanup_whitespace_characters`, lines 646-667, on the lines of the
buffer; the user action it opens and closes takes no part in the text. The loop
runs once for every line, so the number of lines plus one bounds its rounds. -/
def cleanup_whitespace_characters (buffer : List (List Char)) : List (List Char) :=
  let buffer := cleanup_lines (TextBuffer.get_line_count buffer + 1) 0 buffer
  let iter := TextBuffer.end_iter buffer
  if !TextBuffer.starts_line iter then TextBuffer.insert_line_feed_at_end buffer else buffer

/-- A space or a tab. -/
def is_blank (c : Char) : Bool :=
  c == ' ' || c == '\t'

/-- A character that ends a line, alone or with another. -/
def is_delimiter (c : Char) : Bool :=
  c == '\n' || c == '\r' || c == paragraph_separator

/-- The characters of a line before those that end it. -/
def line_content (line : List Char) : List Char :=
  line.takeWhile (fun c => !is_delimiter c)

/-- The characters that end a line. -/
def line_delimiter (line : List Char) : List Char :=
  line.dropWhile (fun c => !is_delimiter c)

/-- A text without the spaces and tabs at its end. -/
def strip_blanks (text : List Char) : List Char :=
  text.rdropWhile is_blank

/-- A line without the spaces and tabs before the characters that end it. -/
def strip_line (line : List Char) : List Char :=
  strip_blanks (line_content line) ++ line_delimiter line

/-- The characters that end a line: a line feed, a carriage return, a carriage return
followed by a line feed, or a paragraph separator. -/
def is_line_ending (d : List Char) : Prop :=
  d = ['\n'] ∨ d = ['\r'] ∨ d = ['\r', '\n'] ∨ d = [paragraph_separator]

/-- The lines of a buffer: there is a line, every line but the last ends in the
characters that end a line, after characters that end none, and the last line holds
no character that ends a line. -/
def well_formed (buffer : List (List Char)) : Prop :=
  buffer ≠ [] ∧
  (∀ i, i + 1 < buffer.length → is_line_ending (line_delimiter (TextBuffer.line_text buffer i))) ∧
  line_delimiter (TextBuffer.line_text buffer (buffer.length - 1)) = []

/-- A text ends at the start of a line: it is empty or its last character ends a
line. -/
def ends_at_line_start (text : List Char) : Bool :=
  match text.getLast? with
  | none => true
  | some c => is_delimiter c

/-- The text `hello_world` of src/tests/source_test.cc. -/
def hello_world : List Char :=
  String.toList "#include <iostream>  \n    \nint main() \x7b  \n  std::cout << \"hello world\\n\";    \n\x7d"

/-- The text `hello_world_cleaned` of src/tests/source_test.cc. -/
def hello_world_cleaned : List Char :=
  String.toList "#include <iostream>\n\nint main() \x7b\n  std::cout << \"hello world\\n\";\n\x7d\n"

end BaseView

/-! The splitting of a command string into parameters in the constructor of
`CompileCommands`, src/compile_commands.cc lines 34-76. The string is a list of
characters and the loop over its indices is a recursion over the characters that
are left, with the index carried along. -/

namespace CompileCommands

/-- The state of the loop of lines 34-76 of src/compile_commands.cc: the parameters
found so far and the local variables; `none` is `std::string::npos`. -/
structure Splitter where
  parameters : List (List Char)
  backslash : Bool
  single_quote : Bool
  double_quote : Bool
  parameter_start_pos : Option Nat
  parameter_size : Nat

/-- The locals as declared at lines 34-39. -/
def Splitter.start : Splitter :=
  { parameters := []
    backslash := false
    single_quote := false
    double_quote := false
    parameter_start_pos := none
    parameter_size := 0 }

/-- The call `std::string::substr(pos, len)` for `pos` within the string. -/
def substr (s : List Char) (pos len : Nat) : List Char :=
  (s.drop pos).take len

/-- The loop of lines 43-46 on what is left of the parameter from index `c` on:
a backslash that is not the last character is replaced, with the character after it,
by that character, and the loop goes on after it. -/
def remove_escaping : List Char → List Char
  | [] => []
  | [c] => [c]
  | c :: d :: rest =>
    if c = '\\' then d :: remove_escaping rest else c :: remove_escaping (d :: rest)

/-- The lambda `add_parameter`, lines 40-48, called with `parameter_start_pos` set. -/
def add_parameter (parameters_str : List Char) (pos : Nat) (st : Splitter) : Splitter :=
  { st with
    parameters :=
      st.parameters ++ [remove_escaping (substr parameters_str pos st.parameter_size)] }

/-- Lines 70-72: the character at `c` is counted for the current parameter. -/
def count_char (c : Nat) (st : Splitter) : Splitter :=
  { st with
    parameter_start_pos := if st.parameter_start_pos = none then some c else st.parameter_start_pos
    parameter_size := st.parameter_size + 1 }

/-- The body of the loop of lines 49-73 at index `c`, with `ch` the character
`parameters_str[c]`. -/
def step (parameters_str : List Char) (c : Nat) (ch : Char) (st : Splitter) : Splitter :=
  if st.backslash then count_char c { st with backslash := false }
  else if ch = '\\' then count_char c { st with backslash := true }
  else if (ch = ' ' ∨ ch = '\t') ∧ st.backslash = false ∧ st.single_quote = false ∧
      st.double_quote = false then
    match st.parameter_start_pos with
    | some pos =>
      { add_parameter parameters_str pos st with parameter_start_pos := none, parameter_size := 0 }
    | none => st
  else if ch = '\'' ∧ st.backslash = false ∧ st.double_quote = false then
    { st with single_quote := !st.single_quote }
  else if ch = '"' ∧ st.backslash = false ∧ st.single_quote = false then
    { st with double_quote := !st.double_quote }
  else count_char c st

/-- The loop of lines 49-73 from index `c` on, over the characters from `c` on. -/
def scan (parameters_str : List Char) : List Char → Nat → Splitter → Splitter
  | [], _, st => st
  | ch :: rest, c, st => scan parameters_str rest (c + 1) (step parameters_str c ch st)

/-- The parameters of a command string: lines 34-76. -/
def split_parameters (parameters_str : List Char) : List (List Char) :=
  let st := scan parameters_str parameters_str 0 Splitter.start
  match st.parameter_start_pos with
  | some pos => (add_parameter parameters_str pos st).parameters
  | none => st.parameters

/-- A space or a tab. -/
def is_blank (c : Char) : Bool :=
  c == ' ' || c == '\t'

/-- The maximal runs of characters other than space and tab of a text, in order;
the first argument is the run that has been begun. -/
def runs (current : List Char) : List Char → List (List Char)
  | [] => if current = [] then [] else [current]
  | c :: rest =>
    if is_blank c then
      if current = [] then runs [] rest else current :: runs [] rest
    else runs (current ++ [c]) rest

/-- The command string `-DX="a b"`. -/
def quoted_define : List Char :=
  ['-', 'D', 'X', '=', '"', 'a', ' ', 'b', '"']

end CompileCommands

namespace Autocomplete

/-- A key that both continues and restarts, without interactive completion. -/
def env_both_keys : Env :=
  { env_ok with
    last_keyval := 46
    is_continue_key := fun key => key == 46
    is_restart_key := fun key => key == 46 }

/-- The events `stop(); run()` once for every environment of the list. -/
def stop_run_pairs : List Env → List Event
  | [] => []
  | env :: envs => Event.stop :: Event.run env :: stop_run_pairs envs

/-- The calls `stop()` and `run()`. -/
def is_stop_or_run : Event → Bool
  | Event.stop => true
  | Event.run _ => true
  | _ => false

/-- The length of the longest run of characters of `[A-Za-z0-9_]` that ends right
before `offset`. -/
def word_run (text : List Char) (offset : Nat) : Nat :=
  ((text.take offset).reverse.takeWhile is_word_char).length

/-- The text with the `count` characters before `offset` replaced by spaces. -/
def blanked (text : List Char) (offset count : Nat) : List Char :=
  text.take (offset - count) ++ List.replicate count ' ' ++ text.drop offset

/-- The buffer captured for the worker held by a thread handle. -/
def captured_buffer : Thread → List Char
  | Thread.running _ _ buffer => buffer
  | _ => []

/-- The column captured for the worker held by a thread handle. -/
def captured_column : Thread → Int
  | Thread.running _ column_nr _ => column_nr
  | _ => 0

/-- The indices at which the loop of lines 66-71 reads `buffer[pos]`, in order. -/
def strip_word_reads : Nat → List Char → List Nat
  | 0, _ => []
  | pos + 1, buffer =>
    match buffer[pos]? with
    | some c => if is_word_char c then pos :: strip_word_reads pos (buffer.set pos ' ') else [pos]
    | none => [pos]

/-- A character that ends a line of the text buffer, alone or with another. -/
def is_line_break (c : Char) : Bool :=
  c == '\n' || c == '\r' || c == BaseView.paragraph_separator

/-- The offset at which the line of the text buffer that holds `offset` starts: the
lines before it are walked over while they end in a line break at or before
`offset`. The first argument bounds the number of lines. -/
def line_start_loop : Nat → List Char → Nat → Nat
  | 0, _, _ => 0
  | fuel + 1, text, offset =>
    if 0 < BaseView.line_end text ∧ BaseView.line_end text ≤ offset ∧
        (text[BaseView.line_end text - 1]?.map is_line_break) = some true then
      BaseView.line_end text +
        line_start_loop fuel (text.drop (BaseView.line_end text)) (offset - BaseView.line_end text)
    else 0

/-- The offset at which the line that holds `offset` starts. -/
def line_start (text : List Char) (offset : Nat) : Nat :=
  line_start_loop text.length text offset

/-- The number of bytes of the UTF-8 encoding of a text. -/
def utf8_length (text : List Char) : Nat :=
  (text.map Char.utf8Size).sum

/-- The caret of a view lies in its text and `get_line_index()` is the number of
bytes between the start of the line of the caret and the caret. -/
def caret_consistent (v : View) : Prop :=
  v.offset ≤ v.text.length ∧
  v.line_index = utf8_length ((v.text.take v.offset).drop (line_start v.text v.offset))

/-- A view with the caret at offset 11 of two lines, after `ab_c` on the second. -/
def view_second_line : View :=
  { view_at ['x', ' ', '=', ' ', '1', ';', '\n', 'é', ' ', 'a', 'b', '_', 'c', 'd'] 13 with
    line := 1
    line_index := 7 }

/-- A view with the caret in the middle of the word `foobar`. -/
def view_mid_word : View :=
  view_at ['f', 'o', 'o', 'b', 'a', 'r'] 3

/-! ## Lemmas on the operations -/

@[simp] theorem emit_state (e : Effect) (s : Autocomplete) : (emit e s).state = s.state := rfl
@[simp] theorem emit_log (e : Effect) (s : Autocomplete) : (emit e s).log = s.log ++ [e] := rfl
@[simp] theorem emit_thread (e : Effect) (s : Autocomplete) : (emit e s).thread = s.thread := rfl
@[simp] theorem emit_dispatcher (e : Effect) (s : Autocomplete) :
    (emit e s).dispatcher = s.dispatcher := rfl
@[simp] theorem emit_rows (e : Effect) (s : Autocomplete) : (emit e s).rows = s.rows := rfl
@[simp] theorem emit_pfx (e : Effect) (s : Autocomplete) : (emit e s).pfx = s.pfx := rfl
@[simp] theorem emit_pass (e : Effect) (s : Autocomplete) :
    (emit e s).pass_buffer_and_strip_word = s.pass_buffer_and_strip_word := rfl

/-- The body of a worker leaves the state, the recorded prefix and the flag alone. -/
theorem worker_body_state (w : WorkerRun) (l c : Int) (b : List Char) (s : Autocomplete) :
    (worker_body w l c b s).state = s.state ∧ (worker_body w l c b s).pfx = s.pfx ∧
    (worker_body w l c b s).pass_buffer_and_strip_word = s.pass_buffer_and_strip_word ∧
    (worker_body w l c b s).thread = Thread.returning := by
  unfold worker_body
  cases w.processing_at_lock <;> cases w.processing_at_end <;> simp [post]

/-- The statements of the body of a worker append `worker_log` to the log. -/
theorem worker_body_log (w : WorkerRun) (l c : Int) (b : List Char) (s : Autocomplete) :
    (worker_body w l c b s).log = s.log ++ worker_log w l c b := by
  unfold worker_body worker_log
  cases w.processing_at_lock <;> cases w.processing_at_end <;> simp [post]

/-- The body of a worker posts one continuation when it passes the check at the
lock, and none otherwise. -/
theorem worker_body_dispatcher (w : WorkerRun) (l c : Int) (b : List Char) (s : Autocomplete) :
    (worker_body w l c b s).dispatcher = s.dispatcher ++
      (if w.processing_at_lock then
        [if w.processing_at_end then Continuation.success else Continuation.error]
       else []) := by
  unfold worker_body
  cases w.processing_at_lock <;> cases w.processing_at_end <;> simp [post]

/-- The body of a worker that passes the check at the lock leaves exactly what
`add_rows` appended. -/
theorem worker_body_rows (w : WorkerRun) (l c : Int) (b : List Char) (s : Autocomplete) :
    (worker_body w l c b s).rows = if w.processing_at_lock then w.added else s.rows := by
  unfold worker_body
  cases w.processing_at_lock <;> cases w.processing_at_end <;> simp [post]

theorem join_log_eq (w : WorkerRun) (s : Autocomplete) :
    (join w s).log = s.log ++ join_log w s.thread := by
  unfold join join_log
  split <;> simp [*, worker_body_log, worker_return]

theorem join_state (w : WorkerRun) (s : Autocomplete) :
    (join w s).state = s.state ∧ (join w s).pfx = s.pfx ∧
    (join w s).pass_buffer_and_strip_word = s.pass_buffer_and_strip_word ∧
    (join w s).thread = Thread.empty := by
  unfold join
  split <;> simp [*, worker_body_state, worker_return]

/-- The join of lines 57-58 as a single update of the coordinator. -/
theorem join_eq (w : WorkerRun) (s : Autocomplete) :
    join w s =
      { s with
        thread := Thread.empty
        rows := join_rows w s.rows s.thread
        dispatcher := s.dispatcher ++ join_posts w s.thread
        log := s.log ++ join_log w s.thread } := by
  obtain ⟨p, st, pf, r, t, d, l⟩ := s
  cases t <;> simp [join, join_rows, join_posts, join_log, emit, worker_return]
  unfold worker_body worker_log
  cases w.processing_at_lock <;> cases w.processing_at_end <;> simp [post, emit]

/-- The call `run()` from `IDLE`, with `run_check()` and `is_processing()` true, as a
single update of the coordinator. -/
theorem run_idle (env : Env) (s : Autocomplete)
    (hc : env.run_check = true) (hp : env.is_processing = true) (hs : s.state = State.IDLE) :
    run env s =
      { s with
        state := State.STARTING
        thread := request env s.pass_buffer_and_strip_word
        rows := join_rows env.joined s.rows s.thread
        dispatcher := s.dispatcher ++ join_posts env.joined s.thread
        log := s.log ++ [Effect.before_add_rows] ++ join_log env.joined s.thread ++
          [Effect.thread_spawn, Effect.cancel_reparse] } := by
  obtain ⟨p, st, pf, r, t, d, l⟩ := s
  simp only at hs
  subst hs
  simp [run, hc, hp, join_eq, emit, cancel_reparse_unless_idle, request]

/-- The call `run()` from a state other than `IDLE`, with `run_check()` and
`is_processing()` true, changes the state only. -/
theorem run_not_idle (env : Env) (s : Autocomplete)
    (hc : env.run_check = true) (hp : env.is_processing = true) (hs : s.state ≠ State.IDLE) :
    run env s = { s with state := if s.state = State.CANCELED then State.RESTARTING else s.state } := by
  obtain ⟨p, st, pf, r, t, d, l⟩ := s
  cases st <;> simp_all [run]

theorem run_pending (env : Env) (s : Autocomplete)
    (hc : env.run_check = true) (hp : env.is_processing = true)
    (hs : s.state = State.STARTING ∨ s.state = State.RESTARTING) : run env s = s := by
  rw [run_not_idle env s hc hp (by rcases hs with h | h <;> simp [h])]
  obtain ⟨p, st, pf, r, t, d, l⟩ := s
  rcases hs with h | h <;> simp only at h <;> subst h <;> rfl

theorem run_canceled (env : Env) (s : Autocomplete)
    (hc : env.run_check = true) (hp : env.is_processing = true)
    (hs : s.state = State.CANCELED) : run env s = { s with state := State.RESTARTING } := by
  rw [run_not_idle env s hc hp (by simp [hs])]
  simp [hs]

theorem spawned_append (l₁ l₂ : List Effect) : spawned (l₁ ++ l₂) = spawned l₁ + spawned l₂ := by
  simp [spawned]

theorem spawned_join_log (w : WorkerRun) (t : Thread) : spawned (join_log w t) = 0 := by
  cases t <;> simp [join_log, spawned, worker_log]
  split <;> simp

/-- The call `stop()` as a single update of the coordinator. -/
theorem stop_eq (s : Autocomplete) :
    stop s = { s with state := if s.state = State.IDLE then State.IDLE else State.CANCELED } := by
  obtain ⟨p, st, pf, r, t, d, l⟩ := s
  cases st <;> simp [stop]

/-- The success continuation in state `RESTARTING` (lines 86-90). -/
theorem success_restarting (env : Env) (s : Autocomplete) (hs : s.state = State.RESTARTING) :
    success_continuation env s =
      run env { s with state := State.IDLE,
                       log := s.log ++ [Effect.after_add_rows, Effect.reparse] } := by
  unfold success_continuation
  simp only [emit_state]
  rw [if_pos hs]
  simp [emit]

/-- The success continuation in state `CANCELED` or with no rows (lines 91-94). -/
theorem success_discard (env : Env) (s : Autocomplete) (hs : s.state ≠ State.RESTARTING)
    (h : s.state = State.CANCELED ∨ s.rows = []) :
    success_continuation env s =
      { s with state := State.IDLE, log := s.log ++ [Effect.after_add_rows, Effect.reparse] } := by
  have h2 : s.state = State.CANCELED ∨ s.rows.isEmpty = true := by
    rcases h with h | h
    · exact Or.inl h
    · exact Or.inr (by simp [h])
  unfold success_continuation
  simp only [emit_state, emit_rows]
  rw [if_neg hs, if_pos h2]
  simp [emit]

/-- The success continuation when the anchor cannot be placed (lines 102-106). -/
theorem success_anchor_fails (env : Env) (s : Autocomplete) (hs : s.state ≠ State.RESTARTING)
    (hc : s.state ≠ State.CANCELED) (hr : s.rows ≠ [])
    (ha : anchor_fails env.view s.pfx.length = true) :
    success_continuation env s =
      { s with state := State.IDLE, log := s.log ++ [Effect.after_add_rows, Effect.reparse] } := by
  have h2 : ¬ (s.state = State.CANCELED ∨ s.rows.isEmpty = true) := by
    simp [hc, hr]
  simp only [anchor_fails] at ha
  unfold success_continuation
  simp only [emit_state, emit_rows, emit_pfx]
  rw [if_neg hs, if_neg h2, if_pos ha]
  simp [emit]

/-- The success continuation when it opens the dialog (lines 107-116). -/
theorem success_presents (env : Env) (s : Autocomplete) (hs : s.state ≠ State.RESTARTING)
    (hc : s.state ≠ State.CANCELED) (hr : s.rows ≠ [])
    (ha : anchor_fails env.view s.pfx.length = false) :
    success_continuation env s =
      { s with
        state := State.IDLE
        rows := s.rows.map (fun _ => "")
        log := s.log ++ [Effect.after_add_rows, Effect.create (anchor env.view s.pfx.length),
          Effect.setup_dialog] ++ s.rows.map Effect.add_row ++
          [Effect.begin_user_action, Effect.show] } := by
  have h2 : ¬ (s.state = State.CANCELED ∨ s.rows.isEmpty = true) := by
    simp [hc, hr]
  simp only [anchor_fails] at ha
  unfold success_continuation
  simp only [emit_state, emit_rows, emit_pfx]
  rw [if_neg hs, if_neg h2, if_neg (by simp [ha])]
  simp [emit, add_rows_to_dialog, anchor]

theorem alive_after_append (a : Option Bool) (l₁ l₂ : List Effect) :
    alive_after a (l₁ ++ l₂) = alive_after (alive_after a l₁) l₂ := by
  simp [alive_after, List.foldl_append]

theorem alive_after_add_row (a : Option Bool) (rows : List String) :
    alive_after a (rows.map Effect.add_row) = a := by
  induction rows with
  | nil => rfl
  | cons r rs ih =>
    have h : alive_step a (Effect.add_row r) = a := by
      cases a with
      | none => rfl
      | some b => cases b <;> rfl
    simpa [alive_after, h] using ih

theorem exited_append (l₁ l₂ : List Effect) : exited (l₁ ++ l₂) = exited l₁ + exited l₂ := by
  simp [exited]

theorem alive_step_other (a : Option Bool) (e : Effect)
    (h₁ : e ≠ Effect.thread_spawn) (h₂ : e ≠ Effect.thread_exit) : alive_step a e = a := by
  cases a with
  | none => cases e <;> rfl
  | some b => cases b <;> cases e <;> first | rfl | exact absurd rfl h₁ | exact absurd rfl h₂

theorem inv_init (p : Bool) : Inv (init p) := by
  simp [Inv, init, alive_after, spawned, exited, is_running, is_alive]

theorem inv_stop (s : Autocomplete) (h : Inv s) : Inv (stop s) := by
  rw [stop_eq]
  obtain ⟨h1, h2, h3, h4, h5⟩ := h
  refine ⟨h1, h2, ?_, h4, h5⟩
  intro hs
  simp only at hs
  split at hs
  · rename_i h
    exact h3 h
  · cases hs

theorem inv_cancel_reparse_unless_idle (s : Autocomplete) (h : Inv s) :
    Inv (cancel_reparse_unless_idle s) := by
  unfold cancel_reparse_unless_idle
  split
  · obtain ⟨h1, h2, h3, h4, h5⟩ := h
    refine ⟨?_, ?_, h3, h4, h5⟩
    · simp only [emit_log, alive_after_append, h1, emit_thread]
      cases is_alive s.thread <;> rfl
    · simp only [emit_log, spawned_append, exited_append, emit_thread, h2]
      simp [spawned, exited]
  · exact h

theorem is_alive_request (env : Env) (pass : Bool) : is_alive (request env pass) = true :=
  rfl

theorem inv_run (env : Env) (s : Autocomplete) (h : Inv s) : Inv (run env s) := by
  by_cases hc : env.run_check = true
  · by_cases hp : env.is_processing = true
    · by_cases hs : s.state = State.IDLE
      · rw [run_idle env s hc hp hs]
        obtain ⟨h1, h2, h3, h4, h5⟩ := h
        obtain ⟨h6, h7⟩ := h3 hs
        have hj : join_posts env.joined s.thread = [] := by
          cases ht : s.thread <;> simp_all [join_posts, is_running]
        refine ⟨?_, ?_, ?_, ?_, ?_⟩
        · simp only [alive_after_append, h1, is_alive_request]
          cases ht : s.thread with
          | running l c b => rw [ht] at h6; cases h6
          | empty => rfl
          | returning => rfl
          | finished => rfl
        · simp only [spawned_append, exited_append, h2, is_alive_request]
          cases ht : s.thread with
          | running l c b => rw [ht] at h6; cases h6
          | empty => simp [spawned, exited, join_log, is_alive]
          | returning => simp [spawned, exited, join_log, is_alive]
          | finished => simp [spawned, exited, join_log, is_alive]
        · intro hh; cases hh
        · intro _; simp [h7, hj]
        · simp [h7, hj]
      · rw [run_not_idle env s hc hp hs]
        obtain ⟨h1, h2, h3, h4, h5⟩ := h
        refine ⟨h1, h2, ?_, h4, h5⟩
        intro hh
        simp only at hh
        split at hh
        · cases hh
        · exact absurd hh hs
    · have : run env s = s := by simp [run, hc, hp]
      rw [this]; exact h
  · have : run env s = cancel_reparse_unless_idle s := by simp [run, hc]
    rw [this]; exact inv_cancel_reparse_unless_idle s h

/-- The statements of the body of a worker as a single update of the coordinator. -/
theorem worker_body_eq (w : WorkerRun) (l c : Int) (b : List Char) (s : Autocomplete) :
    worker_body w l c b s =
      { s with
        thread := Thread.returning
        rows := if w.processing_at_lock then w.added else s.rows
        dispatcher := s.dispatcher ++
          (if w.processing_at_lock then
            [if w.processing_at_end then Continuation.success else Continuation.error]
           else [])
        log := s.log ++ worker_log w l c b } := by
  unfold worker_body worker_log
  cases w.processing_at_lock <;> cases w.processing_at_end <;> simp [post, emit]

theorem alive_after_worker_log (w : WorkerRun) (l c : Int) (b : List Char) :
    alive_after (some true) (worker_log w l c b) = some true := by
  unfold worker_log
  split <;> rfl

theorem spawned_worker_log (w : WorkerRun) (l c : Int) (b : List Char) :
    spawned (worker_log w l c b) = 0 ∧ exited (worker_log w l c b) = 0 := by
  unfold worker_log
  split <;> simp [spawned, exited]

theorem count_add_row (rows : List String) :
    spawned (rows.map Effect.add_row) = 0 ∧ exited (rows.map Effect.add_row) = 0 := by
  induction rows with
  | nil => exact ⟨rfl, rfl⟩
  | cons r rs ih =>
    obtain ⟨h1, h2⟩ := ih
    simp only [spawned, exited] at h1 h2 ⊢
    simp [List.count_cons, h1, h2]

theorem inv_worker (w : WorkerRun) (s : Autocomplete) (h : Inv s) : Inv (worker w s) := by
  unfold worker
  split
  · rename_i l c b ht
    rw [worker_body_eq]
    obtain ⟨h1, h2, h3, h4, h5⟩ := h
    have hr : is_running s.thread = true := by rw [ht]; rfl
    have ha : is_alive s.thread = true := by rw [ht]; rfl
    have hd := h4 hr
    refine ⟨?_, ?_, ?_, ?_, ?_⟩
    · simp only [alive_after_append, h1, ha, alive_after_worker_log]
      rfl
    · simp only [spawned_append, exited_append, h2, ha, spawned_worker_log]
      simp [is_alive]
    · intro hs
      have := (h3 hs).1
      rw [hr] at this
      cases this
    · intro hh; cases hh
    · simp only [hd]
      split <;> simp
  · exact h

theorem inv_error (s : Autocomplete) (rest : List Continuation) (h : Inv s)
    (hd : s.dispatcher = Continuation.error :: rest) :
    Inv (error_continuation { s with dispatcher := rest }) := by
  obtain ⟨h1, h2, h3, h4, h5⟩ := h
  have hrest : rest = [] := by
    rw [hd] at h5
    simpa using h5
  have hr : is_running s.thread = false := by
    cases hh : is_running s.thread
    · rfl
    · have := h4 hh
      rw [hd] at this
      cases this
  subst hrest
  refine ⟨?_, ?_, ?_, ?_, ?_⟩
  · simp only [error_continuation, emit_log, emit_thread, alive_after_append, h1]
    cases is_alive s.thread <;> rfl
  · simp only [error_continuation, emit_log, emit_thread, spawned_append, exited_append, h2]
    simp [spawned, exited]
  · intro hs; cases hs
  · intro _; rfl
  · simp [error_continuation]

theorem inv_success (env : Env) (s : Autocomplete) (rest : List Continuation) (h : Inv s)
    (hd : s.dispatcher = Continuation.success :: rest) :
    Inv (success_continuation env { s with dispatcher := rest }) := by
  obtain ⟨h1, h2, h3, h4, h5⟩ := h
  have hrest : rest = [] := by
    rw [hd] at h5
    simpa using h5
  have hr : is_running s.thread = false := by
    cases hh : is_running s.thread
    · rfl
    · have := h4 hh
      rw [hd] at this
      cases this
  subst hrest
  have hidle : Inv
      { s with
        state := State.IDLE
        dispatcher := []
        log := s.log ++ [Effect.after_add_rows, Effect.reparse] } := by
    refine ⟨?_, ?_, ?_, ?_, ?_⟩
    · simp only [alive_after_append, h1]
      cases is_alive s.thread <;> rfl
    · simp only [spawned_append, exited_append, h2]
      simp [spawned, exited]
    · intro _; exact ⟨hr, rfl⟩
    · intro _; rfl
    · simp
  by_cases hs : s.state = State.RESTARTING
  · rw [success_restarting env { s with dispatcher := [] } hs]
    exact inv_run env _ hidle
  · by_cases hx : s.state = State.CANCELED ∨ s.rows = []
    · rw [success_discard env { s with dispatcher := [] } hs hx]
      exact hidle
    · have hc : s.state ≠ State.CANCELED := fun e => hx (Or.inl e)
      have hrw : s.rows ≠ [] := fun e => hx (Or.inr e)
      cases ha : anchor_fails env.view s.pfx.length
      · rw [success_presents env { s with dispatcher := [] } hs hc hrw ha]
        refine ⟨?_, ?_, ?_, ?_, ?_⟩
        · simp only [alive_after_append, h1, alive_after_add_row]
          cases is_alive s.thread <;> rfl
        · simp only [spawned_append, exited_append, h2, count_add_row]
          simp [spawned, exited]
        · intro _; exact ⟨hr, rfl⟩
        · intro _; rfl
        · simp
      · rw [success_anchor_fails env { s with dispatcher := [] } hs hc hrw ha]
        exact hidle

theorem inv_worker_exit (s : Autocomplete) (h : Inv s) : Inv (worker_exit s) := by
  unfold worker_exit
  split
  · rename_i ht
    obtain ⟨h1, h2, h3, h4, h5⟩ := h
    have ha : is_alive s.thread = true := by rw [ht]; rfl
    refine ⟨?_, ?_, ?_, ?_, h5⟩
    · simp only [worker_return, emit_log, emit_thread, alive_after_append, h1, ha]
      rfl
    · simp only [worker_return, emit_log, emit_thread, spawned_append, exited_append, h2, ha]
      simp [spawned, exited, is_alive]
    · intro hs
      exact ⟨rfl, (h3 hs).2⟩
    · intro hh; cases hh
  · exact h

theorem inv_deliver (env : Env) (s : Autocomplete) (h : Inv s) : Inv (deliver env s) := by
  unfold deliver
  split
  · exact h
  · rename_i rest hd
    exact inv_success env s rest h hd
  · rename_i rest hd
    exact inv_error s rest h hd

theorem inv_signal_changed (env : Env) (s : Autocomplete) (h : Inv s) :
    Inv (signal_changed env s) := by
  unfold signal_changed
  split
  · obtain ⟨h1, h2, h3, h4, h5⟩ := h
    refine ⟨?_, ?_, h3, h4, h5⟩
    · simp only [emit_log, alive_after_append, h1, emit_thread]
      cases is_alive s.thread <;> rfl
    · simp only [emit_log, spawned_append, exited_append, emit_thread, h2]
      simp [spawned, exited]
  · split
    · exact h
    · split
      · exact inv_run env s h
      · simp only []
        split
        · exact inv_run env _ (inv_stop s h)
        · exact inv_stop s h

/-- Every event keeps the invariant. -/
theorem inv_step (s : Autocomplete) (e : Event) (h : Inv s) : Inv (step s e) := by
  cases e with
  | run env => exact inv_run env s h
  | stop => exact inv_stop s h
  | changed env => exact inv_signal_changed env s h
  | mark_set name =>
    simp only [step, signal_mark_set]
    split
    · exact inv_stop s h
    · exact h
  | focus_out => exact inv_stop s h
  | worker w => exact inv_worker w s h
  | exit => exact inv_worker_exit s h
  | deliver env => exact inv_deliver env s h

/-- The invariant holds after every sequence of events. -/
theorem inv_exec (events : List Event) (s : Autocomplete) (h : Inv s) : Inv (exec s events) := by
  induction events generalizing s with
  | nil => exact h
  | cons e es ih => exact ih (step s e) (inv_step s e h)

/-- The call `run()` spawns a worker only from `IDLE`, whatever the hooks answer. -/
theorem run_spawned_idle (env : Env) (s : Autocomplete)
    (h : spawned (run env s).log ≠ spawned s.log) : s.state = State.IDLE := by
  by_contra hs
  apply h
  by_cases hc : env.run_check = true
  · by_cases hp : env.is_processing = true
    · rw [run_not_idle env s hc hp hs]
    · have : run env s = s := by simp [run, hc, hp]
      rw [this]
  · have : run env s = cancel_reparse_unless_idle s := by simp [run, hc]
    rw [this]
    simp [cancel_reparse_unless_idle, hs, spawned]

theorem stop_idle (s : Autocomplete) (h : (stop s).state = State.IDLE) : s.state = State.IDLE := by
  rw [stop_eq] at h
  simp only at h
  split at h
  · assumption
  · cases h

theorem signal_changed_spawned_idle (env : Env) (s : Autocomplete)
    (h : spawned (signal_changed env s).log ≠ spawned s.log) : s.state = State.IDLE := by
  unfold signal_changed at h
  split at h
  · simp [spawned] at h
  · split at h
    · exact absurd rfl h
    · split at h
      · exact run_spawned_idle env s h
      · simp only [] at h
        split at h
        · have h2 : (stop s).log = s.log := by rw [stop_eq]
          rw [← h2] at h
          exact stop_idle s (run_spawned_idle env _ h)
        · rw [stop_eq] at h
          exact absurd rfl h

theorem step_spawned (s : Autocomplete) (e : Event)
    (h : spawned (step s e).log ≠ spawned s.log) :
    s.state = State.IDLE ∨ s.dispatcher ≠ [] := by
  cases e with
  | run env => exact Or.inl (run_spawned_idle env s h)
  | stop => simp only [step] at h; rw [stop_eq] at h; exact absurd rfl h
  | changed env => exact Or.inl (signal_changed_spawned_idle env s h)
  | mark_set name =>
    simp only [step, signal_mark_set] at h
    split at h
    · rw [stop_eq] at h; exact absurd rfl h
    · exact absurd rfl h
  | focus_out => simp only [step, signal_focus_out] at h; rw [stop_eq] at h; exact absurd rfl h
  | worker w =>
    simp only [step, worker] at h
    split at h
    · rw [worker_body_eq] at h
      simp only [spawned_append, (spawned_worker_log _ _ _ _).1] at h
      exact absurd rfl h
    · exact absurd rfl h
  | exit =>
    simp only [step, worker_exit, worker_return] at h
    split at h
    · simp [spawned] at h
    · exact absurd rfl h
  | deliver env =>
    right
    intro hd
    simp only [step, deliver, hd] at h
    exact absurd rfl h

theorem inv_not_running (s : Autocomplete) (h : Inv s)
    (hs : s.state = State.IDLE ∨ s.dispatcher ≠ []) : is_running s.thread = false := by
  obtain ⟨_, _, h3, h4, _⟩ := h
  rcases hs with hs | hs
  · exact (h3 hs).1
  · cases hh : is_running s.thread
    · rfl
    · exact absurd (h4 hh) hs

theorem alive_after_none (l : List Effect) : alive_after none l = none := by
  induction l with
  | nil => rfl
  | cons e es ih =>
    have : alive_step none e = none := by cases e <;> rfl
    simpa [alive_after, this] using ih

/-- A log that passes the check `alive_after` has as many spawns as returns, up to
the worker alive before and the worker alive after. -/
theorem alive_after_count (l : List Effect) (a b : Bool)
    (h : alive_after (some a) l = some b) :
    spawned l + (if a = true then 1 else 0) = exited l + (if b = true then 1 else 0) := by
  induction l generalizing a with
  | nil =>
    simp only [alive_after, List.foldl] at h
    cases h
    simp [spawned, exited]
  | cons e es ih =>
    have hcons : alive_after (some a) (e :: es) = alive_after (alive_step (some a) e) es := rfl
    rw [hcons] at h
    by_cases h₁ : e = Effect.thread_spawn
    · subst h₁
      cases a with
      | true =>
        have : alive_step (some true) Effect.thread_spawn = none := rfl
        rw [this, alive_after_none] at h
        cases h
      | false =>
        have : alive_step (some false) Effect.thread_spawn = some true := rfl
        rw [this] at h
        have := ih true h
        simp only [spawned, exited] at this ⊢
        simp [List.count_cons] at this ⊢
        omega
    · by_cases h₂ : e = Effect.thread_exit
      · subst h₂
        cases a with
        | false =>
          have : alive_step (some false) Effect.thread_exit = none := rfl
          rw [this, alive_after_none] at h
          cases h
        | true =>
          have : alive_step (some true) Effect.thread_exit = some false := rfl
          rw [this] at h
          have := ih false h
          simp only [spawned, exited] at this ⊢
          simp [List.count_cons] at this ⊢
          omega
      · rw [alive_step_other _ e h₁ h₂] at h
        have := ih a h
        have e₁ : (e == Effect.thread_spawn) = false := by simpa using h₁
        have e₂ : (e == Effect.thread_exit) = false := by simpa using h₂
        simp only [spawned, exited] at this ⊢
        simp [List.count_cons, e₁, e₂] at this ⊢
        omega

/-- In a log that passes the check `alive_after`, every worker spawned before a
spawn has returned before it. -/
theorem alive_after_spawn (l₁ l₂ : List Effect) (b : Bool)
    (h : alive_after (some false) (l₁ ++ Effect.thread_spawn :: l₂) = some b) :
    exited l₁ = spawned l₁ := by
  rw [alive_after_append] at h
  cases h₁ : alive_after (some false) l₁ with
  | none =>
    rw [h₁, alive_after_none] at h
    cases h
  | some a =>
    cases a with
    | true =>
      rw [h₁] at h
      have : alive_after (some true) (Effect.thread_spawn :: l₂) = alive_after none l₂ := rfl
      rw [this, alive_after_none] at h
      cases h
    | false =>
      have := alive_after_count l₁ false false h₁
      simpa using this.symm

theorem presentation_append (l₁ l₂ : List Effect) :
    presentation (l₁ ++ l₂) = presentation l₁ ++ presentation l₂ := by
  simp [presentation]

theorem presentation_worker_log (w : WorkerRun) (l c : Int) (b : List Char) :
    presentation (worker_log w l c b) = [] := by
  unfold worker_log
  split <;> rfl

theorem presentation_join_log (w : WorkerRun) (t : Thread) :
    presentation (join_log w t) = [] := by
  cases t with
  | empty => rfl
  | running l c b =>
    simp only [join_log, presentation_append, presentation_worker_log]
    rfl
  | returning => rfl
  | finished => rfl

theorem presentation_add_row (rows : List String) :
    presentation (rows.map Effect.add_row) = rows.map Effect.add_row := by
  induction rows with
  | nil => rfl
  | cons r rs ih =>
    simp only [presentation] at ih
    simp [presentation, is_presentation, ih]

theorem presentation_run (env : Env) (s : Autocomplete) :
    presentation (run env s).log = presentation s.log := by
  by_cases hc : env.run_check = true
  · by_cases hp : env.is_processing = true
    · by_cases hs : s.state = State.IDLE
      · rw [run_idle env s hc hp hs]
        simp only [presentation_append, presentation_join_log]
        simp [presentation, is_presentation]
      · rw [run_not_idle env s hc hp hs]
    · have : run env s = s := by simp [run, hc, hp]
      rw [this]
  · have : run env s = cancel_reparse_unless_idle s := by simp [run, hc]
    rw [this]
    unfold cancel_reparse_unless_idle
    split
    · simp [presentation, is_presentation]
    · rfl

/-- From an idle coordinator whose thread handle holds no running worker, an
admitted `run()` changes the state, the thread handle and the log only. -/
theorem run_fresh (env : Env) (s : Autocomplete)
    (hc : env.run_check = true) (hp : env.is_processing = true) (hs : s.state = State.IDLE)
    (ht : is_running s.thread = false) :
    run env s =
      { s with
        state := State.STARTING
        thread := request env s.pass_buffer_and_strip_word
        log := s.log ++ [Effect.before_add_rows] ++ join_log env.joined s.thread ++
          [Effect.thread_spawn, Effect.cancel_reparse] } := by
  rw [run_idle env s hc hp hs]
  obtain ⟨p, st, pf, r, t, d, l⟩ := s
  cases t <;> simp_all [join_rows, join_posts, is_running]

/-- The state after an admitted `run()` from an idle coordinator and the body of
the admitted worker passing both checks of `is_processing()`. -/
theorem run_worker_fresh (env : Env) (w : WorkerRun) (s : Autocomplete)
    (hc : env.run_check = true) (hp : env.is_processing = true) (hs : s.state = State.IDLE)
    (ht : is_running s.thread = false)
    (hw₁ : w.processing_at_lock = true) (hw₂ : w.processing_at_end = true) :
    worker w (run env s) =
      { s with
        state := State.STARTING
        thread := Thread.returning
        rows := w.added
        dispatcher := s.dispatcher ++ [Continuation.success]
        log := (run env s).log ++
          [Effect.get_parse_lock, Effect.stop_parse,
            Effect.add_rows
              (if s.pass_buffer_and_strip_word then
                strip_word env.view.offset env.view.text ((env.view.line_index : Int) + 1)
               else ([], (env.view.line_index : Int) + 1)).1
              ((env.view.line : Int) + 1)
              (if s.pass_buffer_and_strip_word then
                strip_word env.view.offset env.view.text ((env.view.line_index : Int) + 1)
               else ([], (env.view.line_index : Int) + 1)).2,
            Effect.post Continuation.success] } := by
  rw [run_fresh env s hc hp hs ht]
  simp [worker, request, worker_body_eq, worker_log, hw₁, hw₂]

theorem count_reparse_join_log (w : WorkerRun) (t : Thread) :
    (join_log w t).count Effect.reparse = 0 := by
  cases t <;> simp [join_log, worker_log]
  split <;> simp

theorem starts_worker_idle (env : Env) (s : Autocomplete)
    (hc : env.run_check = true) (hp : env.is_processing = true) (hs : s.state = State.IDLE) :
    starts_worker env s := by
  unfold starts_worker
  rw [run_idle env s hc hp hs]
  refine ⟨rfl, ?_⟩
  simp only [spawned_append, spawned_join_log]
  simp [spawned]

theorem exec_snoc (s : Autocomplete) (events : List Event) (e : Event) :
    exec s (events ++ [e]) = step (exec s events) e := by
  simp [exec, List.foldl_append]

theorem success_spawned (env : Env) (s : Autocomplete) (hs : s.state ≠ State.RESTARTING) :
    spawned (success_continuation env s).log = spawned s.log := by
  by_cases hx : s.state = State.CANCELED ∨ s.rows = []
  · rw [success_discard env s hs hx]
    simp [spawned]
  · have hc : s.state ≠ State.CANCELED := fun e => hx (Or.inl e)
    have hrw : s.rows ≠ [] := fun e => hx (Or.inr e)
    cases ha : anchor_fails env.view s.pfx.length
    · rw [success_presents env s hs hc hrw ha]
      simp only [spawned_append, count_add_row]
      simp [spawned]
    · rw [success_anchor_fails env s hs hc hrw ha]
      simp [spawned]

theorem presentation_success_empty (env : Env) (s : Autocomplete) (h : s.rows = []) :
    presentation (success_continuation env s).log = presentation s.log := by
  by_cases hs : s.state = State.RESTARTING
  · rw [success_restarting env s hs, presentation_run]
    simp [presentation, is_presentation]
  · rw [success_discard env s hs (Or.inr h)]
    simp [presentation, is_presentation]

theorem run_state_not_idle (env : Env) (s : Autocomplete) (hs : s.state ≠ State.IDLE) :
    (run env s).state ≠ State.IDLE := by
  by_cases hc : env.run_check = true
  · by_cases hp : env.is_processing = true
    · rw [run_not_idle env s hc hp hs]
      simp only
      split
      · simp
      · exact hs
    · have : run env s = s := by simp [run, hc, hp]
      rw [this]
      exact hs
  · have : run env s = cancel_reparse_unless_idle s := by simp [run, hc]
    rw [this]
    simp [cancel_reparse_unless_idle, hs, emit]

theorem run_spawned_not_idle (env : Env) (s : Autocomplete) (hs : s.state ≠ State.IDLE) :
    spawned (run env s).log = spawned s.log := by
  by_contra h
  exact hs (run_spawned_idle env s h)

theorem run_thread_not_idle (env : Env) (s : Autocomplete) (hs : s.state ≠ State.IDLE) :
    (run env s).thread = s.thread ∧ (run env s).dispatcher = s.dispatcher := by
  by_cases hc : env.run_check = true
  · by_cases hp : env.is_processing = true
    · rw [run_not_idle env s hc hp hs]
      exact ⟨rfl, rfl⟩
    · have : run env s = s := by simp [run, hc, hp]
      rw [this]
      exact ⟨rfl, rfl⟩
  · have : run env s = cancel_reparse_unless_idle s := by simp [run, hc]
    rw [this]
    simp [cancel_reparse_unless_idle, hs, emit]

theorem stop_state_not_idle (s : Autocomplete) (hs : s.state ≠ State.IDLE) :
    (stop s).state = State.CANCELED := by
  rw [stop_eq]
  simp [hs]

theorem signal_changed_not_idle (env : Env) (s : Autocomplete) (hs : s.state ≠ State.IDLE) :
    (signal_changed env s).state ≠ State.IDLE ∧
    spawned (signal_changed env s).log = spawned s.log ∧
    (signal_changed env s).thread = s.thread ∧
    (signal_changed env s).dispatcher = s.dispatcher := by
  have hstop : (stop s).state ≠ State.IDLE := by rw [stop_state_not_idle s hs]; simp
  have hstop2 : stop s = { s with state := State.CANCELED } := by rw [stop_eq]; simp [hs]
  unfold signal_changed
  split
  · simp [emit, hs, spawned]
  · split
    · exact ⟨hs, rfl, rfl, rfl⟩
    · split
      · exact ⟨run_state_not_idle env s hs, run_spawned_not_idle env s hs,
          run_thread_not_idle env s hs⟩
      · simp only []
        split
        · refine ⟨run_state_not_idle env _ hstop, ?_, ?_⟩
          · rw [run_spawned_not_idle env _ hstop, hstop2]
          · rw [(run_thread_not_idle env _ hstop).1, (run_thread_not_idle env _ hstop).2, hstop2]
            exact ⟨rfl, rfl⟩
        · rw [hstop2]
          simp

/-- From a state other than `IDLE`, with nothing posted and no worker that has its
body to run, an event leaves all of this so and spawns no worker. -/
theorem step_stuck (s : Autocomplete) (e : Event)
    (hs : s.state ≠ State.IDLE) (hd : s.dispatcher = []) (ht : is_running s.thread = false) :
    (step s e).state ≠ State.IDLE ∧ (step s e).dispatcher = [] ∧
    is_running (step s e).thread = false ∧ spawned (step s e).log = spawned s.log := by
  have hstop2 : stop s = { s with state := State.CANCELED } := by rw [stop_eq]; simp [hs]
  cases e with
  | run env =>
    simp only [step]
    rw [(run_thread_not_idle env s hs).1, (run_thread_not_idle env s hs).2]
    exact ⟨run_state_not_idle env s hs, hd, ht, run_spawned_not_idle env s hs⟩
  | stop => simp only [step]; rw [hstop2]; simp [hd, ht]
  | changed env =>
    simp only [step]
    obtain ⟨h1, h2, h3, h4⟩ := signal_changed_not_idle env s hs
    rw [h3, h4]
    exact ⟨h1, hd, ht, h2⟩
  | mark_set name =>
    simp only [step, signal_mark_set]
    split
    · rw [hstop2]; simp [hd, ht]
    · exact ⟨hs, hd, ht, rfl⟩
  | focus_out => simp only [step, signal_focus_out]; rw [hstop2]; simp [hd, ht]
  | worker w =>
    simp only [step, worker]
    split
    · rename_i l c b h
      rw [h] at ht
      simp [is_running] at ht
    · exact ⟨hs, hd, ht, rfl⟩
  | exit =>
    simp only [step, worker_exit]
    split
    · simp [worker_return, emit, hs, hd, is_running, spawned]
    · exact ⟨hs, hd, ht, rfl⟩
  | deliver env =>
    simp only [step, deliver, hd]
    exact ⟨hs, trivial, ht, trivial⟩

theorem exec_stuck (events : List Event) (s : Autocomplete)
    (hs : s.state ≠ State.IDLE) (hd : s.dispatcher = []) (ht : is_running s.thread = false) :
    (exec s events).state ≠ State.IDLE ∧ (exec s events).dispatcher = [] ∧
    is_running (exec s events).thread = false ∧ spawned (exec s events).log = spawned s.log := by
  induction events generalizing s with
  | nil => exact ⟨hs, hd, ht, rfl⟩
  | cons e es ih =>
    obtain ⟨h1, h2, h3, h4⟩ := step_stuck s e hs hd ht
    have := ih (step s e) h1 h2 h3
    rw [h4] at this
    exact this

/-- Calls of `stop()` and `run()` from a state other than `IDLE` change the state
only or log `cancel_reparse()`: no worker is spawned and the state is not `IDLE`. -/
theorem exec_stop_run (events : List Event) (s : Autocomplete)
    (hs : s.state ≠ State.IDLE) (he : ∀ e ∈ events, is_stop_or_run e = true) :
    (exec s events).state ≠ State.IDLE ∧ spawned (exec s events).log = spawned s.log ∧
    (exec s events).dispatcher = s.dispatcher ∧ (exec s events).thread = s.thread ∧
    presentation (exec s events).log = presentation s.log ∧
    (exec s events).log.count Effect.reparse = s.log.count Effect.reparse := by
  induction events generalizing s with
  | nil => exact ⟨hs, rfl, rfl, rfl, rfl, rfl⟩
  | cons e es ih =>
    have he' : ∀ e ∈ es, is_stop_or_run e = true := fun x hx => he x (List.mem_cons_of_mem _ hx)
    have h0 := he e (List.mem_cons_self _ _)
    cases e with
    | run env =>
      have := ih (run env s) (run_state_not_idle env s hs) he'
      simp only [exec, List.foldl_cons, step] at this ⊢
      rw [run_spawned_not_idle env s hs, (run_thread_not_idle env s hs).1,
        (run_thread_not_idle env s hs).2, presentation_run] at this
      refine ⟨this.1, this.2.1, this.2.2.1, this.2.2.2.1, this.2.2.2.2.1, ?_⟩
      rw [this.2.2.2.2.2]
      by_cases hc : env.run_check = true
      · by_cases hp : env.is_processing = true
        · rw [run_not_idle env s hc hp hs]
        · have : run env s = s := by simp [run, hc, hp]
          rw [this]
      · have : run env s = cancel_reparse_unless_idle s := by simp [run, hc]
        rw [this]
        simp [cancel_reparse_unless_idle, hs, emit]
    | stop =>
      have hstop2 : stop s = { s with state := State.CANCELED } := by rw [stop_eq]; simp [hs]
      have := ih (stop s) (by rw [hstop2]; simp) he'
      simp only [exec, List.foldl_cons, step] at this ⊢
      rw [hstop2] at this ⊢
      exact this
    | changed env => simp [is_stop_or_run] at h0
    | mark_set name => simp [is_stop_or_run] at h0
    | focus_out => simp [is_stop_or_run] at h0
    | worker w => simp [is_stop_or_run] at h0
    | exit => simp [is_stop_or_run] at h0
    | deliver env => simp [is_stop_or_run] at h0

/-- After at least one `stop(); run()` from a state other than `IDLE`, with
`run_check()` and `is_processing()` true, the state is `RESTARTING` and nothing else
has changed. -/
theorem exec_stop_run_pairs (envs : List Env) (s : Autocomplete)
    (hs : s.state ≠ State.IDLE) (hn : envs ≠ [])
    (he : ∀ env ∈ envs, env.run_check = true ∧ env.is_processing = true) :
    exec s (stop_run_pairs envs) = { s with state := State.RESTARTING } := by
  induction envs generalizing s with
  | nil => exact absurd rfl hn
  | cons env envs ih =>
    obtain ⟨hc, hp⟩ := he env (List.mem_cons_self _ _)
    have hstop2 : stop s = { s with state := State.CANCELED } := by rw [stop_eq]; simp [hs]
    have h1 : exec s (stop_run_pairs (env :: envs)) =
        exec { s with state := State.RESTARTING } (stop_run_pairs envs) := by
      simp only [stop_run_pairs, exec, List.foldl_cons, step]
      rw [hstop2, run_canceled env _ hc hp rfl]
    rw [h1]
    cases envs with
    | nil => rfl
    | cons env2 rest =>
      rw [ih { s with state := State.RESTARTING } (by simp) (by simp)
        (fun x hx => he x (List.mem_cons_of_mem _ hx))]

theorem word_run_le (text : List Char) (offset : Nat) : word_run text offset ≤ offset := by
  unfold word_run
  calc ((text.take offset).reverse.takeWhile is_word_char).length
      ≤ (text.take offset).reverse.length := (List.takeWhile_sublist _).length_le
    _ ≤ offset := by simp

theorem word_run_succ (text : List Char) (pos : Nat) (c : Char) (h : text[pos]? = some c) :
    word_run text (pos + 1) = if is_word_char c then word_run text pos + 1 else 0 := by
  unfold word_run
  rw [List.take_succ, h]
  simp only [Option.toList, List.reverse_append, List.reverse_cons, List.reverse_nil,
    List.nil_append, List.singleton_append, List.takeWhile_cons]
  split <;> simp

theorem word_run_set (text : List Char) (pos : Nat) (a : Char) :
    word_run (text.set pos a) pos = word_run text pos := by
  unfold word_run
  have : (text.set pos a).take pos = text.take pos := by
    apply List.ext_getElem?
    intro i
    simp only [List.getElem?_take, List.getElem?_set]
    by_cases hi : i < pos
    · have : ¬ pos = i := by omega
      simp [hi, this]
    · simp [hi]
  rw [this]

theorem take_set_lt (text : List Char) (pos k : Nat) (a : Char) (h : k ≤ pos) :
    (text.set pos a).take k = text.take k := by
  apply List.ext_getElem?
  intro i
  simp only [List.getElem?_take, List.getElem?_set]
  by_cases hi : i < k
  · have : ¬ pos = i := by omega
    simp [hi, this]
  · simp [hi]

theorem drop_set_self (text : List Char) (pos : Nat) (a : Char) (h : pos < text.length) :
    (text.set pos a).drop pos = a :: text.drop (pos + 1) := by
  rw [List.set_eq_take_append_cons_drop, if_pos h]
  have hl : (text.take pos).length = pos := by simp; omega
  rw [List.drop_append_of_le_length (by omega), List.drop_of_length_le (by omega)]
  simp

/-- The loop of lines 66-71 blanks the run of word characters before the caret and
takes its length from the column. -/
theorem strip_word_eq (offset : Nat) (text : List Char) (column_nr : Int)
    (h : offset ≤ text.length) :
    strip_word offset text column_nr =
      (blanked text offset (word_run text offset), column_nr - word_run text offset) := by
  induction offset generalizing text column_nr with
  | zero => simp [strip_word, word_run, blanked]
  | succ pos ih =>
    have hlt : pos < text.length := h
    have hc : text[pos]? = some text[pos] := List.getElem?_eq_getElem hlt
    rw [strip_word, hc, word_run_succ text pos _ hc]
    simp only []
    by_cases hw : is_word_char text[pos] = true
    · rw [if_pos hw, if_pos hw, ih _ _ (by simp; omega), word_run_set]
      have hr := word_run_le text pos
      have e1 : (text.set pos ' ').take (pos - word_run text pos) =
          text.take (pos - word_run text pos) := take_set_lt _ _ _ _ (by omega)
      have e2 : pos + 1 - (word_run text pos + 1) = pos - word_run text pos := by omega
      simp only [blanked, e1, e2, drop_set_self _ _ _ hlt, List.replicate_succ']
      refine Prod.ext ?_ ?_
      · simp
      · simp only [Nat.cast_add, Nat.cast_one]
        omega
    · rw [if_neg hw, if_neg hw]
      simp [blanked]

theorem blanked_length (text : List Char) (offset count : Nat)
    (h : offset ≤ text.length) (hc : count ≤ offset) :
    (blanked text offset count).length = text.length := by
  simp [blanked]
  omega

theorem blanked_getElem? (text : List Char) (offset count i : Nat)
    (h : offset ≤ text.length) (hc : count ≤ offset) :
    (blanked text offset count)[i]? =
      if offset - count ≤ i ∧ i < offset then some ' ' else text[i]? := by
  have hl : (text.take (offset - count)).length = offset - count := by simp; omega
  simp only [blanked, List.append_assoc, List.getElem?_append, hl, List.length_replicate,
    List.getElem?_take, List.getElem?_replicate, List.getElem?_drop]
  by_cases h1 : i < offset - count
  · have : ¬ (offset - count ≤ i ∧ i < offset) := by omega
    rw [if_pos h1, if_pos h1, if_neg this]
  · by_cases h2 : i - (offset - count) < count
    · have : offset - count ≤ i ∧ i < offset := by omega
      rw [if_neg h1, if_pos h2, if_pos h2, if_pos this]
    · have : ¬ (offset - count ≤ i ∧ i < offset) := by omega
      rw [if_neg h1, if_neg h2, if_neg this]
      congr 1
      omega

/-- The characters of the run before `offset` are word characters. -/
theorem word_run_chars (text : List Char) (offset i : Nat) (h : offset ≤ text.length)
    (h1 : offset - word_run text offset ≤ i) (h2 : i < offset) :
    ∃ c, text[i]? = some c ∧ is_word_char c = true := by
  induction offset with
  | zero => omega
  | succ pos ih =>
    have hlt : pos < text.length := h
    have hc : text[pos]? = some text[pos] := List.getElem?_eq_getElem hlt
    rw [word_run_succ text pos _ hc] at h1
    by_cases hw : is_word_char text[pos] = true
    · rw [if_pos hw] at h1
      by_cases hi : i = pos
      · exact ⟨text[pos], by rw [hi, hc], hw⟩
      · exact ih (by omega) (by omega) (by omega)
    · rw [if_neg hw] at h1
      omega

/-- The character before the run, if there is one, is not a word character. -/
theorem word_run_maximal (text : List Char) (offset : Nat) (c : Char)
    (h : offset ≤ text.length) (h1 : word_run text offset < offset)
    (h2 : text[offset - word_run text offset - 1]? = some c) : is_word_char c = false := by
  induction offset with
  | zero => omega
  | succ pos ih =>
    have hlt : pos < text.length := h
    have hc : text[pos]? = some text[pos] := List.getElem?_eq_getElem hlt
    rw [word_run_succ text pos _ hc] at h1 h2
    by_cases hw : is_word_char text[pos] = true
    · rw [if_pos hw] at h1 h2
      have e : pos + 1 - (word_run text pos + 1) - 1 = pos - word_run text pos - 1 := by omega
      rw [e] at h2
      exact ih (by omega) (by omega) h2
    · rw [if_neg hw] at h1 h2
      simp only [Nat.sub_zero, Nat.add_sub_cancel] at h2
      rw [hc] at h2
      cases h2
      simpa using hw

theorem utf8_size_of_le (c d : Char) (h : c ≤ d) (hd : d.val.toNat ≤ 127) :
    c.utf8Size = 1 := by
  have h1 : c.val ≤ d.val := Char.le_def.mp h
  have h2 : c.val.toNat ≤ d.val.toNat := UInt32.le_def.mp h1
  have h3 : c.val ≤ UInt32.ofNatCore 127 (by decide) := by
    rw [UInt32.le_def]
    show c.val.toNat ≤ 127
    omega
  unfold Char.utf8Size
  simp only []
  rw [if_pos h3]

theorem is_word_char_utf8 (c : Char) (h : is_word_char c = true) : c.utf8Size = 1 := by
  simp only [is_word_char, Bool.or_eq_true, Bool.and_eq_true, decide_eq_true_eq,
    beq_iff_eq] at h
  rcases h with ((⟨_, h⟩ | ⟨_, h⟩) | ⟨_, h⟩) | h
  · exact utf8_size_of_le c _ h (by decide)
  · exact utf8_size_of_le c _ h (by decide)
  · exact utf8_size_of_le c _ h (by decide)
  · rw [h]; decide

theorem is_word_char_not_break (c : Char) (h : is_word_char c = true) :
    is_line_break c = false := by
  by_contra hb
  have hb : is_line_break c = true := by simpa using hb
  simp only [is_line_break, Bool.or_eq_true, beq_iff_eq] at hb
  rcases hb with (hb | hb) | hb <;> rw [hb] at h <;> revert h <;> decide

theorem strip_word_reads_lt (offset : Nat) (text : List Char) (i : Nat)
    (h : i ∈ strip_word_reads offset text) : i < offset := by
  induction offset generalizing text with
  | zero => simp [strip_word_reads] at h
  | succ pos ih =>
    rw [strip_word_reads] at h
    split at h
    · split at h
      · rcases List.mem_cons.mp h with h | h
        · omega
        · have := ih _ h
          omega
      · simp at h; omega
    · simp at h; omega

theorem line_start_loop_le (fuel : Nat) (text : List Char) (offset : Nat) :
    line_start_loop fuel text offset ≤ offset := by
  induction fuel generalizing text offset with
  | zero => simp [line_start_loop]
  | succ fuel ih =>
    rw [line_start_loop]
    split
    · rename_i hg
      have := ih (text.drop (BaseView.line_end text)) (offset - BaseView.line_end text)
      omega
    · omega

theorem line_start_loop_break (fuel : Nat) (text : List Char) (offset : Nat) :
    line_start_loop fuel text offset = 0 ∨
    text[line_start_loop fuel text offset - 1]?.map is_line_break = some true := by
  induction fuel generalizing text offset with
  | zero => left; simp [line_start_loop]
  | succ fuel ih =>
    rw [line_start_loop]
    split
    · rename_i hg
      right
      rcases ih (text.drop (BaseView.line_end text)) (offset - BaseView.line_end text) with h | h
      · rw [h]
        exact hg.2.2
      · by_cases h0 : line_start_loop fuel (text.drop (BaseView.line_end text))
            (offset - BaseView.line_end text) = 0
        · rw [h0]
          exact hg.2.2
        · rw [List.getElem?_drop] at h
          have e : BaseView.line_end text + line_start_loop fuel
              (text.drop (BaseView.line_end text)) (offset - BaseView.line_end text) - 1 =
              BaseView.line_end text + (line_start_loop fuel
                (text.drop (BaseView.line_end text)) (offset - BaseView.line_end text) - 1) := by
            omega
          rw [e]
          exact h
    · left; rfl

/-- The run of word characters before the caret begins at or after the start of the
line of the caret. -/
theorem line_start_le_run (text : List Char) (offset : Nat) (h : offset ≤ text.length) :
    line_start text offset ≤ offset - word_run text offset := by
  by_contra hlt
  have hle := line_start_loop_le text.length text offset
  rcases line_start_loop_break text.length text offset with h0 | hb
  · unfold line_start at hlt
    omega
  · unfold line_start at hlt
    obtain ⟨c, hc, hw⟩ := word_run_chars text offset (line_start_loop text.length text offset - 1)
      h (by omega) (by omega)
    rw [hc] at hb
    simp only [Option.map_some'] at hb
    rw [is_word_char_not_break c hw] at hb
    cases hb

theorem utf8_length_append (a b : List Char) :
    utf8_length (a ++ b) = utf8_length a + utf8_length b := by
  simp [utf8_length]

theorem utf8_length_word (l : List Char) (h : ∀ c ∈ l, is_word_char c = true) :
    utf8_length l = l.length := by
  induction l with
  | nil => rfl
  | cons c rest ih =>
    have h1 := is_word_char_utf8 c (h c (List.mem_cons_self _ _))
    have h2 := ih (fun x hx => h x (List.mem_cons_of_mem _ hx))
    simp only [utf8_length, List.map_cons, List.sum_cons, List.length_cons] at h2 ⊢
    omega

/-- The bytes from the start of the line to the caret are those up to the run of
word characters and one byte for each character of the run. -/
theorem utf8_length_line (text : List Char) (offset : Nat) (h : offset ≤ text.length) :
    utf8_length ((text.take offset).drop (line_start text offset)) =
      utf8_length ((text.take (offset - word_run text offset)).drop (line_start text offset)) +
        word_run text offset := by
  have hr := word_run_le text offset
  have hl := line_start_le_run text offset h
  have e1 : text.take offset =
      text.take (offset - word_run text offset) ++
        (text.take offset).drop (offset - word_run text offset) := by
    conv_lhs => rw [← List.take_append_drop (offset - word_run text offset) (text.take offset)]
    rw [List.take_take, Nat.min_eq_left (by omega)]
  have e2 : ((text.take offset).drop (offset - word_run text offset)).length =
      word_run text offset := by
    simp only [List.length_drop, List.length_take]
    omega
  have e3 : ∀ c ∈ (text.take offset).drop (offset - word_run text offset),
      is_word_char c = true := by
    intro c hc
    obtain ⟨j, hj⟩ := List.mem_iff_getElem?.mp hc
    rw [List.getElem?_drop, List.getElem?_take] at hj
    by_cases hlt : offset - word_run text offset + j < offset
    · rw [if_pos hlt] at hj
      obtain ⟨c2, hc2, hw⟩ := word_run_chars text offset (offset - word_run text offset + j) h
        (by omega) hlt
      rw [hj] at hc2
      cases hc2
      exact hw
    · rw [if_neg hlt] at hj
      cases hj
  conv_lhs => rw [e1]
  rw [List.drop_append_of_le_length (by simp; omega), utf8_length_append,
    utf8_length_word _ e3, e2]

/-- The bound on the number of lines in `line_start` is never reached: every bound
of at least the length of the text gives the same offset. -/
theorem line_start_loop_fuel (fuel₁ fuel₂ : Nat) (text : List Char) (offset : Nat)
    (h₁ : text.length ≤ fuel₁) (h₂ : text.length ≤ fuel₂) :
    line_start_loop fuel₁ text offset = line_start_loop fuel₂ text offset := by
  induction fuel₁ generalizing fuel₂ text offset with
  | zero =>
    have : text = [] := List.length_eq_zero.mp (by omega)
    subst this
    cases fuel₂ <;> simp [line_start_loop, BaseView.line_end]
  | succ f ih =>
    cases fuel₂ with
    | zero =>
      have : text = [] := List.length_eq_zero.mp (by omega)
      subst this
      simp [line_start_loop, BaseView.line_end]
    | succ g =>
      rw [line_start_loop, line_start_loop]
      split
      · rename_i hg
        rw [ih g (text.drop (BaseView.line_end text)) _ (by simp; omega) (by simp; omega)]
      · rfl

/-! ## The properties of the coordinator -/

/-- C1: `stop()` maps `STARTING` and `RESTARTING` to `CANCELED` and leaves `IDLE` and
`CANCELED` as they are; it changes no member but the state and appends nothing to
the log of calls, and a second `stop()` changes nothing more. -/
theorem stop_spec (s : Autocomplete) :
    stop { s with state := State.STARTING } = { s with state := State.CANCELED } ∧
    stop { s with state := State.RESTARTING } = { s with state := State.CANCELED } ∧
    stop { s with state := State.IDLE } = { s with state := State.IDLE } ∧
    stop { s with state := State.CANCELED } = { s with state := State.CANCELED } ∧
    stop s = { s with state := (stop s).state } ∧
    (stop s).log = s.log ∧
    stop (stop s) = stop s := by
  refine ⟨by simp [stop], by simp [stop], by simp [stop], by simp [stop], ?_, ?_, ?_⟩
  · unfold stop; split <;> rfl
  · unfold stop; split <;> rfl
  · cases s with
    | mk p st pf r t d l => cases st <;> simp [stop]

/-- C2: with `run_check()` and `is_processing()` true, `run()` from `CANCELED` only
sets the state to `RESTARTING`, from `STARTING` or `RESTARTING` changes nothing,
and from `IDLE` sets the state to `STARTING`, calls `before_add_rows()` once and
spawns exactly one worker; so it spawns a worker exactly when the state was `IDLE`. -/
theorem run_admission (env : Env) (s : Autocomplete)
    (hc : env.run_check = true) (hp : env.is_processing = true) :
    (s.state = State.CANCELED → run env s = { s with state := State.RESTARTING }) ∧
    (s.state = State.STARTING ∨ s.state = State.RESTARTING → run env s = s) ∧
    (s.state = State.IDLE →
      (run env s).state = State.STARTING ∧
      (run env s).log.count Effect.before_add_rows = s.log.count Effect.before_add_rows + 1 ∧
      spawned (run env s).log = spawned s.log + 1) ∧
    (spawned (run env s).log ≠ spawned s.log ↔ s.state = State.IDLE) := by
  refine ⟨?_, ?_, ?_, ?_⟩
  · exact run_canceled env s hc hp
  · exact run_pending env s hc hp
  · intro h
    rw [run_idle env s hc hp h]
    refine ⟨rfl, ?_, ?_⟩
    · simp only [List.count_append]
      have : List.count Effect.before_add_rows (join_log env.joined s.thread) = 0 := by
        cases s.thread <;> simp [join_log, worker_log]
        split <;> simp
      simp [this]
    · simp only [spawned_append, spawned_join_log]
      simp [spawned]
  · constructor
    · intro h
      by_contra hne
      rw [run_not_idle env s hc hp hne] at h
      exact h rfl
    · intro h
      rw [run_idle env s hc hp h]
      simp only [spawned_append, spawned_join_log]
      simp [spawned]

theorem run_admission_witness :
    env_ok.run_check = true ∧ env_ok.is_processing = true ∧
    (run env_ok (init false)).state = State.STARTING ∧
    spawned (run env_ok (init false)).log = spawned (init false).log + 1 :=
  ⟨rfl, rfl, ((run_admission env_ok (init false) rfl rfl).2.2.1 rfl).1,
    ((run_admission env_ok (init false) rfl rfl).2.2.1 rfl).2.2⟩

/-- C3: on a document-changed notification with no dialog visible and the view
focused: if the last key is a continue key and interactive completion is enabled
or the state is not `IDLE`, the handler is `run()` alone; otherwise it is `stop()`,
followed by `run()` exactly when the last key is a restart key and interactive
completion is enabled. -/
theorem signal_changed_policy (env : Env) (s : Autocomplete)
    (hv : env.dialog_visible = false) (hf : env.view.has_focus = true) :
    (env.is_continue_key env.last_keyval = true ∧
        (env.interactive_completion = true ∨ s.state ≠ State.IDLE) →
      signal_changed env s = run env s) ∧
    (¬ (env.is_continue_key env.last_keyval = true ∧
        (env.interactive_completion = true ∨ s.state ≠ State.IDLE)) →
      signal_changed env s =
        if env.is_restart_key env.last_keyval = true ∧ env.interactive_completion = true then
          run env (stop s)
        else stop s) := by
  constructor
  · intro h
    have hcond : (env.is_continue_key env.last_keyval &&
        (env.interactive_completion || decide (s.state ≠ State.IDLE))) = true := by
      simpa using h
    simp only [signal_changed, hv, hf, hcond]
    simp
  · intro h
    have hcond : (env.is_continue_key env.last_keyval &&
        (env.interactive_completion || decide (s.state ≠ State.IDLE))) = false := by
      rw [Bool.eq_false_iff]
      intro hc
      apply h
      simpa using hc
    simp only [signal_changed, hv, hf, hcond]
    simp

theorem signal_changed_policy_witness :
    env_typing.dialog_visible = false ∧ env_typing.view.has_focus = true ∧
    signal_changed env_typing (init false) = run env_typing (init false) :=
  ⟨rfl, rfl, (signal_changed_policy env_typing (init false) rfl rfl).1 ⟨rfl, Or.inl rfl⟩⟩

/-- C4: after every sequence of events from the initial coordinator, the log of calls
passes the check `alive_after` (each spawn happens while no worker is inside its
body, each return ends the one that is), at most one spawned worker has not
returned, and at each spawn in the log every worker spawned before has returned. -/
theorem at_most_one_worker (pass : Bool) (events : List Event) :
    alive_after (some false) (exec (init pass) events).log =
      some (is_alive (exec (init pass) events).thread) ∧
    spawned (exec (init pass) events).log ≤ exited (exec (init pass) events).log + 1 ∧
    (∀ l₁ l₂ : List Effect,
      (exec (init pass) events).log = l₁ ++ Effect.thread_spawn :: l₂ →
      exited l₁ = spawned l₁) := by
  have hinv := inv_exec events (init pass) (inv_init pass)
  refine ⟨hinv.1, ?_, ?_⟩
  · have := hinv.2.1
    split at this <;> omega
  · intro l₁ l₂ hl
    have h1 := hinv.1
    rw [hl] at h1
    exact alive_after_spawn l₁ l₂ _ h1

theorem at_most_one_worker_witness :
    (exec (init false) [Event.run env_ok]).log =
      [Effect.before_add_rows] ++ Effect.thread_spawn :: [Effect.cancel_reparse] ∧
    exited [Effect.before_add_rows] = spawned [Effect.before_add_rows] :=
  ⟨rfl, (at_most_one_worker false [Event.run env_ok]).2.2
    [Effect.before_add_rows] [Effect.cancel_reparse] rfl⟩

/-- C5, as stated, fails: from the initial coordinator, `run()`, `run()` again while
the state is `STARTING`, then the worker leaving three rows and its continuation:
the continuation spawns no further worker and opens the dialog with the three rows. -/
theorem coalesced_restart_counterexample :
    (exec (init false) [Event.run env_ok, Event.run env_ok, Event.worker three_rows]).state =
      State.STARTING ∧
    spawned (exec (init false)
      [Event.run env_ok, Event.run env_ok, Event.worker three_rows, Event.deliver env_ok]).log =
      spawned (exec (init false)
        [Event.run env_ok, Event.run env_ok, Event.worker three_rows]).log ∧
    presentation (exec (init false)
      [Event.run env_ok, Event.run env_ok, Event.worker three_rows, Event.deliver env_ok]).log =
      [Effect.create 0, Effect.setup_dialog, Effect.add_row "a", Effect.add_row "b",
        Effect.add_row "c", Effect.begin_user_action, Effect.show] := by
  decide

/-- C5, amended: after an admitted `run()` from `IDLE`, one or two further `run()`
calls while the state is `STARTING` change nothing, so the result of the worker is
handled as after a single `run()` and its continuation spawns no further worker;
when a `stop()` came before the further `run()` the state is `RESTARTING`, and the
continuation spawns exactly one further worker and opens no presentation. -/
theorem coalesced_restart_amended (s : Autocomplete) (e₁ e₂ e₃ e₄ : Env) (w : WorkerRun)
    (hs : s.state = State.IDLE) (ht : is_running s.thread = false) (hd : s.dispatcher = [])
    (hc₁ : e₁.run_check = true) (hp₁ : e₁.is_processing = true)
    (hc₂ : e₂.run_check = true) (hp₂ : e₂.is_processing = true)
    (hc₃ : e₃.run_check = true) (hp₃ : e₃.is_processing = true)
    (hc₄ : e₄.run_check = true) (hp₄ : e₄.is_processing = true)
    (hw₁ : w.processing_at_lock = true) (hw₂ : w.processing_at_end = true) :
    (run e₁ s).state = State.STARTING ∧
    run e₂ (run e₁ s) = run e₁ s ∧
    run e₃ (run e₂ (run e₁ s)) = run e₁ s ∧
    exec s [Event.run e₁, Event.run e₂, Event.worker w, Event.deliver e₄] =
      exec s [Event.run e₁, Event.worker w, Event.deliver e₄] ∧
    exec s [Event.run e₁, Event.run e₂, Event.run e₃, Event.worker w, Event.deliver e₄] =
      exec s [Event.run e₁, Event.worker w, Event.deliver e₄] ∧
    spawned (exec s [Event.run e₁, Event.worker w, Event.deliver e₄]).log =
      spawned (exec s [Event.run e₁, Event.worker w]).log ∧
    (exec s [Event.run e₁, Event.stop, Event.run e₂, Event.worker w]).state = State.RESTARTING ∧
    spawned (exec s [Event.run e₁, Event.stop, Event.run e₂, Event.worker w, Event.deliver e₄]).log =
      spawned (exec s [Event.run e₁, Event.stop, Event.run e₂, Event.worker w]).log + 1 ∧
    presentation
        (exec s [Event.run e₁, Event.stop, Event.run e₂, Event.worker w, Event.deliver e₄]).log =
      presentation s.log := by
  have hst : (run e₁ s).state = State.STARTING := by rw [run_fresh e₁ s hc₁ hp₁ hs ht]
  have h2 : run e₂ (run e₁ s) = run e₁ s := run_pending e₂ (run e₁ s) hc₂ hp₂ (Or.inl hst)
  have h3 : run e₃ (run e₁ s) = run e₁ s := run_pending e₃ (run e₁ s) hc₃ hp₃ (Or.inl hst)
  have hB : exec s [Event.run e₁, Event.stop, Event.run e₂, Event.worker w] =
      { worker w (run e₁ s) with state := State.RESTARTING } := by
    simp only [exec, List.foldl, step]
    rw [stop_eq, run_not_idle e₂ _ hc₂ hp₂ (by simp [hst])]
    rw [run_worker_fresh e₁ w s hc₁ hp₁ hs ht hw₁ hw₂, run_fresh e₁ s hc₁ hp₁ hs ht]
    simp [worker, request, worker_body_eq, worker_log, hw₁, hw₂]
  have hE := exec_snoc s [Event.run e₁, Event.stop, Event.run e₂, Event.worker w]
    (Event.deliver e₄)
  simp only [List.cons_append, List.nil_append] at hE
  rw [hB] at hE
  refine ⟨hst, h2, by rw [h2, h3], ?_, ?_, ?_, ?_, ?_, ?_⟩
  · simp only [exec, List.foldl, step, h2]
  · simp only [exec, List.foldl, step, h2, h3]
  · have hE := exec_snoc s [Event.run e₁, Event.worker w] (Event.deliver e₄)
    simp only [List.cons_append, List.nil_append] at hE
    have hA : exec s [Event.run e₁, Event.worker w] = worker w (run e₁ s) := rfl
    rw [hE, hA, run_worker_fresh e₁ w s hc₁ hp₁ hs ht hw₁ hw₂]
    simp only [step, deliver, hd, List.nil_append]
    rw [success_spawned e₄ _ (by simp)]
  · rw [hB]
  · rw [hE, hB, run_worker_fresh e₁ w s hc₁ hp₁ hs ht hw₁ hw₂]
    simp only [step, deliver, hd, List.nil_append]
    rw [success_restarting e₄ _ rfl]
    have := (starts_worker_idle e₄
      { s with
        state := State.IDLE
        thread := Thread.returning
        rows := w.added
        dispatcher := []
        log := (run e₁ s).log ++
          [Effect.get_parse_lock, Effect.stop_parse,
            Effect.add_rows
              (if s.pass_buffer_and_strip_word then
                strip_word e₁.view.offset e₁.view.text ((e₁.view.line_index : Int) + 1)
               else ([], (e₁.view.line_index : Int) + 1)).1
              ((e₁.view.line : Int) + 1)
              (if s.pass_buffer_and_strip_word then
                strip_word e₁.view.offset e₁.view.text ((e₁.view.line_index : Int) + 1)
               else ([], (e₁.view.line_index : Int) + 1)).2,
            Effect.post Continuation.success] ++
          [Effect.after_add_rows, Effect.reparse] } hc₄ hp₄ rfl).2
    rw [this]
    simp only [spawned_append]
    simp [spawned]
  · rw [hE, run_worker_fresh e₁ w s hc₁ hp₁ hs ht hw₁ hw₂]
    simp only [step, deliver, hd, List.nil_append]
    rw [success_restarting e₄ _ rfl, presentation_run, run_fresh e₁ s hc₁ hp₁ hs ht]
    simp only [presentation_append, presentation_join_log]
    simp [presentation, is_presentation]

theorem coalesced_restart_amended_witness :
    (init false).state = State.IDLE ∧ is_running (init false).thread = false ∧
    (init false).dispatcher = [] ∧ env_ok.run_check = true ∧ env_ok.is_processing = true ∧
    three_rows.processing_at_lock = true ∧ three_rows.processing_at_end = true ∧
    exec (init false)
        [Event.run env_ok, Event.run env_ok, Event.worker three_rows, Event.deliver env_ok] =
      exec (init false) [Event.run env_ok, Event.worker three_rows, Event.deliver env_ok] ∧
    spawned (exec (init false)
        [Event.run env_ok, Event.stop, Event.run env_ok, Event.worker three_rows,
          Event.deliver env_ok]).log =
      spawned (exec (init false)
        [Event.run env_ok, Event.stop, Event.run env_ok, Event.worker three_rows]).log + 1 :=
  ⟨rfl, rfl, rfl, rfl, rfl, rfl, rfl,
    (coalesced_restart_amended (init false) env_ok env_ok env_ok env_ok three_rows
      rfl rfl rfl rfl rfl rfl rfl rfl rfl rfl rfl rfl rfl).2.2.2.1,
    (coalesced_restart_amended (init false) env_ok env_ok env_ok env_ok three_rows
      rfl rfl rfl rfl rfl rfl rfl rfl rfl rfl rfl rfl rfl).2.2.2.2.2.2.2.1⟩

/-- C6: from an idle coordinator, an admitted `run()`, then `stop()` before or after
the worker has filled the rows, then the success continuation: whatever rows the
worker left, the state ends `IDLE`, no presentation call is made, and `reparse()` is
called exactly once in the whole scenario. -/
theorem cancel_before_completion (s : Autocomplete) (e₁ e₂ : Env) (w : WorkerRun)
    (hs : s.state = State.IDLE) (ht : is_running s.thread = false) (hd : s.dispatcher = [])
    (hc : e₁.run_check = true) (hp : e₁.is_processing = true)
    (hw₁ : w.processing_at_lock = true) (hw₂ : w.processing_at_end = true) :
    (exec s [Event.run e₁, Event.stop, Event.worker w, Event.deliver e₂]).state = State.IDLE ∧
    presentation (exec s [Event.run e₁, Event.stop, Event.worker w, Event.deliver e₂]).log =
      presentation s.log ∧
    (exec s [Event.run e₁, Event.stop, Event.worker w, Event.deliver e₂]).log.count Effect.reparse =
      s.log.count Effect.reparse + 1 ∧
    exec s [Event.run e₁, Event.worker w, Event.stop, Event.deliver e₂] =
      exec s [Event.run e₁, Event.stop, Event.worker w, Event.deliver e₂] ∧
    (exec s [Event.run e₁, Event.stop, Event.worker w]).rows = w.added ∧
    (exec s [Event.run e₁, Event.stop, Event.worker w]).dispatcher = [Continuation.success] := by
  have hA : exec s [Event.run e₁, Event.worker w, Event.stop] =
      { worker w (run e₁ s) with state := State.CANCELED } := by
    simp only [exec, List.foldl, step]
    rw [stop_eq, run_worker_fresh e₁ w s hc hp hs ht hw₁ hw₂]
    simp
  have hB : exec s [Event.run e₁, Event.stop, Event.worker w] =
      { worker w (run e₁ s) with state := State.CANCELED } := by
    simp only [exec, List.foldl, step]
    rw [stop_eq, run_worker_fresh e₁ w s hc hp hs ht hw₁ hw₂, run_fresh e₁ s hc hp hs ht]
    simp [worker, request, worker_body_eq, worker_log, hw₁, hw₂]
  have hC : ∀ evs : List Event, exec s (evs ++ [Event.deliver e₂]) = deliver e₂ (exec s evs) := by
    intro evs
    simp [exec, List.foldl_append, step]
  have hD : deliver e₂ { worker w (run e₁ s) with state := State.CANCELED } =
      { worker w (run e₁ s) with
        state := State.IDLE
        dispatcher := []
        log := (worker w (run e₁ s)).log ++ [Effect.after_add_rows, Effect.reparse] } := by
    rw [run_worker_fresh e₁ w s hc hp hs ht hw₁ hw₂]
    simp only [deliver, hd, List.nil_append]
    rw [success_discard e₂ _ (by simp) (Or.inl rfl)]
  have hE := hC [Event.run e₁, Event.stop, Event.worker w]
  have hF := hC [Event.run e₁, Event.worker w, Event.stop]
  simp only [List.cons_append, List.nil_append] at hE hF
  rw [hF, hE, hA, hB, hD]
  rw [run_worker_fresh e₁ w s hc hp hs ht hw₁ hw₂, run_fresh e₁ s hc hp hs ht]
  refine ⟨rfl, ?_, ?_, rfl, rfl, by simp [hd]⟩
  · simp only [presentation_append, presentation_join_log]
    simp [presentation, is_presentation]
  · simp only [List.count_append, count_reparse_join_log]
    simp

theorem cancel_before_completion_witness :
    (init false).state = State.IDLE ∧ is_running (init false).thread = false ∧
    (init false).dispatcher = [] ∧ env_ok.run_check = true ∧ env_ok.is_processing = true ∧
    five_rows.processing_at_lock = true ∧ five_rows.processing_at_end = true ∧
    (exec (init false)
      [Event.run env_ok, Event.stop, Event.worker five_rows, Event.deliver env_ok]).state =
      State.IDLE ∧
    presentation (exec (init false)
      [Event.run env_ok, Event.stop, Event.worker five_rows, Event.deliver env_ok]).log =
      presentation (init false).log ∧
    (exec (init false)
      [Event.run env_ok, Event.stop, Event.worker five_rows,
        Event.deliver env_ok]).log.count Effect.reparse =
      (init false).log.count Effect.reparse + 1 :=
  ⟨rfl, rfl, rfl, rfl, rfl, rfl, rfl,
    (cancel_before_completion (init false) env_ok env_ok five_rows
      rfl rfl rfl rfl rfl rfl rfl).1,
    (cancel_before_completion (init false) env_ok env_ok five_rows
      rfl rfl rfl rfl rfl rfl rfl).2.1,
    (cancel_before_completion (init false) env_ok env_ok five_rows
      rfl rfl rfl rfl rfl rfl rfl).2.2.1⟩

/-- C7: a worker that passes both checks and leaves no row posts the success
continuation with `rows` empty, and that continuation makes no presentation call
whatever the state is when it runs; the same holds for the success continuation on
any coordinator whose `rows` are empty. -/
theorem empty_result_no_presentation (env : Env) (w : WorkerRun) (st : State) (s : Autocomplete)
    (hr : is_running s.thread = true) (hd : s.dispatcher = [])
    (hw₁ : w.processing_at_lock = true) (hw₂ : w.processing_at_end = true)
    (he : w.added = []) :
    (worker w s).dispatcher = [Continuation.success] ∧
    (worker w s).rows = [] ∧
    presentation (deliver env { worker w s with state := st }).log = presentation s.log ∧
    (∀ t : Autocomplete, t.rows = [] →
      presentation (success_continuation env t).log = presentation t.log) := by
  have hw : worker w s =
      { s with
        thread := Thread.returning
        rows := []
        dispatcher := [Continuation.success]
        log := s.log ++ match s.thread with
          | Thread.running l c b => worker_log w l c b
          | _ => [] } := by
    obtain ⟨p, st, pf, r, t, d, l⟩ := s
    cases t with
    | empty => cases hr
    | finished => cases hr
    | returning => cases hr
    | running l c b =>
      simp only at hd
      subst hd
      simp [worker, worker_body_eq, hw₁, hw₂, he]
  refine ⟨by rw [hw], by rw [hw], ?_, fun t h => presentation_success_empty env t h⟩
  rw [hw]
  simp only [deliver]
  rw [presentation_success_empty env _ rfl]
  simp only [presentation_append]
  cases s.thread with
  | running l c b => simp [presentation_worker_log]
  | empty => simp [presentation]
  | returning => simp [presentation]
  | finished => simp [presentation]

theorem empty_result_no_presentation_witness :
    is_running (run env_ok (init false)).thread = true ∧
    (run env_ok (init false)).dispatcher = [] ∧
    no_rows.processing_at_lock = true ∧ no_rows.processing_at_end = true ∧
    no_rows.added = [] ∧
    presentation (deliver env_ok
      { worker no_rows (run env_ok (init false)) with state := State.STARTING }).log =
      presentation (run env_ok (init false)).log :=
  ⟨rfl, rfl, rfl, rfl, rfl,
    (empty_result_no_presentation env_ok no_rows State.STARTING (run env_ok (init false))
      rfl rfl rfl rfl rfl).2.2.1⟩

/-- C8: from an idle coordinator with an empty recorded prefix, an admitted `run()`,
a worker leaving a non-empty list of rows, then the success continuation: the state
ends `IDLE` and the continuation creates the dialog at the caret, hands it exactly
the rows of the worker in order, starts the user action and shows it. -/
theorem successful_run (s : Autocomplete) (e₁ e₂ : Env) (w : WorkerRun)
    (hs : s.state = State.IDLE) (ht : is_running s.thread = false) (hd : s.dispatcher = [])
    (hx : s.pfx = [])
    (hc : e₁.run_check = true) (hp : e₁.is_processing = true)
    (hw₁ : w.processing_at_lock = true) (hw₂ : w.processing_at_end = true)
    (hne : w.added ≠ []) :
    (exec s [Event.run e₁, Event.worker w, Event.deliver e₂]).state = State.IDLE ∧
    (exec s [Event.run e₁, Event.worker w, Event.deliver e₂]).log =
      (exec s [Event.run e₁, Event.worker w]).log ++
        [Effect.after_add_rows, Effect.create e₂.view.offset, Effect.setup_dialog] ++
        w.added.map Effect.add_row ++ [Effect.begin_user_action, Effect.show] ∧
    presentation (exec s [Event.run e₁, Event.worker w, Event.deliver e₂]).log =
      presentation s.log ++ [Effect.create e₂.view.offset, Effect.setup_dialog] ++
        w.added.map Effect.add_row ++ [Effect.begin_user_action, Effect.show] := by
  have hE := exec_snoc s [Event.run e₁, Event.worker w] (Event.deliver e₂)
  simp only [List.cons_append, List.nil_append] at hE
  have hA : exec s [Event.run e₁, Event.worker w] = worker w (run e₁ s) := rfl
  rw [hE, hA, run_worker_fresh e₁ w s hc hp hs ht hw₁ hw₂]
  simp only [step, deliver, hd, List.nil_append]
  rw [success_presents e₂ _ (by simp) (by simp) hne (by simp [anchor_fails, hx])]
  refine ⟨rfl, ?_, ?_⟩
  · simp [anchor, hx]
  · rw [run_fresh e₁ s hc hp hs ht]
    simp only [presentation_append, presentation_join_log, presentation_add_row]
    simp [presentation, is_presentation, anchor, hx]

theorem successful_run_witness :
    (init false).state = State.IDLE ∧ is_running (init false).thread = false ∧
    (init false).dispatcher = [] ∧ (init false).pfx = [] ∧
    env_ok.run_check = true ∧ env_ok.is_processing = true ∧
    three_rows.processing_at_lock = true ∧ three_rows.processing_at_end = true ∧
    three_rows.added ≠ [] ∧
    (exec (init false)
      [Event.run env_ok, Event.worker three_rows, Event.deliver env_ok]).state = State.IDLE ∧
    presentation (exec (init false)
      [Event.run env_ok, Event.worker three_rows, Event.deliver env_ok]).log =
      presentation (init false).log ++ [Effect.create env_ok.view.offset, Effect.setup_dialog] ++
        three_rows.added.map Effect.add_row ++ [Effect.begin_user_action, Effect.show] :=
  ⟨rfl, rfl, rfl, rfl, rfl, rfl, rfl, rfl, by decide,
    (successful_run (init false) env_ok env_ok three_rows
      rfl rfl rfl rfl rfl rfl rfl rfl (by decide)).1,
    (successful_run (init false) env_ok env_ok three_rows
      rfl rfl rfl rfl rfl rfl rfl rfl (by decide)).2.2⟩

/-- C9, as stated, fails: when the worker finds `is_processing()` false after
`add_rows`, the continuation it posts leaves the state `CANCELED`, and a following
`run()` with `run_check()` and `is_processing()` true only moves it to `RESTARTING`
and spawns no worker. -/
theorem failure_paths_counterexample :
    (exec (init false)
      [Event.run env_ok, Event.worker shutdown_at_end, Event.deliver env_ok]).state =
      State.CANCELED ∧
    (exec (init false)
      [Event.run env_ok, Event.worker shutdown_at_end, Event.deliver env_ok,
        Event.run env_ok]).state = State.RESTARTING ∧
    spawned (exec (init false)
      [Event.run env_ok, Event.worker shutdown_at_end, Event.deliver env_ok,
        Event.run env_ok]).log =
      spawned (exec (init false)
        [Event.run env_ok, Event.worker shutdown_at_end, Event.deliver env_ok]).log := by
  decide

/-- C9, amended: a stale result with state `CANCELED` or with no rows (state not
`RESTARTING`), and a failed anchor placement, end with the state `IDLE`, from which
`run()` starts a worker; with state `RESTARTING` the continuation passes through
`IDLE` into its own `run()`, which starts the worker; the shutdown paths do not reach
`IDLE`: the error continuation ends `CANCELED` (a following `run()` makes it
`RESTARTING`), and a shutdown seen at admission or at the parse lock leaves the
state as it was. -/
theorem failure_paths_amended (env next : Env) (s : Autocomplete)
    (hc : next.run_check = true) (hp : next.is_processing = true) :
    (s.state = State.CANCELED ∨ (s.rows = [] ∧ s.state ≠ State.RESTARTING) →
      (success_continuation env s).state = State.IDLE ∧
      starts_worker next (success_continuation env s)) ∧
    (s.state = State.STARTING → s.rows ≠ [] → anchor_fails env.view s.pfx.length = true →
      (success_continuation env s).state = State.IDLE ∧
      starts_worker next (success_continuation env s)) ∧
    (s.state = State.RESTARTING →
      success_continuation env s =
        run env { s with state := State.IDLE,
                         log := s.log ++ [Effect.after_add_rows, Effect.reparse] } ∧
      (env.run_check = true → env.is_processing = true →
        (success_continuation env s).state = State.STARTING ∧
        spawned (success_continuation env s).log = spawned s.log + 1)) ∧
    (error_continuation s).state = State.CANCELED ∧
    run next (error_continuation s) = { error_continuation s with state := State.RESTARTING } ∧
    (env.run_check = true → env.is_processing = false → run env s = s) ∧
    (∀ (w : WorkerRun) (l c : Int) (b : List Char), w.processing_at_lock = false →
      (worker_body w l c b s).state = s.state ∧
      (worker_body w l c b s).dispatcher = s.dispatcher) := by
  refine ⟨?_, ?_, ?_, rfl, ?_, ?_, ?_⟩
  · intro h
    have hs : s.state ≠ State.RESTARTING := by
      rcases h with h | h
      · simp [h]
      · exact h.2
    have hx : s.state = State.CANCELED ∨ s.rows = [] := by
      rcases h with h | h
      · exact Or.inl h
      · exact Or.inr h.1
    have hi : (success_continuation env s).state = State.IDLE := by
      rw [success_discard env s hs hx]
    exact ⟨hi, starts_worker_idle next _ hc hp hi⟩
  · intro hs hr ha
    have hi : (success_continuation env s).state = State.IDLE := by
      rw [success_anchor_fails env s (by simp [hs]) (by simp [hs]) hr ha]
    exact ⟨hi, starts_worker_idle next _ hc hp hi⟩
  · intro hs
    refine ⟨success_restarting env s hs, ?_⟩
    intro hc' hp'
    rw [success_restarting env s hs]
    have := starts_worker_idle env
      { s with state := State.IDLE, log := s.log ++ [Effect.after_add_rows, Effect.reparse] }
      hc' hp' rfl
    refine ⟨this.1, ?_⟩
    rw [this.2]
    simp only [spawned_append]
    simp [spawned]
  · exact run_canceled next (error_continuation s) hc hp rfl
  · intro hc' hp'
    simp [run, hc', hp']
  · intro w l c b hw
    rw [worker_body_eq]
    simp [hw]

theorem failure_paths_amended_witness :
    env_ok.run_check = true ∧ env_ok.is_processing = true ∧
    (success_continuation env_ok { init false with state := State.CANCELED }).state =
      State.IDLE ∧
    starts_worker env_ok
      (success_continuation env_ok { init false with state := State.CANCELED }) :=
  ⟨rfl, rfl,
    ((failure_paths_amended env_ok env_ok { init false with state := State.CANCELED }
      rfl rfl).1 (Or.inl rfl)).1,
    ((failure_paths_amended env_ok env_ok { init false with state := State.CANCELED }
      rfl rfl).1 (Or.inl rfl)).2⟩

/-- C10, as stated, fails: with `is_processing()` false at admission `run()` changes
nothing (the state stays `IDLE`, `on_add_rows_error()` is not called), and with
`is_processing()` false after the parse lock the worker posts nothing, the state
stays `STARTING` and `on_add_rows_error()` is not called. -/
theorem shutdown_propagation_counterexample :
    env_shutdown.run_check = true ∧ env_shutdown.is_processing = false ∧
    run env_shutdown (init false) = init false ∧
    (run env_shutdown (init false)).state ≠ State.CANCELED ∧
    Effect.on_add_rows_error ∉ (run env_shutdown (init false)).log ∧
    (exec (init false) [Event.run env_ok, Event.worker shutdown_at_lock]).state =
      State.STARTING ∧
    (exec (init false) [Event.run env_ok, Event.worker shutdown_at_lock]).dispatcher = [] ∧
    Effect.on_add_rows_error ∉
      (exec (init false) [Event.run env_ok, Event.worker shutdown_at_lock]).log := by
  decide

/-- C10, amended: when `is_processing()` is false after `add_rows` has returned, the
worker posts the error continuation, which sets the state to `CANCELED` and calls
`on_add_rows_error()`; when it is false at admission `run()` changes nothing, and
when it is false after the parse lock the worker only takes the lock and returns. -/
theorem shutdown_propagation_amended (env : Env) (w : WorkerRun) (s : Autocomplete) :
    (is_running s.thread = true → s.dispatcher = [] →
      w.processing_at_lock = true → w.processing_at_end = false →
      (worker w s).dispatcher = [Continuation.error] ∧
      (worker w s).state = s.state ∧
      (deliver env (worker w s)).state = State.CANCELED ∧
      (deliver env (worker w s)).log = (worker w s).log ++ [Effect.on_add_rows_error]) ∧
    error_continuation s =
      { s with state := State.CANCELED, log := s.log ++ [Effect.on_add_rows_error] } ∧
    (env.run_check = true → env.is_processing = false → run env s = s) ∧
    (∀ (l c : Int) (b : List Char), w.processing_at_lock = false →
      worker_body w l c b s =
        { s with thread := Thread.returning,
                 log := s.log ++ [Effect.get_parse_lock] }) := by
  refine ⟨?_, rfl, ?_, ?_⟩
  · intro hr hd hw₁ hw₂
    obtain ⟨p, st, pf, r, t, d, l⟩ := s
    cases t with
    | empty => cases hr
    | finished => cases hr
    | returning => cases hr
    | running l c b =>
      simp only at hd
      subst hd
      simp [worker, worker_body_eq, hw₁, hw₂, deliver, error_continuation]
  · intro hc hp
    simp [run, hc, hp]
  · intro l c b hw
    rw [worker_body_eq]
    simp [hw, worker_log]

theorem shutdown_propagation_amended_witness :
    is_running (run env_ok (init false)).thread = true ∧
    (run env_ok (init false)).dispatcher = [] ∧
    shutdown_at_end.processing_at_lock = true ∧ shutdown_at_end.processing_at_end = false ∧
    (deliver env_ok (worker shutdown_at_end (run env_ok (init false)))).state =
      State.CANCELED ∧
    (deliver env_ok (worker shutdown_at_end (run env_ok (init false)))).log =
      (worker shutdown_at_end (run env_ok (init false))).log ++ [Effect.on_add_rows_error] :=
  ⟨rfl, rfl, rfl, rfl,
    ((shutdown_propagation_amended env_ok shutdown_at_end (run env_ok (init false))).1
      rfl rfl rfl rfl).2.2.1,
    ((shutdown_propagation_amended env_ok shutdown_at_end (run env_ok (init false))).1
      rfl rfl rfl rfl).2.2.2⟩

/-- C11: with `run_check()` true and `is_processing()` false, `run()` returns the
coordinator as it was, in every state: the state, the thread handle and the log of
calls are unchanged, so no worker is spawned and no hook is called. -/
theorem run_shutdown_no_effect (env : Env) (s : Autocomplete)
    (hc : env.run_check = true) (hp : env.is_processing = false) :
    run env s = s ∧ (run env s).state = s.state ∧ (run env s).log = s.log ∧
    spawned (run env s).log = spawned s.log := by
  have h : run env s = s := by simp [run, hc, hp]
  rw [h]
  exact ⟨rfl, rfl, rfl, rfl⟩

theorem run_shutdown_no_effect_witness :
    env_shutdown.run_check = true ∧ env_shutdown.is_processing = false ∧
    run env_shutdown (run env_ok (init false)) = run env_ok (init false) :=
  ⟨rfl, rfl, (run_shutdown_no_effect env_shutdown (run env_ok (init false)) rfl rfl).1⟩

/-- C12: with `run_check()` false, `run()` leaves the state, the thread handle, the
rows and the dispatcher as they were, spawns no worker and does not call
`before_add_rows()`; it appends `cancel_reparse()` once to the log when the state is
not `IDLE` and nothing when it is. -/
theorem run_unchecked (env : Env) (s : Autocomplete) (hc : env.run_check = false) :
    run env s =
      { s with log := s.log ++ (if s.state = State.IDLE then [] else [Effect.cancel_reparse]) } ∧
    (run env s).state = s.state ∧
    spawned (run env s).log = spawned s.log ∧
    (run env s).log.count Effect.before_add_rows = s.log.count Effect.before_add_rows ∧
    (run env s).log.count Effect.cancel_reparse =
      s.log.count Effect.cancel_reparse + (if s.state = State.IDLE then 0 else 1) := by
  have h : run env s =
      { s with
        log := s.log ++ (if s.state = State.IDLE then [] else [Effect.cancel_reparse]) } := by
    obtain ⟨p, st, pf, r, t, d, l⟩ := s
    cases st <;> simp [run, hc, cancel_reparse_unless_idle, emit]
  rw [h]
  refine ⟨rfl, rfl, ?_, ?_, ?_⟩
  · by_cases hs : s.state = State.IDLE <;> simp [hs, spawned]
  · by_cases hs : s.state = State.IDLE <;> simp [hs]
  · by_cases hs : s.state = State.IDLE <;> simp [hs]

theorem run_unchecked_witness :
    env_unchecked.run_check = false ∧
    (run env_unchecked (run env_ok (init false))).log =
      (run env_ok (init false)).log ++ [Effect.cancel_reparse] ∧
    run env_unchecked (init false) = init false :=
  ⟨rfl, congrArg Autocomplete.log (run_unchecked env_unchecked (run env_ok (init false)) rfl).1,
    (run_unchecked env_unchecked (init false) rfl).1⟩

/-- C13, at the failing input: in state `STARTING` (after an admitted `run()`) and in
state `CANCELED` (after `stop()`), a `run()` with `run_check()` and `is_processing()`
true returns with a state other than `IDLE` and without a call of
`cancel_reparse()`; with `run_check()` false the same call does make it. -/
theorem run_pending_skips_cancel_reparse :
    (run env_ok (init false)).state = State.STARTING ∧
    (run env_ok (run env_ok (init false))).state = State.STARTING ∧
    (run env_ok (run env_ok (init false))).log = (run env_ok (init false)).log ∧
    (run env_ok (stop (run env_ok (init false)))).state = State.RESTARTING ∧
    (run env_ok (stop (run env_ok (init false)))).log = (run env_ok (init false)).log ∧
    (run env_unchecked (run env_ok (init false))).log =
      (run env_ok (init false)).log ++ [Effect.cancel_reparse] := by
  decide

/-- C14: when the worker finds `is_processing()` false after `add_rows`, it posts the
error continuation; run in any state, that continuation sets the state to
`CANCELED` and appends `on_add_rows_error()` alone to the log: no presentation call,
no `after_add_rows()`, no `reparse()`. -/
theorem shutdown_error_continuation (env : Env) (w : WorkerRun) (st : State) (s : Autocomplete)
    (hr : is_running s.thread = true) (hd : s.dispatcher = [])
    (hw₁ : w.processing_at_lock = true) (hw₂ : w.processing_at_end = false) :
    (worker w s).dispatcher = [Continuation.error] ∧
    deliver env { worker w s with state := st } =
      { worker w s with
        state := State.CANCELED
        dispatcher := []
        log := (worker w s).log ++ [Effect.on_add_rows_error] } ∧
    presentation (deliver env { worker w s with state := st }).log =
      presentation (worker w s).log ∧
    (deliver env { worker w s with state := st }).log.count Effect.on_add_rows_error =
      (worker w s).log.count Effect.on_add_rows_error + 1 ∧
    (deliver env { worker w s with state := st }).log.count Effect.after_add_rows =
      (worker w s).log.count Effect.after_add_rows ∧
    (deliver env { worker w s with state := st }).log.count Effect.reparse =
      (worker w s).log.count Effect.reparse := by
  have hw : (worker w s).dispatcher = [Continuation.error] := by
    obtain ⟨p, st', pf, r, t, d, l⟩ := s
    cases t with
    | empty => cases hr
    | finished => cases hr
    | returning => cases hr
    | running l c b =>
      simp only at hd
      subst hd
      simp [worker, worker_body_eq, hw₁, hw₂]
  have hd' : deliver env { worker w s with state := st } =
      { worker w s with
        state := State.CANCELED
        dispatcher := []
        log := (worker w s).log ++ [Effect.on_add_rows_error] } := by
    simp [deliver, hw, error_continuation, emit]
  rw [hd']
  refine ⟨hw, rfl, ?_, ?_, ?_, ?_⟩
  · simp [presentation, is_presentation]
  · simp
  · simp
  · simp

theorem shutdown_error_continuation_witness :
    is_running (run env_ok (init false)).thread = true ∧
    (run env_ok (init false)).dispatcher = [] ∧
    shutdown_at_end.processing_at_lock = true ∧ shutdown_at_end.processing_at_end = false ∧
    (deliver env_ok
      { worker shutdown_at_end (run env_ok (init false)) with state := State.STARTING }).state =
      State.CANCELED :=
  ⟨rfl, rfl, rfl, rfl,
    congrArg Autocomplete.state
      (shutdown_error_continuation env_ok shutdown_at_end State.STARTING
        (run env_ok (init false)) rfl rfl rfl rfl).2.1⟩

/-- C17: after the success continuation has opened the dialog with the `n` rows of
the coordinator, `rows` still has length `n`; the callback `on_select` forwards its
arguments to the hook `on_select` when the index is below `n` and does nothing
otherwise, and the callback `on_changed` forwards to the hook `on_changed` exactly
when the index is below `n`, and only hides the tooltips otherwise. -/
theorem index_gating (env : Env) (s : Autocomplete) (get_tooltip : Nat → String)
    (index : Nat) (text : String) (hide_window : Bool)
    (hs : s.state ≠ State.RESTARTING) (hc : s.state ≠ State.CANCELED) (hr : s.rows ≠ [])
    (ha : anchor_fails env.view s.pfx.length = false) :
    (success_continuation env s).rows.length = s.rows.length ∧
    (presentation (success_continuation env s).log).count Effect.show =
      (presentation s.log).count Effect.show + 1 ∧
    dialog_on_select (success_continuation env s) index text hide_window =
      (if index < s.rows.length then [Relay.on_select index text hide_window] else []) ∧
    (Relay.on_changed index text ∈
        dialog_on_changed get_tooltip (success_continuation env s) index text ↔
      index < s.rows.length) ∧
    (¬ index < s.rows.length →
      dialog_on_changed get_tooltip (success_continuation env s) index text =
        [Relay.tooltips_hide]) := by
  have hlen : (success_continuation env s).rows.length = s.rows.length := by
    rw [success_presents env s hs hc hr ha]
    simp
  refine ⟨hlen, ?_, ?_, ?_, ?_⟩
  · rw [success_presents env s hs hc hr ha]
    simp only [presentation_append, presentation_add_row, List.count_append]
    have : List.count Effect.show (List.map Effect.add_row s.rows) = 0 := by
      rw [List.count_eq_zero]
      simp
    simp [presentation, is_presentation, this]
  · unfold dialog_on_select
    rw [hlen]
    by_cases hi : index < s.rows.length
    · simp [hi, Nat.not_le.mpr hi]
    · simp [hi, Nat.not_lt.mp hi]
  · unfold dialog_on_changed
    rw [hlen]
    by_cases hi : index < s.rows.length
    · simp [hi, Nat.not_le.mpr hi]
    · simp [hi, Nat.not_lt.mp hi]
  · intro hi
    unfold dialog_on_changed
    rw [hlen]
    simp [Nat.not_lt.mp hi]

theorem index_gating_witness :
    one_row_one_char.state ≠ State.RESTARTING ∧ one_row_one_char.state ≠ State.CANCELED ∧
    one_row_one_char.rows ≠ [] ∧
    anchor_fails env_caret3.view one_row_one_char.pfx.length = false ∧
    dialog_on_select (success_continuation env_caret3 one_row_one_char) 0 "x" true =
      (if 0 < one_row_one_char.rows.length then [Relay.on_select 0 "x" true] else []) :=
  ⟨by decide, by decide, by decide, rfl,
    (index_gating env_caret3 one_row_one_char (fun _ => "") 0 "x" true
      (by decide) (by decide) (by decide) rfl).2.2.1⟩

/-- C18, as stated, fails: after an admitted `run()` the state is `STARTING`, and a
mark-set notification for the mark `selection_bound` leaves the coordinator as it
was, in state `STARTING`. -/
theorem mark_set_counterexample :
    (run env_ok (init false)).state = State.STARTING ∧
    signal_mark_set "selection_bound" (run env_ok (init false)) = run env_ok (init false) ∧
    (signal_mark_set "selection_bound" (run env_ok (init false))).state = State.STARTING := by
  decide

/-- C18, amended: a mark-set notification for the mark named `insert` is `stop()`,
so that afterwards the state is neither `STARTING` nor `RESTARTING`; a notification
for a mark of any other name leaves the coordinator as it was. -/
theorem mark_set_amended (s : Autocomplete) :
    signal_mark_set "insert" s = stop s ∧
    (signal_mark_set "insert" s).state ≠ State.STARTING ∧
    (signal_mark_set "insert" s).state ≠ State.RESTARTING ∧
    (∀ mark_name : String, mark_name ≠ "insert" → signal_mark_set mark_name s = s) := by
  have h : signal_mark_set "insert" s = stop s := by simp [signal_mark_set]
  rw [h, stop_eq]
  refine ⟨rfl, ?_, ?_, ?_⟩
  · simp only
    split <;> simp
  · simp only
    split <;> simp
  · intro name hn
    simp [signal_mark_set, hn]

theorem mark_set_amended_witness :
    "selection_bound" ≠ "insert" ∧
    signal_mark_set "selection_bound" (run env_ok (init false)) = run env_ok (init false) ∧
    (signal_mark_set "insert" (run env_ok (init false))).state ≠ State.STARTING :=
  ⟨by decide, (mark_set_amended (run env_ok (init false))).2.2.2 "selection_bound" (by decide),
    (mark_set_amended (run env_ok (init false))).2.1⟩

/-- C19: on a document-changed notification while the dialog is visible, the handler
only appends one `cancel_reparse()` to the log, whatever the key and the state (so
neither `run()` nor `stop()` acts); with no dialog visible and the view not focused
it changes nothing; hence the state or the number of spawned workers can change
only with no dialog visible and the view focused. -/
theorem signal_changed_gate (env : Env) (s : Autocomplete) :
    (env.dialog_visible = true →
      signal_changed env s = { s with log := s.log ++ [Effect.cancel_reparse] }) ∧
    (env.dialog_visible = false → env.view.has_focus = false → signal_changed env s = s) ∧
    ((signal_changed env s).state ≠ s.state ∨
        spawned (signal_changed env s).log ≠ spawned s.log →
      env.dialog_visible = false ∧ env.view.has_focus = true) := by
  have h1 : env.dialog_visible = true →
      signal_changed env s = { s with log := s.log ++ [Effect.cancel_reparse] } := by
    intro hv
    simp [signal_changed, hv, emit]
  have h2 : env.dialog_visible = false → env.view.has_focus = false →
      signal_changed env s = s := by
    intro hv hf
    simp [signal_changed, hv, hf]
  refine ⟨h1, h2, ?_⟩
  intro h
  cases hv : env.dialog_visible
  · cases hf : env.view.has_focus
    · rw [h2 hv hf] at h
      simp at h
    · exact ⟨rfl, rfl⟩
  · rw [h1 hv] at h
    simp [spawned] at h

theorem signal_changed_gate_witness :
    env_dialog.dialog_visible = true ∧
    signal_changed env_dialog (run env_ok (init false)) =
      { run env_ok (init false) with
        log := (run env_ok (init false)).log ++ [Effect.cancel_reparse] } :=
  ⟨rfl, (signal_changed_gate env_dialog (run env_ok (init false))).1 rfl⟩

/-- C24: from a state other than `IDLE`, calls of `stop()` and `run()`, whatever the
hooks answer, spawn no worker and leave the state other than `IDLE`; after at least
one `stop(); run()` with `run_check()` and `is_processing()` true the state is
`RESTARTING`; and when the success continuation posted by the pending worker is then
delivered, it opens no presentation, calls `reparse()` once and spawns exactly one
worker, ending in state `STARTING`. -/
theorem restart_coalescing (s : Autocomplete) (events : List Event) (envs : List Env)
    (env : Env) (rest : List Continuation)
    (hs : s.state ≠ State.IDLE) (he : ∀ e ∈ events, is_stop_or_run e = true)
    (hn : envs ≠ []) (hv : ∀ e ∈ envs, e.run_check = true ∧ e.is_processing = true)
    (hd : s.dispatcher = Continuation.success :: rest)
    (hc : env.run_check = true) (hp : env.is_processing = true) :
    (spawned (exec s events).log = spawned s.log ∧
      ((exec s events).state = State.STARTING ∨ (exec s events).state = State.CANCELED ∨
        (exec s events).state = State.RESTARTING)) ∧
    (exec s (stop_run_pairs envs)).state = State.RESTARTING ∧
    spawned (exec s (stop_run_pairs envs)).log = spawned s.log ∧
    (exec s (stop_run_pairs envs ++ [Event.deliver env])).state = State.STARTING ∧
    spawned (exec s (stop_run_pairs envs ++ [Event.deliver env])).log = spawned s.log + 1 ∧
    presentation (exec s (stop_run_pairs envs ++ [Event.deliver env])).log =
      presentation s.log ∧
    (exec s (stop_run_pairs envs ++ [Event.deliver env])).log.count Effect.reparse =
      s.log.count Effect.reparse + 1 := by
  have h1 := exec_stop_run events s hs he
  have h2 := exec_stop_run_pairs envs s hs hn hv
  have h3 : exec s (stop_run_pairs envs ++ [Event.deliver env]) =
      run env { s with
        state := State.IDLE
        dispatcher := rest
        log := s.log ++ [Effect.after_add_rows, Effect.reparse] } := by
    rw [exec_snoc, h2]
    simp only [step, deliver, hd]
    rw [success_restarting env _ rfl]
  refine ⟨⟨h1.2.1, ?_⟩, by rw [h2], by rw [h2], ?_, ?_, ?_, ?_⟩
  · have := h1.1
    revert this
    cases (exec s events).state <;> simp
  · rw [h3, run_idle env _ hc hp rfl]
  · rw [h3, run_idle env _ hc hp rfl]
    simp only [spawned_append, spawned_join_log]
    simp [spawned]
  · rw [h3, presentation_run]
    simp [presentation, is_presentation]
  · rw [h3, run_idle env _ hc hp rfl]
    simp only [List.count_append, count_reparse_join_log]
    simp

theorem restart_coalescing_witness :
    (exec (init false) [Event.run env_ok, Event.worker three_rows]).state ≠ State.IDLE ∧
    (exec (init false) [Event.run env_ok, Event.worker three_rows]).dispatcher =
      [Continuation.success] ∧
    (exec (exec (init false) [Event.run env_ok, Event.worker three_rows])
      (stop_run_pairs [env_ok, env_ok])).state = State.RESTARTING ∧
    (exec (exec (init false) [Event.run env_ok, Event.worker three_rows])
      (stop_run_pairs [env_ok, env_ok] ++ [Event.deliver env_ok])).state = State.STARTING ∧
    spawned (exec (exec (init false) [Event.run env_ok, Event.worker three_rows])
      (stop_run_pairs [env_ok, env_ok] ++ [Event.deliver env_ok])).log =
      spawned (exec (init false) [Event.run env_ok, Event.worker three_rows]).log + 1 :=
  ⟨by decide, rfl,
    (restart_coalescing (exec (init false) [Event.run env_ok, Event.worker three_rows])
      [Event.stop, Event.run env_unchecked, Event.stop] [env_ok, env_ok] env_ok []
      (by decide) (by decide) (by simp) (by simp [env_ok]) rfl rfl rfl).2.1,
    (restart_coalescing (exec (init false) [Event.run env_ok, Event.worker three_rows])
      [Event.stop, Event.run env_unchecked, Event.stop] [env_ok, env_ok] env_ok []
      (by decide) (by decide) (by simp) (by simp [env_ok]) rfl rfl rfl).2.2.2.1,
    (restart_coalescing (exec (init false) [Event.run env_ok, Event.worker three_rows])
      [Event.stop, Event.run env_unchecked, Event.stop] [env_ok, env_ok] env_ok []
      (by decide) (by decide) (by simp) (by simp [env_ok]) rfl rfl rfl).2.2.2.2.1⟩

/-- C25: a worker that finds `is_processing()` false after it has taken the parse
lock calls neither `stop_parse()` nor `add_rows` and posts nothing: it logs the lock
and gets to its return, and its return ends the thread; the rows, the state and the
dispatcher are as they were. -/
theorem worker_hard_shutdown (w : WorkerRun) (s : Autocomplete) (l c : Int) (b : List Char)
    (ht : s.thread = Thread.running l c b) (hw : w.processing_at_lock = false) :
    worker w s =
      { s with thread := Thread.returning, log := s.log ++ [Effect.get_parse_lock] } ∧
    worker_exit (worker w s) =
      { s with
        thread := Thread.finished
        log := s.log ++ [Effect.get_parse_lock, Effect.thread_exit] } ∧
    (worker_exit (worker w s)).rows = s.rows ∧
    (worker_exit (worker w s)).state = s.state ∧
    (worker_exit (worker w s)).dispatcher = s.dispatcher := by
  have h1 : worker w s =
      { s with thread := Thread.returning, log := s.log ++ [Effect.get_parse_lock] } := by
    simp [worker, ht, worker_body_eq, worker_log, hw]
  rw [h1]
  simp [worker_exit, worker_return, emit]

theorem worker_hard_shutdown_witness :
    (run env_ok (init false)).thread = Thread.running 1 1 [] ∧
    shutdown_at_lock.processing_at_lock = false ∧
    worker_exit (worker shutdown_at_lock (run env_ok (init false))) =
      { run env_ok (init false) with
        thread := Thread.finished
        log := (run env_ok (init false)).log ++ [Effect.get_parse_lock, Effect.thread_exit] } :=
  ⟨by decide, rfl,
    (worker_hard_shutdown shutdown_at_lock (run env_ok (init false)) 1 1 []
      (by decide) rfl).2.1⟩

/-- C26: a worker that finds `is_processing()` true after it has taken the parse lock
calls `stop_parse()` and then `add_rows` once with the captured request; the rows are
afterwards what `add_rows` appended, whatever they were before; it posts one
continuation, success when `is_processing()` is true after `add_rows` and error
otherwise; the state is as it was. -/
theorem worker_result (w : WorkerRun) (s : Autocomplete) (l c : Int) (b : List Char)
    (ht : s.thread = Thread.running l c b) (hw : w.processing_at_lock = true) :
    worker w s =
      { s with
        rows := w.added
        thread := Thread.returning
        dispatcher := s.dispatcher ++
          [if w.processing_at_end then Continuation.success else Continuation.error]
        log := s.log ++
          [Effect.get_parse_lock, Effect.stop_parse, Effect.add_rows b l c,
            Effect.post
              (if w.processing_at_end then Continuation.success else Continuation.error)] } ∧
    (worker w s).state = s.state ∧ (worker w s).rows = w.added := by
  have h1 : worker w s =
      { s with
        rows := w.added
        thread := Thread.returning
        dispatcher := s.dispatcher ++
          [if w.processing_at_end then Continuation.success else Continuation.error]
        log := s.log ++
          [Effect.get_parse_lock, Effect.stop_parse, Effect.add_rows b l c,
            Effect.post
              (if w.processing_at_end then Continuation.success else Continuation.error)] } := by
    simp [worker, ht, worker_body_eq, worker_log, hw]
  rw [h1]
  exact ⟨rfl, rfl, rfl⟩

theorem worker_result_witness :
    (run env_ok (init false)).thread = Thread.running 1 1 [] ∧
    three_rows.processing_at_lock = true ∧
    (worker three_rows (run env_ok (init false))).state = State.STARTING ∧
    (worker three_rows (run env_ok (init false))).rows = three_rows.added :=
  ⟨by decide, rfl,
    ((worker_result three_rows (run env_ok (init false)) 1 1 [] (by decide) rfl).2.1).trans
      (by decide),
    (worker_result three_rows (run env_ok (init false)) 1 1 [] (by decide) rfl).2.2⟩

/-- C27, as stated, fails: with a key that both continues and restarts, interactive
completion disabled and the state `IDLE`, the handler leaves the coordinator as it
was, whereas `stop()` followed by `run()` spawns a worker. -/
theorem key_tie_break_counterexample :
    env_both_keys.is_continue_key env_both_keys.last_keyval = true ∧
    env_both_keys.is_restart_key env_both_keys.last_keyval = true ∧
    env_both_keys.dialog_visible = false ∧ env_both_keys.view.has_focus = true ∧
    env_both_keys.interactive_completion = false ∧ (init false).state = State.IDLE ∧
    signal_changed env_both_keys (init false) = init false ∧
    spawned (signal_changed env_both_keys (init false)).log = 0 ∧
    spawned (run env_both_keys (stop (init false))).log = 1 := by
  decide

/-- C27, amended: for a key that both continues and restarts, with no dialog visible
and the view focused: if interactive completion is enabled or the state is not
`IDLE`, the handler is `run()` without `stop()`; otherwise the handler is `stop()`
alone, which from `IDLE` changes nothing, and `run()` is not called. -/
theorem key_tie_break_amended (env : Env) (s : Autocomplete)
    (hv : env.dialog_visible = false) (hf : env.view.has_focus = true)
    (hk : env.is_continue_key env.last_keyval = true)
    (hr : env.is_restart_key env.last_keyval = true) :
    (env.interactive_completion = true ∨ s.state ≠ State.IDLE →
      signal_changed env s = run env s) ∧
    (¬ (env.interactive_completion = true ∨ s.state ≠ State.IDLE) →
      signal_changed env s = stop s ∧ signal_changed env s = s) := by
  constructor
  · intro h
    have hcond : (env.interactive_completion || decide (s.state ≠ State.IDLE)) = true := by
      simpa using h
    simp only [signal_changed, hv, hf, hk, hcond]
    simp
  · intro h
    have hi : env.interactive_completion = false := by
      cases hx : env.interactive_completion
      · rfl
      · exact absurd (Or.inl hx) h
    have hs : s.state = State.IDLE := by
      by_contra hx
      exact h (Or.inr hx)
    have hstop : stop s = s := by
      rw [stop_eq]
      simp [hs]
      obtain ⟨p, st, pf, r, t, d, l⟩ := s
      simp only at hs
      rw [hs]
    simp [signal_changed, hv, hf, hk, hr, hi, hs, hstop]

theorem key_tie_break_amended_witness :
    env_both_keys.dialog_visible = false ∧ env_both_keys.view.has_focus = true ∧
    env_both_keys.is_continue_key env_both_keys.last_keyval = true ∧
    env_both_keys.is_restart_key env_both_keys.last_keyval = true ∧
    signal_changed env_both_keys (run env_ok (init false)) =
      run env_both_keys (run env_ok (init false)) ∧
    signal_changed env_both_keys (init false) = init false :=
  ⟨rfl, rfl, rfl, rfl,
    (key_tie_break_amended env_both_keys (run env_ok (init false)) rfl rfl rfl rfl).1
      (Or.inr (by decide)),
    ((key_tie_break_amended env_both_keys (init false) rfl rfl rfl rfl).2 (by decide)).2⟩

/-- C28: from a state other than `IDLE` with nothing posted and no worker that has
its body to run — as after the error continuation, which leaves `CANCELED`, and after
a worker that found `is_processing()` false at the lock, which leaves the state and
the dispatcher as they were — no sequence of events spawns a worker or makes the
state `IDLE`: not `run()`, `stop()` or a notification, whatever the hooks answer, and
the dispatcher has nothing to deliver; a success continuation leaves a state other
than `RESTARTING` for `IDLE`. -/
theorem no_recovery_after_shutdown (s : Autocomplete) (events : List Event) (env : Env)
    (hs : s.state ≠ State.IDLE) (hd : s.dispatcher = [])
    (ht : is_running s.thread = false) :
    (exec s events).state ≠ State.IDLE ∧
    spawned (exec s events).log = spawned s.log ∧
    (exec s events).dispatcher = [] ∧
    (run env s).state ≠ State.IDLE ∧ (stop s).state ≠ State.IDLE ∧
    (error_continuation s).state = State.CANCELED ∧
    (s.state ≠ State.RESTARTING → (success_continuation env s).state = State.IDLE) := by
  obtain ⟨h1, h2, h3, h4⟩ := exec_stuck events s hs hd ht
  refine ⟨h1, h4, h2, run_state_not_idle env s hs, ?_, rfl, ?_⟩
  · rw [stop_state_not_idle s hs]
    simp
  · intro hr
    by_cases hx : s.state = State.CANCELED ∨ s.rows = []
    · rw [success_discard env s hr hx]
    · have hc : s.state ≠ State.CANCELED := fun e => hx (Or.inl e)
      have hrw : s.rows ≠ [] := fun e => hx (Or.inr e)
      cases ha : anchor_fails env.view s.pfx.length
      · rw [success_presents env s hr hc hrw ha]
      · rw [success_anchor_fails env s hr hc hrw ha]

theorem no_recovery_after_shutdown_witness :
    (exec (init false) [Event.run env_ok, Event.worker shutdown_at_lock, Event.exit]).state =
      State.STARTING ∧
    (exec (init false) [Event.run env_ok, Event.worker shutdown_at_lock, Event.exit]).dispatcher
      = [] ∧
    (exec (exec (init false) [Event.run env_ok, Event.worker shutdown_at_lock, Event.exit])
      [Event.run env_ok, Event.stop, Event.changed env_typing, Event.run env_ok,
        Event.deliver env_ok]).state ≠ State.IDLE ∧
    spawned (exec (exec (init false)
        [Event.run env_ok, Event.worker shutdown_at_lock, Event.exit])
      [Event.run env_ok, Event.stop, Event.changed env_typing, Event.run env_ok,
        Event.deliver env_ok]).log =
      spawned
        (exec (init false) [Event.run env_ok, Event.worker shutdown_at_lock, Event.exit]).log :=
  ⟨by decide, by decide,
    (no_recovery_after_shutdown
      (exec (init false) [Event.run env_ok, Event.worker shutdown_at_lock, Event.exit])
      [Event.run env_ok, Event.stop, Event.changed env_typing, Event.run env_ok,
        Event.deliver env_ok] env_ok (by decide) (by decide) (by decide)).1,
    (no_recovery_after_shutdown
      (exec (init false) [Event.run env_ok, Event.worker shutdown_at_lock, Event.exit])
      [Event.run env_ok, Event.stop, Event.changed env_typing, Event.run env_ok,
        Event.deliver env_ok] env_ok (by decide) (by decide) (by decide)).2.1⟩

/-- C22: with `pass_buffer_and_strip_word` set, an admitted `run()` with the caret at
an offset of the text captures the caret line plus 1, the text with the longest run
of characters of `[A-Za-z0-9_]` that ends right before the caret replaced by spaces,
and the caret column plus 1 minus the length of the run; the captured text is as
long as the text, has a space at every index of the run, where the text has a word
character, and the character of the text at every other index; the character before
the run is not a word character. -/
theorem blanked_snapshot (env : Env) (s : Autocomplete)
    (hc : env.run_check = true) (hp : env.is_processing = true) (hs : s.state = State.IDLE)
    (hb : s.pass_buffer_and_strip_word = true)
    (ho : env.view.offset ≤ env.view.text.length) :
    (run env s).thread =
      Thread.running ((env.view.line : Int) + 1)
        ((env.view.line_index : Int) + 1 - word_run env.view.text env.view.offset)
        (blanked env.view.text env.view.offset (word_run env.view.text env.view.offset)) ∧
    (blanked env.view.text env.view.offset (word_run env.view.text env.view.offset)).length =
      env.view.text.length ∧
    word_run env.view.text env.view.offset ≤ env.view.offset ∧
    (∀ i, (blanked env.view.text env.view.offset (word_run env.view.text env.view.offset))[i]? =
      if env.view.offset - word_run env.view.text env.view.offset ≤ i ∧ i < env.view.offset then
        some ' '
      else env.view.text[i]?) ∧
    (∀ i, env.view.offset - word_run env.view.text env.view.offset ≤ i → i < env.view.offset →
      ∃ c, env.view.text[i]? = some c ∧ is_word_char c = true ∧ c ≠ ' ') ∧
    (∀ c, word_run env.view.text env.view.offset < env.view.offset →
      env.view.text[env.view.offset - word_run env.view.text env.view.offset - 1]? = some c →
      is_word_char c = false) := by
  have hr := word_run_le env.view.text env.view.offset
  refine ⟨?_, blanked_length _ _ _ ho hr, hr, fun i => blanked_getElem? _ _ _ i ho hr, ?_,
    fun c h1 h2 => word_run_maximal _ _ c ho h1 h2⟩
  · rw [run_idle env s hc hp hs]
    simp only [request, hb, if_true, strip_word_eq _ _ _ ho]
  · intro i h1 h2
    obtain ⟨c, h3, h4⟩ := word_run_chars _ _ i ho h1 h2
    refine ⟨c, h3, h4, ?_⟩
    intro hsp
    rw [hsp] at h4
    revert h4
    decide

theorem blanked_snapshot_witness :
    view_second_line.offset ≤ view_second_line.text.length ∧
    word_run view_second_line.text view_second_line.offset = 4 ∧
    (run { env_ok with view := view_second_line } (init true)).thread =
      Thread.running 2 4
        ['x', ' ', '=', ' ', '1', ';', '\n', 'é', ' ', ' ', ' ', ' ', ' ', 'd'] :=
  ⟨by decide, by decide,
    (blanked_snapshot { env_ok with view := view_second_line } (init true) rfl rfl rfl rfl
      (by decide)).1.trans (by decide)⟩

/-- C23, as stated, fails: with the caret in the middle of `foobar`, after `foo`, the
captured text is three spaces followed by `bar`: the character at the caret is the
word character `b`. -/
theorem whole_token_blanking_counterexample :
    view_mid_word.text = ['f', 'o', 'o', 'b', 'a', 'r'] ∧ view_mid_word.offset = 3 ∧
    captured_buffer (run { env_ok with view := view_mid_word } (init true)).thread =
      [' ', ' ', ' ', 'b', 'a', 'r'] ∧
    (captured_buffer (run { env_ok with view := view_mid_word } (init true)).thread)[3]?.map
      is_word_char = some true := by
  decide

/-- C23, amended: with `pass_buffer_and_strip_word` set, the text captured by an
admitted `run()` has the word characters right before the caret replaced by spaces
and every character at and after the caret kept, word characters of the same token
included: before the caret it is the text up to the run followed by spaces, from the
caret on it is the text, and the character right before the caret is not a word
character. -/
theorem whole_token_blanking_amended (env : Env) (s : Autocomplete)
    (hc : env.run_check = true) (hp : env.is_processing = true) (hs : s.state = State.IDLE)
    (hb : s.pass_buffer_and_strip_word = true)
    (ho : env.view.offset ≤ env.view.text.length) :
    (captured_buffer (run env s).thread).drop env.view.offset =
      env.view.text.drop env.view.offset ∧
    (captured_buffer (run env s).thread).take env.view.offset =
      env.view.text.take (env.view.offset - word_run env.view.text env.view.offset) ++
        List.replicate (word_run env.view.text env.view.offset) ' ' ∧
    (∀ c, 0 < env.view.offset →
      (captured_buffer (run env s).thread)[env.view.offset - 1]? = some c →
      is_word_char c = false) := by
  have hr := word_run_le env.view.text env.view.offset
  have ht : captured_buffer (run env s).thread =
      blanked env.view.text env.view.offset (word_run env.view.text env.view.offset) := by
    rw [run_idle env s hc hp hs]
    simp only [request, hb, if_true, strip_word_eq _ _ _ ho, captured_buffer]
  have hl : (env.view.text.take (env.view.offset - word_run env.view.text env.view.offset) ++
      List.replicate (word_run env.view.text env.view.offset) ' ').length = env.view.offset := by
    simp only [List.length_append, List.length_take, List.length_replicate]
    omega
  rw [ht]
  refine ⟨?_, ?_, ?_⟩
  · unfold blanked
    rw [List.drop_append_of_le_length (by omega), List.drop_of_length_le (by omega)]
    rfl
  · unfold blanked
    rw [List.take_append_of_le_length (by omega), List.take_of_length_le (by omega)]
  · intro c h0 h1
    rw [blanked_getElem? _ _ _ _ ho hr] at h1
    by_cases hz : word_run env.view.text env.view.offset = 0
    · rw [hz] at h1
      rw [if_neg (by omega)] at h1
      have := word_run_maximal env.view.text env.view.offset c ho (by omega)
      rw [hz] at this
      exact this h1
    · rw [if_pos (by omega)] at h1
      cases h1
      decide

theorem whole_token_blanking_amended_witness :
    view_mid_word.offset ≤ view_mid_word.text.length ∧
    (captured_buffer (run { env_ok with view := view_mid_word } (init true)).thread).drop 3 =
      ['b', 'a', 'r'] ∧
    (captured_buffer (run { env_ok with view := view_mid_word } (init true)).thread).take 3 =
      [' ', ' ', ' '] :=
  ⟨by decide,
    (whole_token_blanking_amended { env_ok with view := view_mid_word } (init true)
      rfl rfl rfl rfl (by decide)).1,
    (whole_token_blanking_amended { env_ok with view := view_mid_word } (init true)
      rfl rfl rfl rfl (by decide)).2.1.trans (by decide)⟩

/-- C29: with `pass_buffer_and_strip_word` set and a caret that lies in the text, with
`get_line_index()` the number of bytes from the start of its line, the loop reads
`buffer[pos]` only at indices of the text, the run it blanks begins at or after the
start of the line of the caret, and the column captured by an admitted `run()` is 1
plus the number of bytes from the start of the line to the first blanked character,
hence at least 1. -/
theorem column_in_line (env : Env) (s : Autocomplete)
    (hc : env.run_check = true) (hp : env.is_processing = true) (hs : s.state = State.IDLE)
    (hb : s.pass_buffer_and_strip_word = true) (hv : caret_consistent env.view) :
    (∀ i ∈ strip_word_reads env.view.offset env.view.text, i < env.view.text.length) ∧
    line_start env.view.text env.view.offset ≤
      env.view.offset - word_run env.view.text env.view.offset ∧
    captured_column (run env s).thread =
      1 + (utf8_length ((env.view.text.take
        (env.view.offset - word_run env.view.text env.view.offset)).drop
          (line_start env.view.text env.view.offset)) : Int) ∧
    1 ≤ captured_column (run env s).thread := by
  obtain ⟨ho, hi⟩ := hv
  have hcol : captured_column (run env s).thread =
      1 + (utf8_length ((env.view.text.take
        (env.view.offset - word_run env.view.text env.view.offset)).drop
          (line_start env.view.text env.view.offset)) : Int) := by
    rw [run_idle env s hc hp hs]
    simp only [request, hb, if_true, strip_word_eq _ _ _ ho, captured_column]
    rw [hi, utf8_length_line _ _ ho]
    push_cast
    omega
  refine ⟨fun i h => ?_, line_start_le_run _ _ ho, hcol, ?_⟩
  · have := strip_word_reads_lt _ _ i h
    omega
  · rw [hcol]
    omega

theorem column_in_line_witness :
    caret_consistent view_second_line ∧
    line_start view_second_line.text view_second_line.offset = 7 ∧
    strip_word_reads view_second_line.offset view_second_line.text = [12, 11, 10, 9, 8] ∧
    captured_column (run { env_ok with view := view_second_line } (init true)).thread = 4 :=
  ⟨⟨by decide, by decide⟩, by decide, by decide,
    (column_in_line { env_ok with view := view_second_line } (init true) rfl rfl rfl rfl
      ⟨by decide, by decide⟩).2.2.1.trans (by decide)⟩

end Autocomplete

/-! ## The text of the buffer after `replace_text` -/

namespace BaseView

theorem line_end_pos (text : List Char) (h : text ≠ []) : 1 ≤ line_end text := by
  cases text with
  | nil => exact absurd rfl h
  | cons c rest =>
    simp only [line_end]
    split
    · split <;> omega
    · split <;> omega

theorem line_end_le (text : List Char) : line_end text ≤ text.length := by
  induction text with
  | nil => simp [line_end]
  | cons c rest ih =>
    simp only [line_end, List.length_cons]
    split
    · split
      · rename_i h
        cases rest with
        | nil => simp at h
        | cons d rest' => simp
      · omega
    · split <;> omega

theorem line_end_cr (rest : List Char) :
    line_end ('\r' :: rest) = if rest.head? = some '\n' then 2 else 1 := by
  simp [line_end]

theorem line_end_delimiter (c : Char) (rest : List Char) (h₁ : c ≠ '\r')
    (h₂ : c = '\n' ∨ c = paragraph_separator) : line_end (c :: rest) = 1 := by
  simp only [line_end, if_neg h₁, if_pos h₂]

theorem line_end_other (c : Char) (rest : List Char) (h₁ : c ≠ '\r')
    (h₂ : ¬ (c = '\n' ∨ c = paragraph_separator)) : line_end (c :: rest) = line_end rest + 1 := by
  simp only [line_end, if_neg h₁, if_neg h₂]

theorem line_end_nil_iff (text : List Char) (h : line_end text = 0) : text = [] := by
  by_contra hne
  have := line_end_pos text hne
  omega

/-- The first line of a text ends at the same place when what follows it is replaced
by a text with the same first character, or by nothing when nothing followed. -/
theorem line_end_same_head (line after after' : List Char) (hl : line ≠ [])
    (h : line_end (line ++ after) = line.length) (hh : after'.head? = after.head?) :
    line_end (line ++ after') = line.length := by
  induction line with
  | nil => exact absurd rfl hl
  | cons c rest ih =>
    rw [List.cons_append] at h ⊢
    by_cases hc : c = '\r'
    · subst hc
      rw [line_end_cr] at h ⊢
      cases rest with
      | nil =>
        rw [List.nil_append] at h ⊢
        rw [hh]
        exact h
      | cons d rest' =>
        rw [List.cons_append] at h ⊢
        exact h
    · by_cases hd : c = '\n' ∨ c = paragraph_separator
      · rw [line_end_delimiter c _ hc hd] at h ⊢
        exact h
      · rw [line_end_other c _ hc hd] at h ⊢
        rw [List.length_cons] at h ⊢
        have h' : line_end (rest ++ after) = rest.length := by omega
        cases rest with
        | nil =>
          rw [List.nil_append] at h' ⊢
          have ha : after = [] := line_end_nil_iff after h'
          rw [ha] at hh
          have ha' : after' = [] := by
            cases after' with
            | nil => rfl
            | cons x xs => simp at hh
          rw [ha']
          rfl
        | cons d rest' =>
          rw [ih (by simp) h']

/-- The first line of a text that goes on after it ends at the same place when what
follows is replaced, unless the line ends in a carriage return and a line feed
comes to follow it. -/
theorem line_end_other_tail (line after after' : List Char) (hl : line ≠ [])
    (h : line_end (line ++ after) = line.length) (ha : after ≠ [])
    (hc : after'.head? = some '\n' → line.getLast? ≠ some '\r') :
    line_end (line ++ after') = line.length := by
  induction line with
  | nil => exact absurd rfl hl
  | cons c rest ih =>
    rw [List.cons_append] at h ⊢
    by_cases hcr : c = '\r'
    · subst hcr
      rw [line_end_cr] at h ⊢
      cases rest with
      | nil =>
        rw [List.nil_append] at h ⊢
        have hn : ¬ after'.head? = some '\n' := by
          intro hh
          exact hc hh (by simp)
        rw [if_neg hn]
        rfl
      | cons d rest' =>
        rw [List.cons_append] at h ⊢
        exact h
    · by_cases hd : c = '\n' ∨ c = paragraph_separator
      · rw [line_end_delimiter c _ hcr hd] at h ⊢
        exact h
      · rw [line_end_other c _ hcr hd] at h ⊢
        rw [List.length_cons] at h ⊢
        have h' : line_end (rest ++ after) = rest.length := by omega
        cases rest with
        | nil =>
          rw [List.nil_append] at h'
          exact absurd (line_end_nil_iff after h') ha
        | cons d rest' =>
          have hlast : (c :: d :: rest').getLast? = (d :: rest').getLast? := by
            simp [List.getLast?_cons_cons]
          rw [hlast] at hc
          rw [ih (by simp) h' hc]

theorem first_lines_append (P Q : List (List Char)) (after : List Char) :
    first_lines (P ++ Q) after ↔ first_lines P (Q.flatten ++ after) ∧ first_lines Q after := by
  induction P with
  | nil => simp [first_lines]
  | cons l ls ih =>
    have e : l :: ls ++ Q = l :: (ls ++ Q) := rfl
    rw [e]
    simp only [first_lines, List.flatten_append, List.append_assoc, ih]
    tauto

theorem first_lines_ne_nil (P : List (List Char)) (after : List Char) (h : first_lines P after) :
    ∀ l ∈ P, l ≠ [] := by
  induction P with
  | nil => simp
  | cons l ls ih =>
    intro x hx
    obtain ⟨h1, _, h3⟩ := h
    rcases List.mem_cons.mp hx with hx | hx
    · rw [hx]; exact h1
    · exact ih h3 x hx

theorem head_flatten_append (P : List (List Char)) (after after' : List Char)
    (hne : ∀ l ∈ P, l ≠ []) (hP : P ≠ []) :
    (P.flatten ++ after').head? = (P.flatten ++ after).head? := by
  cases P with
  | nil => exact absurd rfl hP
  | cons l ls =>
    have hl : l ≠ [] := hne l (by simp)
    cases l with
    | nil => exact absurd rfl hl
    | cons c cs => simp

/-- The first lines of a text stay its first lines when what follows them is
replaced by a text with the same first character. -/
theorem first_lines_same_head (P : List (List Char)) (after after' : List Char)
    (h : first_lines P after) (hh : after'.head? = after.head?) : first_lines P after' := by
  induction P with
  | nil => trivial
  | cons l ls ih =>
    obtain ⟨h1, h2, h3⟩ := h
    refine ⟨h1, ?_, ih h3⟩
    apply line_end_same_head l (ls.flatten ++ after) _ h1 h2
    by_cases hls : ls = []
    · subst hls
      simpa using hh
    · exact head_flatten_append ls after after' (first_lines_ne_nil ls after h3) hls

/-- The first lines of a text that goes on after them stay its first lines when
what follows is replaced, unless the last of them ends in a carriage return and a
line feed comes to follow it. -/
theorem first_lines_other_tail (P : List (List Char)) (after after' : List Char)
    (h : first_lines P after) (ha : after ≠ [])
    (hc : after'.head? = some '\n' → ∀ l, P.getLast? = some l → l.getLast? ≠ some '\r') :
    first_lines P after' := by
  induction P with
  | nil => trivial
  | cons l ls ih =>
    obtain ⟨h1, h2, h3⟩ := h
    by_cases hls : ls = []
    · subst hls
      refine ⟨h1, ?_, trivial⟩
      simp only [List.flatten_nil, List.nil_append] at h2 ⊢
      exact line_end_other_tail l after after' h1 h2 ha (fun hh => hc hh l (by simp))
    · refine ⟨h1, ?_, ih h3 ?_⟩
      · apply line_end_same_head l (ls.flatten ++ after) _ h1 h2
        exact head_flatten_append ls after after' (first_lines_ne_nil ls after h3) hls
      · intro hh x hx
        apply hc hh x
        cases ls with
        | nil => exact absurd rfl hls
        | cons y ys => simpa [List.getLast?_cons_cons] using hx

/-- The line after the first lines of a text starts where they end. -/
theorem get_iter_at_line_first_lines (P : List (List Char)) (after : List Char)
    (h : first_lines P after) :
    get_iter_at_line (P.flatten ++ after) P.length = P.flatten.length := by
  induction P with
  | nil => simp [get_iter_at_line]
  | cons l ls ih =>
    obtain ⟨_, h2, h3⟩ := h
    simp only [List.flatten_cons, List.append_assoc, List.length_cons, get_iter_at_line, h2,
      List.length_append]
    rw [List.drop_left, ih h3]

theorem buffer_lines_upto_spec (bound : Nat) (text : List Char) (h : text.length ≤ bound) :
    (buffer_lines_upto bound text).flatten = text ∧
    first_lines (buffer_lines_upto bound text) [] := by
  induction bound generalizing text with
  | zero =>
    have : text = [] := List.length_eq_zero.mp (by omega)
    subst this
    exact ⟨rfl, trivial⟩
  | succ bound ih =>
    by_cases ht : text = []
    · subst ht
      simp [buffer_lines_upto, first_lines]
    · have hpos := line_end_pos text ht
      have hle := line_end_le text
      have hrest : (text.drop (line_end text)).length ≤ bound := by
        rw [List.length_drop]
        omega
      obtain ⟨h1, h2⟩ := ih (text.drop (line_end text)) hrest
      have hdef : buffer_lines_upto (bound + 1) text =
          text.take (line_end text) :: buffer_lines_upto bound (text.drop (line_end text)) := by
        simp [buffer_lines_upto, ht]
      rw [hdef]
      refine ⟨?_, ?_, ?_, h2⟩
      · rw [List.flatten_cons, h1, List.take_append_drop]
      · intro hnil
        have := congrArg List.length hnil
        rw [List.length_take] at this
        have hl : 0 < text.length := List.length_pos.mpr ht
        simp only [List.length_nil] at this
        omega
      · rw [h1, List.append_nil, List.take_append_drop, List.length_take]
        omega

/-- The lines of the text of the buffer make up the text. -/
theorem buffer_lines_flatten (text : List Char) : (buffer_lines text).flatten = text :=
  (buffer_lines_upto_spec text.length text (Nat.le_refl _)).1

/-- The lines of the text of the buffer are its first lines. -/
theorem buffer_lines_first_lines (text : List Char) : first_lines (buffer_lines text) [] :=
  (buffer_lines_upto_spec text.length text (Nat.le_refl _)).2

theorem new_lines_loop_flatten (line rest : List Char) :
    (new_lines_loop line rest).1.flatten ++ (new_lines_loop line rest).2 = line ++ rest := by
  induction rest generalizing line with
  | nil => simp [new_lines_loop]
  | cons c rest ih =>
    by_cases hc : c = '\n'
    · simp only [new_lines_loop, if_pos hc, List.flatten_cons, List.append_assoc]
      rw [ih []]
      simp
    · simp only [new_lines_loop, if_neg hc]
      rw [ih (line ++ [c])]
      simp

theorem new_lines_loop_lf (line rest : List Char) :
    ∀ l ∈ (new_lines_loop line rest).1, l.getLast? = some '\n' := by
  induction rest generalizing line with
  | nil => simp [new_lines_loop]
  | cons c rest ih =>
    by_cases hc : c = '\n'
    · simp only [new_lines_loop, if_pos hc]
      intro l hl
      rcases List.mem_cons.mp hl with hl | hl
      · rw [hl, hc]
        simp
      · exact ih [] l hl
    · simp only [new_lines_loop, if_neg hc]
      exact ih (line ++ [c])

theorem new_lines_loop_rest (line rest : List Char) (h : rest.getLast? = some '\n') :
    (new_lines_loop line rest).2 = [] := by
  induction rest generalizing line with
  | nil => simp at h
  | cons c rest ih =>
    by_cases hr : rest = []
    · subst hr
      have hc : c = '\n' := by simpa using h
      simp [new_lines_loop, hc]
    · have hlast : rest.getLast? = some '\n' := by
        cases rest with
        | nil => exact absurd rfl hr
        | cons d rest' => simpa [List.getLast?_cons_cons] using h
      by_cases hc : c = '\n'
      · simp only [new_lines_loop, if_pos hc]
        exact ih [] hlast
      · simp only [new_lines_loop, if_neg hc]
        exact ih (line ++ [c]) hlast

/-- The lines of lines 176-187 make up the new text. -/
theorem new_lines_flatten (new_text : List Char) : (new_lines new_text).flatten = new_text := by
  unfold new_lines
  split
  · rw [List.flatten_append]
    simpa using new_lines_loop_flatten [] new_text
  · rename_i h
    have hlast : new_text.getLast? = some '\n' := by
      by_contra hne
      exact h (Or.inr hne)
    have h1 := new_lines_loop_flatten [] new_text
    rw [new_lines_loop_rest [] new_text hlast] at h1
    simpa using h1

theorem mem_of_concat_eq (lines : List (List Char)) (last : List Char)
    (before : List (List Char)) (line : List Char) (after : List (List Char))
    (h : lines ++ [last] = before ++ line :: after) (hne : after ≠ []) : line ∈ lines := by
  rcases List.eq_nil_or_concat after with hnil | ⟨after', y, hy⟩
  · exact absurd hnil hne
  · subst hy
    have h' : lines ++ [last] = (before ++ line :: after') ++ [y] := by
      rw [h]
      simp
    have := (List.append_inj' h' rfl).1
    rw [this]
    simp

/-- Every line of lines 176-187 but the last ends in a line feed. -/
theorem new_lines_lf_but_last (new_text : List Char) : lf_but_last (new_lines new_text) := by
  intro before line after heq hne
  have hmem : line ∈ (new_lines_loop [] new_text).1 := by
    unfold new_lines at heq
    split at heq
    · exact mem_of_concat_eq _ _ before line after heq hne
    · rw [heq]
      simp
  exact new_lines_loop_lf [] new_text line hmem

theorem text_between_eq (before I after : List (List Char)) (h : I ≠ []) :
    text_between (before ++ I ++ after) (before.length + 1 - 1)
      (before.length + 1 - 1 + I.length - 1) = I.flatten := by
  have hI : 0 < I.length := List.length_pos.mpr h
  have e : before.length + 1 - 1 + I.length - 1 + 1 - (before.length + 1 - 1) = I.length := by
    omega
  unfold text_between
  rw [e, Nat.add_sub_cancel, List.append_assoc, List.drop_left, List.take_left]

theorem insert_at_end (text after inserted : List Char) :
    insert (text ++ after) text.length inserted = text ++ inserted ++ after := by
  unfold insert
  rw [List.take_left, List.drop_left]

theorem erase_middle (text middle after : List Char) :
    erase (text ++ middle ++ after) text.length (text ++ middle).length = text ++ after := by
  unfold erase
  have h1 : min text.length (text ++ middle).length = text.length := by
    rw [List.length_append]
    omega
  have h2 : max text.length (text ++ middle).length = (text ++ middle).length := by
    rw [List.length_append]
    omega
  rw [h1, h2, List.append_assoc, List.take_left, ← List.append_assoc, List.drop_left]

theorem flatten_ne_nil_of_lines (D : List (List Char)) (hD : D ≠ []) (hne : ∀ l ∈ D, l ≠ []) :
    D.flatten ≠ [] := by
  cases D with
  | nil => exact absurd rfl hD
  | cons l ls =>
    have hl : l ≠ [] := hne l (by simp)
    cases l with
    | nil => exact absurd rfl hl
    | cons c cs => simp

/-- One hunk: with the lines `P` before it untouched, the old lines `D` of the hunk
still in the text and the text after them already the new one, `apply_hunk` puts
the new lines `I` of the hunk in the place of `D`. -/
theorem apply_hunk_step (lines : List (List Char)) (hunk : Hunk)
    (P D I before_new after_new : List (List Char)) (old_after new_after : List Char)
    (hfirst : first_lines (P ++ D) old_after)
    (hhead : new_after.head? = old_after.head?)
    (hcr : D ≠ [] → new_after.head? = some '\n' →
      ∀ l, P.getLast? = some l → l.getLast? ≠ some '\r')
    (hold₁ : hunk.old_lines.2 = D.length)
    (hold₂ : hunk.old_lines.1 = if D.length = 0 then P.length else P.length + 1)
    (hnew₁ : hunk.new_lines.2 = I.length)
    (hnew₂ : I ≠ [] → hunk.new_lines.1 = before_new.length + 1)
    (hlines : lines = before_new ++ I ++ after_new) :
    apply_hunk lines hunk (P.flatten ++ D.flatten ++ new_after) =
      P.flatten ++ I.flatten ++ new_after := by
  obtain ⟨hP, hD⟩ := (first_lines_append P D old_after).mp hfirst
  have hDne := first_lines_ne_nil D old_after hD
  -- the text once the old lines of the hunk are gone, and where the new ones go
  have herased : (if hunk.old_lines.2 ≠ 0 then
        (erase (P.flatten ++ D.flatten ++ new_after)
            (get_iter_at_line (P.flatten ++ D.flatten ++ new_after) (hunk.old_lines.1 - 1))
            (get_iter_at_line (P.flatten ++ D.flatten ++ new_after)
              (hunk.old_lines.1 - 1 + hunk.old_lines.2)),
          get_iter_at_line
            (erase (P.flatten ++ D.flatten ++ new_after)
              (get_iter_at_line (P.flatten ++ D.flatten ++ new_after) (hunk.old_lines.1 - 1))
              (get_iter_at_line (P.flatten ++ D.flatten ++ new_after)
                (hunk.old_lines.1 - 1 + hunk.old_lines.2)))
            (hunk.old_lines.1 - 1))
      else (P.flatten ++ D.flatten ++ new_after,
        get_iter_at_line (P.flatten ++ D.flatten ++ new_after) hunk.old_lines.1)) =
      (P.flatten ++ new_after, P.flatten.length) := by
    by_cases hd : D = []
    · subst hd
      have h0 : hunk.old_lines.2 = 0 := by simpa using hold₁
      have h1 : hunk.old_lines.1 = P.length := by simpa using hold₂
      have hP' : first_lines P new_after := by
        apply first_lines_same_head P (([] : List (List Char)).flatten ++ old_after) new_after hP
        simpa using hhead
      rw [if_neg (by simp [h0]), h1]
      simp only [List.flatten_nil, List.append_nil]
      rw [get_iter_at_line_first_lines P new_after hP']
    · have hlen : 0 < D.length := List.length_pos.mpr hd
      have h0 : hunk.old_lines.2 ≠ 0 := by omega
      have h1 : hunk.old_lines.1 - 1 = P.length := by
        rw [hold₂, if_neg (by omega)]
        omega
      have hflat := flatten_ne_nil_of_lines D hd hDne
      have hP₁ : first_lines P (D.flatten ++ new_after) :=
        first_lines_same_head P (D.flatten ++ old_after) _ hP
          (head_flatten_append D old_after new_after hDne hd)
      have hPD : first_lines (P ++ D) new_after :=
        first_lines_same_head (P ++ D) old_after new_after hfirst hhead
      have hP₂ : first_lines P new_after :=
        first_lines_other_tail P (D.flatten ++ old_after) new_after hP (by simp [hflat])
          (hcr hd)
      have e₁ : get_iter_at_line (P.flatten ++ D.flatten ++ new_after) P.length =
          P.flatten.length := by
        rw [List.append_assoc]
        exact get_iter_at_line_first_lines P _ hP₁
      have e₂ : get_iter_at_line (P.flatten ++ D.flatten ++ new_after) (P.length + D.length) =
          (P.flatten ++ D.flatten).length := by
        have := get_iter_at_line_first_lines (P ++ D) new_after hPD
        rw [List.flatten_append, List.length_append] at this
        exact this
      rw [if_pos h0, h1, hold₁, e₁, e₂, erase_middle,
        get_iter_at_line_first_lines P new_after hP₂]
  unfold apply_hunk
  simp only []
  rw [herased]
  by_cases hi : I = []
  · subst hi
    have h0 : hunk.new_lines.2 = 0 := by simpa using hnew₁
    rw [if_neg (by simp [h0])]
    simp
  · have hlen : 0 < I.length := List.length_pos.mpr hi
    rw [if_pos (by omega), hnew₂ hi, hnew₁, hlines, text_between_eq before_new I after_new hi,
      insert_at_end]

/-- What `hunks_ok` says of the first hunk: the old and the new lines start with the
same run `U`, followed by the old lines `D` and the new lines `I` of the hunk. -/
theorem hunks_ok_cons (first : Bool) (o n : Nat) (old new : List (List Char)) (hunk : Hunk)
    (hunks : List Hunk) (h : hunks_ok first o n old new (hunk :: hunks) = true) :
    ∃ (U D O' I N' : List (List Char)),
      old = U ++ D ++ O' ∧ new = U ++ I ++ N' ∧
      D.length = hunk.old_lines.2 ∧ I.length = hunk.new_lines.2 ∧
      hunk.old_lines.1 = (if D.length = 0 then o + U.length else o + U.length + 1) ∧
      (I ≠ [] → hunk.new_lines.1 = n + U.length + 1) ∧
      (first = true ∨ 1 ≤ U.length) ∧
      hunks_ok false (o + U.length + D.length) (n + U.length + I.length) O' N' hunks = true := by
  simp only [hunks_ok, Bool.and_eq_true, Bool.or_eq_true, decide_eq_true_eq] at h
  obtain ⟨⟨⟨⟨⟨⟨h1, h2⟩, h3⟩, h4⟩, h5⟩, h6⟩, h7⟩ := h
  generalize hk : (if hunk.old_lines.2 = 0 then hunk.old_lines.1 else hunk.old_lines.1 - 1) - o = k
    at h1 h2 h3 h4 h5 h6 h7
  have hU : (old.take k).length = k := by
    rw [List.length_take]
    omega
  have hD : ((old.drop k).take hunk.old_lines.2).length = hunk.old_lines.2 := by
    rw [List.length_take, List.length_drop]
    omega
  have hI : ((new.drop k).take hunk.new_lines.2).length = hunk.new_lines.2 := by
    rw [List.length_take, List.length_drop]
    omega
  refine ⟨old.take k, (old.drop k).take hunk.old_lines.2, old.drop (k + hunk.old_lines.2),
    (new.drop k).take hunk.new_lines.2, new.drop (k + hunk.new_lines.2), ?_, ?_, hD, hI, ?_, ?_,
    ?_, ?_⟩
  · rw [List.append_assoc, ← List.drop_drop, List.take_append_drop, List.take_append_drop]
  · rw [h6, List.append_assoc, ← List.drop_drop, List.take_append_drop, List.take_append_drop]
  · rw [hU, hD]
    exact h1
  · intro hne
    rw [hU]
    rcases h2 with h2 | h2
    · exfalso
      apply hne
      apply List.eq_nil_of_length_eq_zero
      rw [hI, h2]
    · exact h2
  · rw [hU]
    rcases h3 with h3 | h3
    · exact Or.inl h3
    · exact Or.inr h3
  · rw [hU, hD, hI]
    exact h7

/-- After a hunk, what is left of the new text starts with the character what is
left of the old text starts with. -/
theorem hunks_ok_head (o n : Nat) (old new : List (List Char)) (hunks : List Hunk)
    (h : hunks_ok false o n old new hunks = true) (hne : ∀ l ∈ old, l ≠ []) :
    new.flatten.head? = old.flatten.head? := by
  cases hunks with
  | nil =>
    have : old = new := by simpa [hunks_ok] using h
    rw [this]
  | cons hunk hunks =>
    obtain ⟨U, D, O', I, N', ho, hn, _, _, _, _, hU, _⟩ := hunks_ok_cons false o n old new hunk hunks h
    have hlen : 1 ≤ U.length := by
      rcases hU with hU | hU
      · cases hU
      · exact hU
    have hUne : U ≠ [] := by
      intro e
      rw [e] at hlen
      simp at hlen
    have hUl : ∀ l ∈ U, l ≠ [] := by
      intro l hl
      apply hne l
      rw [ho]
      simp [hl]
    rw [ho, hn]
    simp only [List.flatten_append, List.append_assoc]
    exact head_flatten_append U _ _ hUl hUne

/-- The loop of lines 192-217 over hunks that are those of a line diff: with the old
lines `Opre` before the hunks untouched, it turns the old lines `Orest` into the new
lines `Nrest`. -/
theorem foldr_apply_hunk (hunks : List Hunk) :
    ∀ (first : Bool) (Opre Orest Npre Nrest : List (List Char)),
      hunks_ok first Opre.length Npre.length Orest Nrest hunks = true →
      first_lines (Opre ++ Orest) [] →
      lf_but_last (Npre ++ Nrest) →
      (first = true → Opre = []) →
      hunks.foldr (apply_hunk (Npre ++ Nrest)) (Opre.flatten ++ Orest.flatten) =
        Opre.flatten ++ Nrest.flatten := by
  induction hunks with
  | nil =>
    intro first Opre Orest Npre Nrest h _ _ _
    have : Orest = Nrest := by simpa [hunks_ok] using h
    rw [this]
    rfl
  | cons hunk hunks ih =>
    intro first Opre Orest Npre Nrest h hfirst hlf hpre
    obtain ⟨U, D, O', I, N', ho, hn, hD, hI, hold, hnew, hU, hrest⟩ :=
      hunks_ok_cons first Opre.length Npre.length Orest Nrest hunk hunks h
    subst ho
    subst hn
    have hall : first_lines ((Opre ++ U ++ D) ++ O') [] := by
      simpa [List.append_assoc] using hfirst
    have hnl : Npre ++ (U ++ I ++ N') = (Npre ++ U ++ I) ++ N' := by
      simp [List.append_assoc]
    have hih := ih false (Opre ++ U ++ D) O' (Npre ++ U ++ I) N'
      (by simpa [List.length_append, Nat.add_assoc] using hrest)
      hall (by rw [← hnl]; exact hlf) (by intro e; cases e)
    rw [← hnl] at hih
    have htext : Opre.flatten ++ (U ++ D ++ O').flatten = (Opre ++ U ++ D).flatten ++ O'.flatten := by
      simp [List.flatten_append, List.append_assoc]
    rw [List.foldr_cons, htext, hih]
    obtain ⟨hPD, hO'⟩ := (first_lines_append (Opre ++ U ++ D) O' []).mp hall
    have hO'ne := first_lines_ne_nil O' [] hO'
    have hstep := apply_hunk_step (Npre ++ (U ++ I ++ N')) hunk (Opre ++ U) D I (Npre ++ U) N'
      O'.flatten N'.flatten
      (by simpa using hPD)
      (hunks_ok_head _ _ O' N' hunks hrest hO'ne)
      (by
        intro _ hhead l hl
        by_cases hUn : U = []
        · subst hUn
          rcases hU with hU | hU
          · rw [hpre hU] at hl
            simp at hl
          · simp at hU
        · rw [List.getLast?_append_of_ne_nil _ hUn] at hl
          rcases List.eq_nil_or_concat U with hnil | ⟨U', x, hx⟩
          · exact absurd hnil hUn
          · subst hx
            have hxl : x = l := by simpa using hl
            subst hxl
            have hN : N' ≠ [] := by
              intro e
              rw [e] at hhead
              simp at hhead
            have := hlf (Npre ++ U') x (I ++ N') (by simp [List.append_assoc]) (by simp [hN])
            rw [this]
            decide)
      hD.symm
      (by rw [hold]; simp [List.length_append])
      hI.symm
      (by intro hne; rw [hnew hne]; simp [List.length_append])
      (by simp [List.append_assoc])
    have e₁ : (Opre ++ U ++ D).flatten ++ N'.flatten =
        (Opre ++ U).flatten ++ D.flatten ++ N'.flatten := by
      simp [List.flatten_append, List.append_assoc]
    rw [e₁, hstep]
    simp [List.flatten_append, List.append_assoc]

/-- For every text of the buffer and every new text, empty or not, ending in a line
feed or not: when the hunks the line diff answers number the old lines as the buffer
counts them and the new lines as the code splits them, and are those of a diff
without context between these lines, `replace_text` leaves the new text in the
buffer. With an empty buffer or an empty new text the diff is not asked. -/
theorem replace_text_result (get_hunks : List Char → List Char → Option (List Hunk))
    (text new_text : List Char)
    (h : text ≠ [] → new_text ≠ [] →
      ∃ hunks, get_hunks text new_text = some hunks ∧
        hunks_ok true 0 0 (buffer_lines text) (new_lines new_text) hunks = true) :
    replace_text get_hunks text new_text = new_text := by
  unfold replace_text
  by_cases ht : text = []
  · subst ht
    simp
  · have hlen : ¬ text.length = 0 := by
      intro e
      exact ht (List.length_eq_zero.mp e)
    rw [if_neg hlen]
    by_cases hn : new_text = []
    · rw [if_pos hn]
    · rw [if_neg hn]
      obtain ⟨hunks, hg, hok⟩ := h ht hn
      rw [hg]
      have := foldr_apply_hunk hunks true [] (buffer_lines text) [] (new_lines new_text) hok
        (by simpa using buffer_lines_first_lines text)
        (by simpa using new_lines_lf_but_last new_text) (fun _ => rfl)
      simpa [buffer_lines_flatten, new_lines_flatten] using this

theorem replace_text_result_witness :
    hunks_ok true 0 0 (buffer_lines "line 1\nline3".toList)
      (new_lines "line 1\nline 2\nline3".toList)
      [{ old_lines := (1, 0), new_lines := (2, 1) }] = true ∧
    replace_text one_line_added "line 1\nline3".toList "line 1\nline 2\nline3".toList =
      "line 1\nline 2\nline3".toList :=
  ⟨by decide,
    replace_text_result one_line_added "line 1\nline3".toList "line 1\nline 2\nline3".toList
      (fun _ _ => ⟨_, rfl, by decide⟩)⟩

theorem lf_only_cons (c : Char) (rest : List Char) (h : lf_only (c :: rest) = true) :
    c ≠ paragraph_separator ∧ (c = '\r' → rest.head? = some '\n') ∧ lf_only rest = true := by
  simp only [lf_only, Bool.and_eq_true, bne_iff_ne, ne_eq, Bool.or_eq_true, beq_iff_eq] at h
  refine ⟨h.1.1, ?_, h.2⟩
  intro hc
  rcases h.1.2 with h1 | h1
  · exact absurd hc h1
  · exact h1

theorem lf_only_append (a b : List Char) (h : lf_only (a ++ b) = true) : lf_only b = true := by
  induction a with
  | nil => exact h
  | cons c rest ih => exact ih (lf_only_cons c _ h).2.2

/-- In a text whose lines end in line feeds the first line of the buffer ends at the
first line feed. -/
theorem line_end_eq_lf_end (text : List Char) (h : lf_only text = true) :
    line_end text = lf_end text := by
  induction text with
  | nil => rfl
  | cons c rest ih =>
    obtain ⟨h1, h2, h3⟩ := lf_only_cons c rest h
    by_cases hcr : c = '\r'
    · subst hcr
      have hh := h2 rfl
      rw [line_end_cr, if_pos hh]
      cases rest with
      | nil => simp at hh
      | cons d rest2 =>
        have hd : d = '\n' := by simpa using hh
        subst hd
        simp [lf_end]
    · by_cases hlf : c = '\n'
      · rw [line_end_delimiter c rest hcr (Or.inl hlf)]
        simp [lf_end, hlf]
      · rw [line_end_other c rest hcr (by tauto), ih h3]
        simp [lf_end, hlf]

theorem lf_end_append_lf (acc rest : List Char) (h : '\n' ∉ acc) :
    lf_end (acc ++ '\n' :: rest) = acc.length + 1 := by
  induction acc with
  | nil => simp [lf_end]
  | cons c acc ih =>
    have hc : c ≠ '\n' := fun e => h (by simp [e])
    have := ih (fun e => h (List.mem_cons_of_mem _ e))
    simp [lf_end, hc, this]

theorem lf_end_no_lf (acc : List Char) (h : '\n' ∉ acc) : lf_end acc = acc.length := by
  induction acc with
  | nil => rfl
  | cons c acc ih =>
    have hc : c ≠ '\n' := fun e => h (by simp [e])
    have := ih (fun e => h (List.mem_cons_of_mem _ e))
    simp [lf_end, hc, this]

/-- The lines of `new_lines_loop`, with the characters after the last line feed as a
last line when there are any. -/
theorem new_lines_loop_first_lines (rest line : List Char) (hl : '\n' ∉ line)
    (h : lf_only (line ++ rest) = true) :
    first_lines ((new_lines_loop line rest).1 ++
      (if (new_lines_loop line rest).2 = [] then [] else [(new_lines_loop line rest).2])) [] := by
  induction rest generalizing line with
  | nil =>
    simp only [new_lines_loop, List.nil_append]
    by_cases hn : line = []
    · rw [if_pos hn]
      trivial
    · rw [if_neg hn]
      refine ⟨hn, ?_, trivial⟩
      simp only [List.flatten_nil, List.append_nil] at h ⊢
      rw [line_end_eq_lf_end _ h, lf_end_no_lf _ hl]
  | cons c rest ih =>
    by_cases hc : c = '\n'
    · subst hc
      simp only [new_lines_loop, if_true, List.cons_append]
      have hrest : lf_only rest = true := by
        have := lf_only_append (line ++ ['\n']) rest (by simpa using h)
        exact this
      refine ⟨by simp, ?_, ih [] (by simp) (by simpa using hrest)⟩
      have hflat : ((new_lines_loop [] rest).1 ++
          (if (new_lines_loop [] rest).2 = [] then [] else [(new_lines_loop [] rest).2])).flatten =
          rest := by
        have := new_lines_loop_flatten [] rest
        by_cases h2 : (new_lines_loop [] rest).2 = []
        · rw [if_pos h2]
          rw [h2] at this
          simpa using this
        · rw [if_neg h2]
          simpa using this
      rw [hflat, List.append_nil]
      have e : line ++ ['\n'] ++ rest = line ++ '\n' :: rest := by simp
      rw [e, line_end_eq_lf_end _ h, lf_end_append_lf _ _ hl]
      simp
    · simp only [new_lines_loop, if_neg hc]
      apply ih (line ++ [c])
      · intro hm
        rcases List.mem_append.mp hm with hm | hm
        · exact hl hm
        · simp at hm
          exact hc hm.symm
      · simpa using h

theorem new_lines_loop_rest_nil (rest line : List Char) (h : (new_lines_loop line rest).2 = []) :
    line ++ rest = [] ∨ (line ++ rest).getLast? = some '\n' := by
  induction rest generalizing line with
  | nil =>
    left
    simpa [new_lines_loop] using h
  | cons c rest ih =>
    right
    by_cases hc : c = '\n'
    · subst hc
      simp only [new_lines_loop, if_true] at h
      rcases ih [] h with h1 | h1
      · have : rest = [] := by simpa using h1
        subst this
        simp
      · simp only [List.nil_append] at h1
        have h2 : ('\n' :: rest).getLast? = some '\n' := by
          cases rest with
          | nil => simp at h1
          | cons d r => rw [List.getLast?_cons_cons]; exact h1
        rw [List.getLast?_append, h2]
        rfl
    · simp only [new_lines_loop, if_neg hc] at h
      rcases ih (line ++ [c]) h with h1 | h1
      · simp at h1
      · simpa using h1

/-- In a text whose lines end in line feeds, the lines the code splits at line feeds
are the lines of the buffer. -/
theorem new_lines_first_lines (text : List Char) (ht : text ≠ []) (h : lf_only text = true) :
    first_lines (new_lines text) [] := by
  have hfl := new_lines_loop_first_lines text [] (by simp) (by simpa using h)
  unfold new_lines
  by_cases hlast : text.getLast? = some '\n'
  · rw [if_neg (by simp [ht, hlast])]
    rw [new_lines_loop_rest [] text hlast] at hfl
    simpa using hfl
  · rw [if_pos (Or.inr hlast)]
    have hne : (new_lines_loop [] text).2 ≠ [] := by
      intro e
      rcases new_lines_loop_rest_nil text [] e with h1 | h1
      · exact ht (by simpa using h1)
      · exact hlast (by simpa using h1)
    rw [if_neg hne] at hfl
    exact hfl

/-- For a buffer whose lines end in line feeds, alone or after a carriage return,
and every new text: when the line diff answers the hunks of a diff without context
between the lines of the two texts, lines ending at line feeds, `replace_text`
leaves the new text in the buffer. -/
theorem replace_text_line_feeds (get_hunks : List Char → List Char → Option (List Hunk))
    (text new_text : List Char) (hlf : lf_only text = true)
    (h : text ≠ [] → new_text ≠ [] →
      ∃ hunks, get_hunks text new_text = some hunks ∧
        hunks_ok true 0 0 (new_lines text) (new_lines new_text) hunks = true) :
    replace_text get_hunks text new_text = new_text := by
  unfold replace_text
  by_cases ht : text = []
  · subst ht
    simp
  · have hlen : ¬ text.length = 0 := by
      intro e
      exact ht (List.length_eq_zero.mp e)
    rw [if_neg hlen]
    by_cases hn : new_text = []
    · rw [if_pos hn]
    · rw [if_neg hn]
      obtain ⟨hunks, hg, hok⟩ := h ht hn
      rw [hg]
      have := foldr_apply_hunk hunks true [] (new_lines text) [] (new_lines new_text) hok
        (by simpa using new_lines_first_lines text ht hlf)
        (by simpa using new_lines_lf_but_last new_text) (fun _ => rfl)
      simpa [new_lines_flatten] using this

/-- C20, at the failing input: the buffer holds `a\rb\nc` and the new text is
`a\rb\nd`. The lines of a line diff end at line feeds, so the diff sees the lines
`a\rb\n` and `c`, and its hunk replaces line 2 by line 2; the buffer counts the
lines `a\r`, `b\n` and `c`, so `replace_text` erases `b\n` and leaves `a\rdc`, not
the new text. With the line `a\r\n` in the place of `a\r` the buffer and the diff
count the same lines and `replace_text` leaves the new text. -/
theorem replace_text_bare_carriage_return :
    new_lines ['a', '\r', 'b', '\n', 'c'] = [['a', '\r', 'b', '\n'], ['c']] ∧
    new_lines ['a', '\r', 'b', '\n', 'd'] = [['a', '\r', 'b', '\n'], ['d']] ∧
    hunks_ok true 0 0 (new_lines ['a', '\r', 'b', '\n', 'c'])
      (new_lines ['a', '\r', 'b', '\n', 'd'])
      [{ old_lines := (2, 1), new_lines := (2, 1) }] = true ∧
    buffer_lines ['a', '\r', 'b', '\n', 'c'] = [['a', '\r'], ['b', '\n'], ['c']] ∧
    replace_text second_line_changed ['a', '\r', 'b', '\n', 'c'] ['a', '\r', 'b', '\n', 'd'] =
      ['a', '\r', 'd', 'c'] ∧
    replace_text second_line_changed ['a', '\r', 'b', '\n', 'c'] ['a', '\r', 'b', '\n', 'd'] ≠
      ['a', '\r', 'b', '\n', 'd'] ∧
    hunks_ok true 0 0 (new_lines ['a', '\r', '\n', 'b', '\n', 'c'])
      (new_lines ['a', '\r', '\n', 'b', '\n', 'd'])
      [{ old_lines := (3, 1), new_lines := (3, 1) }] = true ∧
    replace_text third_line_changed ['a', '\r', '\n', 'b', '\n', 'c']
        ['a', '\r', '\n', 'b', '\n', 'd'] =
      ['a', '\r', '\n', 'b', '\n', 'd'] := by
  decide

end BaseView

/-! ## The text of the buffer after `cleanup_whitespace_characters` -/

namespace BaseView

theorem line_text_lt (b : List (List Char)) (i : Nat) (h : i < b.length) :
    TextBuffer.line_text b i = b[i] := by
  unfold TextBuffer.line_text
  exact List.getD_eq_getElem b [] h

theorem line_split (line : List Char) : line = line_content line ++ line_delimiter line :=
  (List.takeWhile_append_dropWhile _ line).symm

theorem line_content_mem (line : List Char) (x : Char) (h : x ∈ line_content line) :
    is_delimiter x = false := by
  have := List.mem_takeWhile_imp h
  simpa using this

theorem not_delimiter_ne (x : Char) (h : is_delimiter x = false) :
    x ≠ '\n' ∧ x ≠ '\r' ∧ x ≠ paragraph_separator := by
  simp only [is_delimiter, Bool.or_eq_false_iff, beq_eq_false_iff_ne] at h
  exact ⟨h.1.1, h.1.2, h.2⟩

/-- Inside the characters before those that end its line an iterator is at the
character of its offset. -/
theorem get_char_content (b : List (List Char)) (i k : Nat) (body d : List Char)
    (h : TextBuffer.line_text b i = body ++ d) (hk : k < body.length) :
    TextBuffer.get_char b ⟨i, k⟩ = some body[k] := by
  simp only [TextBuffer.get_char, h]
  rw [List.getElem?_append_left hk, List.getElem?_eq_getElem hk]

theorem ends_line_content (b : List (List Char)) (i k : Nat) (body d : List Char)
    (h : TextBuffer.line_text b i = body ++ d) (hb : ∀ x ∈ body, is_delimiter x = false)
    (hk : k < body.length) : TextBuffer.ends_line b ⟨i, k⟩ = false := by
  obtain ⟨h1, h2, h3⟩ := not_delimiter_ne body[k] (hb _ (List.getElem_mem hk))
  unfold TextBuffer.ends_line
  rw [get_char_content b i k body d h hk]
  simp only []
  rw [if_neg (by tauto), if_neg h1]

theorem ends_line_end (b : List (List Char)) (i : Nat) (body d : List Char)
    (h : TextBuffer.line_text b i = body ++ d) (hb : ∀ x ∈ body, is_delimiter x = false)
    (hd : d = [] ∨ is_line_ending d) : TextBuffer.ends_line b ⟨i, body.length⟩ = true := by
  unfold TextBuffer.ends_line
  have hg : TextBuffer.get_char b ⟨i, body.length⟩ = d[0]? := by
    simp only [TextBuffer.get_char, h]
    rw [List.getElem?_append_right (le_refl _)]
    simp
  rw [hg]
  rcases hd with hd | hd | hd | hd | hd
  · subst hd; rfl
  · subst hd
    simp only [List.getElem?_cons_zero]
    simp only [if_neg (show ¬ ('\n' = '\r' ∨ '\n' = paragraph_separator) by decide), if_true]
    by_cases h0 : body.length = 0
    · rw [if_pos h0]
    · rw [if_neg h0]
      simp only [h]
      rw [List.getElem?_append_left (by omega), List.getElem?_eq_getElem (by omega)]
      have := (not_delimiter_ne _ (hb _ (List.getElem_mem (by omega : body.length - 1 < body.length)))).2.1
      simpa using this
  · subst hd; simp
  · subst hd; simp
  · subst hd; simp

/-- The loop of line 510 on the last line ends at the end of the buffer. -/
theorem forward_to_line_end_last (b : List (List Char)) (i : Nat) (body : List Char)
    (h : TextBuffer.line_text b i = body) (hb : ∀ x ∈ body, is_delimiter x = false)
    (hi : i + 1 = b.length) (fuel k : Nat) (hk : k ≤ body.length) (hf : body.length - k < fuel) :
    forward_to_line_end b fuel ⟨i, k⟩ = ⟨i, body.length⟩ := by
  have h' : TextBuffer.line_text b i = body ++ [] := by simpa using h
  have hend : TextBuffer.end_iter b = ⟨i, body.length⟩ := by
    have : b.length - 1 = i := by omega
    simp only [TextBuffer.end_iter, this, h]
  induction fuel generalizing k with
  | zero => omega
  | succ fuel ih =>
    rw [forward_to_line_end]
    by_cases hlt : k < body.length
    · rw [ends_line_content b i k body [] h' hb hlt]
      have hne : (⟨i, k⟩ : TextBuffer.Iter) ≠ ⟨i, body.length⟩ := by
        intro e
        injection e with _ e2
        omega
      have hfw : TextBuffer.forward_char b ⟨i, k⟩ =
          (decide ((⟨i, k + 1⟩ : TextBuffer.Iter) ≠ ⟨i, body.length⟩), ⟨i, k + 1⟩) := by
        simp only [TextBuffer.forward_char, hend, if_neg hne, hi, or_true, if_true]
      rw [hfw]
      simp only [Bool.not_false, if_true]
      by_cases hk1 : k + 1 = body.length
      · simp [hk1]
      · have hne2 : (⟨i, k + 1⟩ : TextBuffer.Iter) ≠ ⟨i, body.length⟩ := by
          intro e
          injection e with _ e2
          exact hk1 e2
        simp only [hne2, ne_eq, not_false_eq_true, decide_True, if_true]
        exact ih (k + 1) (by omega) (by omega)
    · have hk2 : k = body.length := by omega
      subst hk2
      rw [ends_line_end b i body [] h' hb (Or.inl rfl)]
      rfl

theorem is_line_ending_ne_nil (d : List Char) (h : is_line_ending d) : d ≠ [] := by
  rcases h with h | h | h | h <;> subst h <;> simp

/-- On a line that is not the last, `get_iter_at_line_end` answers the iterator
after the characters before those that end the line. -/
theorem get_iter_at_line_end_inner (b : List (List Char)) (i : Nat) (body d : List Char)
    (h : TextBuffer.line_text b i = body ++ d) (hb : ∀ x ∈ body, is_delimiter x = false)
    (hd : is_line_ending d) (hi : i + 1 < b.length) :
    get_iter_at_line_end b i = ⟨i, body.length⟩ := by
  have h0 : ¬ i ≥ TextBuffer.get_line_count b := by
    simp only [TextBuffer.get_line_count]; omega
  have h1 : i + 1 < TextBuffer.get_line_count b := hi
  have hback : TextBuffer.backward_char b (TextBuffer.get_iter_at_line b (i + 1)) =
      ⟨i, (body ++ d).length - 1⟩ := by
    simp [TextBuffer.get_iter_at_line, hi, TextBuffer.backward_char, h]
  unfold get_iter_at_line_end
  rw [if_neg h0, if_pos h1]
  simp only [hback]
  rcases hd with hd | hd | hd | hd
  · subst hd
    have e : (body ++ ['\n']).length - 1 = body.length := by simp
    rw [e, ends_line_end b i body ['\n'] h hb (Or.inr (Or.inl rfl))]
    rfl
  · subst hd
    have e : (body ++ ['\r']).length - 1 = body.length := by simp
    rw [e, ends_line_end b i body ['\r'] h hb (Or.inr (Or.inr (Or.inl rfl)))]
    rfl
  · subst hd
    have e : (body ++ ['\r', '\n']).length - 1 = body.length + 1 := by simp
    have hne : TextBuffer.ends_line b ⟨i, body.length + 1⟩ = false := by
      unfold TextBuffer.ends_line
      have hg : TextBuffer.get_char b ⟨i, body.length + 1⟩ = some '\n' := by
        simp only [TextBuffer.get_char, h]
        rw [List.getElem?_append_right (by omega)]
        simp
      rw [hg]
      simp only [if_neg (show ¬ ('\n' = '\r' ∨ '\n' = paragraph_separator) by decide), if_true]
      rw [if_neg (by omega)]
      simp only [h, Nat.add_sub_cancel]
      rw [List.getElem?_append_right (le_refl _)]
      simp
    rw [e, hne]
    simp [TextBuffer.backward_char]
  · subst hd
    have e : (body ++ [paragraph_separator]).length - 1 = body.length := by simp
    rw [e, ends_line_end b i body [paragraph_separator] h hb
      (Or.inr (Or.inr (Or.inr (Or.inr rfl))))]
    rfl

/-- On the last line, `get_iter_at_line_end` answers the end of the buffer. -/
theorem get_iter_at_line_end_last (b : List (List Char)) (i : Nat) (body : List Char)
    (h : TextBuffer.line_text b i = body) (hb : ∀ x ∈ body, is_delimiter x = false)
    (hi : i + 1 = b.length) :
    get_iter_at_line_end b i = ⟨i, body.length⟩ := by
  have h0 : ¬ i ≥ TextBuffer.get_line_count b := by
    simp only [TextBuffer.get_line_count]; omega
  have h1 : ¬ i + 1 < TextBuffer.get_line_count b := by
    simp only [TextBuffer.get_line_count]; omega
  unfold get_iter_at_line_end
  rw [if_neg h0, if_neg h1]
  have : TextBuffer.get_iter_at_line b i = ⟨i, 0⟩ := by
    simp [TextBuffer.get_iter_at_line]; omega
  rw [this, h]
  exact forward_to_line_end_last b i body h hb hi _ 0 (by omega) (by omega)

theorem strip_blanks_append_blanks (a suffix : List Char) (h : ∀ x ∈ suffix, is_blank x = true) :
    strip_blanks (a ++ suffix) = strip_blanks a := by
  induction suffix using List.reverseRecOn with
  | nil => simp
  | append_singleton s x ih =>
    unfold strip_blanks at ih ⊢
    rw [← List.append_assoc, List.rdropWhile_concat_pos _ _ _ (h x (by simp))]
    exact ih (fun y hy => h y (by simp [hy]))

theorem strip_blanks_all (a : List Char) (h : ∀ x ∈ a, is_blank x = true) : strip_blanks a = [] :=
  List.rdropWhile_eq_nil_iff.mpr h

theorem strip_blanks_concat_neg (a : List Char) (x : Char) (h : is_blank x = false) :
    strip_blanks (a ++ [x]) = a ++ [x] :=
  List.rdropWhile_concat_neg _ _ _ (by simp [h])

theorem strip_blanks_split (a : List Char) (x : Char) (back : List Char)
    (h : ∀ y ∈ back, is_blank y = true) :
    strip_blanks (a ++ x :: back) = if is_blank x = true then strip_blanks a else a ++ [x] := by
  have e : a ++ x :: back = (a ++ [x]) ++ back := by simp
  rw [e, strip_blanks_append_blanks _ _ h]
  exact List.rdropWhile_concat _ _ _

theorem is_blank_iff (x : Char) : is_blank x = true ↔ x = ' ' ∨ x = '\t' := by
  simp [is_blank]

/-- From a character before those that end its line, `forward_char` moves on by one
character in the line. -/
theorem forward_char_content (b : List (List Char)) (i k : Nat) (body d : List Char)
    (h : TextBuffer.line_text b i = body ++ d) (hd : d ≠ [] ∨ i + 1 = b.length)
    (hk : k < body.length) : (TextBuffer.forward_char b ⟨i, k⟩).2 = ⟨i, k + 1⟩ := by
  have hne : (⟨i, k⟩ : TextBuffer.Iter) ≠ TextBuffer.end_iter b := by
    intro e
    simp only [TextBuffer.end_iter, TextBuffer.Iter.mk.injEq] at e
    obtain ⟨e1, e2⟩ := e
    rw [← e1, h] at e2
    simp at e2
    omega
  have hcond : k + 1 < (TextBuffer.line_text b i).length ∨ i + 1 = b.length := by
    rcases hd with hd | hd
    · left
      rw [h]
      have : 0 < d.length := List.length_pos.mpr hd
      simp
      omega
    · exact Or.inr hd
  simp only [TextBuffer.forward_char, if_neg hne, if_pos hcond]

/-- One round of the loop of lines 655-656 at a character before those that end the
line. -/
theorem backward_over_blanks_step (b : List (List Char)) (i k : Nat) (body d : List Char)
    (h : TextBuffer.line_text b i = body ++ d) (hb : ∀ y ∈ body, is_delimiter y = false)
    (hk : k < body.length) (fuel : Nat) :
    backward_over_blanks b (fuel + 1) ⟨i, k⟩ =
      if k ≠ 0 ∧ is_blank body[k] = true then backward_over_blanks b fuel ⟨i, k - 1⟩
      else ⟨i, k⟩ := by
  rw [backward_over_blanks, get_char_content b i k body d h hk,
    ends_line_content b i k body d h hb hk]
  by_cases h0 : k = 0
  · subst h0
    simp [TextBuffer.starts_line]
  · by_cases hx : is_blank body[k] = true
    · have hx2 := (is_blank_iff _).mp hx
      have hcond : (!TextBuffer.starts_line ⟨i, k⟩ &&
          (some body[k] == some ' ' || some body[k] == some '\t' || false)) = true := by
        simp only [TextBuffer.starts_line, Bool.or_false, Bool.and_eq_true, Bool.not_eq_true',
          beq_eq_false_iff_ne, ne_eq, Bool.or_eq_true, beq_iff_eq, Option.some.injEq]
        exact ⟨h0, hx2⟩
      rw [if_pos hcond, if_pos ⟨h0, hx⟩]
      simp [TextBuffer.backward_char, h0]
    · have hx2 : ¬ (body[k] = ' ' ∨ body[k] = '\t') := fun e => hx ((is_blank_iff _).mpr e)
      have hcond : ¬ (!TextBuffer.starts_line ⟨i, k⟩ &&
          (some body[k] == some ' ' || some body[k] == some '\t' || false)) = true := by
        simp only [TextBuffer.starts_line, Bool.or_false, Bool.and_eq_true, Bool.not_eq_true',
          beq_eq_false_iff_ne, ne_eq, Bool.or_eq_true, beq_iff_eq, Option.some.injEq]
        tauto
      rw [if_neg hcond, if_neg (by tauto)]

/-- The statement of lines 657-658 at a character before those that end the line. -/
theorem forward_unless_blank_content (b : List (List Char)) (i k : Nat) (body d : List Char)
    (h : TextBuffer.line_text b i = body ++ d) (hd : d ≠ [] ∨ i + 1 = b.length)
    (hk : k < body.length) :
    forward_unless_blank b ⟨i, k⟩ = if is_blank body[k] = true then ⟨i, k⟩ else ⟨i, k + 1⟩ := by
  unfold forward_unless_blank
  rw [get_char_content b i k body d h hk, forward_char_content b i k body d h hd hk]
  by_cases hx : is_blank body[k] = true
  · have hx2 := (is_blank_iff _).mp hx
    rw [if_pos hx, if_neg]
    simp only [ne_eq, Option.some.injEq]
    tauto
  · have hx2 : ¬ (body[k] = ' ' ∨ body[k] = '\t') := fun e => hx ((is_blank_iff _).mpr e)
    rw [if_neg hx, if_pos]
    simp only [ne_eq, Option.some.injEq]
    tauto

/-- The statement of lines 657-658 after the loop of lines 655-656, begun inside the
line before spaces and tabs only: the iterator is then after the last character of
the line that is not a space or tab, or at the start of the line. -/
theorem backward_over_blanks_spec (b : List (List Char)) (i : Nat) (d : List Char)
    (hd : d ≠ [] ∨ i + 1 = b.length)
    (front : List Char) (x : Char) (back : List Char) (fuel : Nat)
    (h : TextBuffer.line_text b i = (front ++ x :: back) ++ d)
    (hb : ∀ y ∈ front ++ x :: back, is_delimiter y = false)
    (hbl : ∀ y ∈ back, is_blank y = true) (hf : front.length < fuel) :
    forward_unless_blank b (backward_over_blanks b fuel ⟨i, front.length⟩) =
      ⟨i, (strip_blanks (front ++ x :: back)).length⟩ := by
  induction front using List.reverseRecOn generalizing x back fuel with
  | nil =>
    cases fuel with
    | zero => omega
    | succ fuel =>
      have hk : 0 < ([] ++ x :: back).length := by simp
      rw [List.length_nil, backward_over_blanks_step b i 0 _ d h hb hk fuel,
        if_neg (by simp), forward_unless_blank_content b i 0 _ d h hd hk,
        strip_blanks_split _ _ _ hbl]
      have hx : ([] ++ x :: back)[0] = x := by simp
      rw [hx]
      by_cases hxb : is_blank x = true
      · rw [if_pos hxb, if_pos hxb]
        rfl
      · rw [if_neg hxb, if_neg hxb]
        rfl
  | append_singleton front y ih =>
    cases fuel with
    | zero => omega
    | succ fuel =>
      have hk : (front ++ [y]).length < ((front ++ [y]) ++ x :: back).length := by simp
      have hx : ((front ++ [y]) ++ x :: back)[(front ++ [y]).length] = x := by
        rw [List.getElem_append_right (le_refl _)]
        simp
      rw [backward_over_blanks_step b i _ _ d h hb hk fuel, hx, strip_blanks_split _ _ _ hbl]
      by_cases hxb : is_blank x = true
      · rw [if_pos ⟨by simp, hxb⟩, if_pos hxb]
        have e : (front ++ [y]) ++ x :: back = front ++ y :: (x :: back) := by simp
        have hl : (front ++ [y]).length - 1 = front.length := by simp
        rw [hl]
        rw [e] at h hb
        have hbl2 : ∀ z ∈ x :: back, is_blank z = true := by
          intro z hz
          rcases List.mem_cons.mp hz with hz | hz
          · rw [hz]; exact hxb
          · exact hbl z hz
        rw [ih y (x :: back) fuel h hb hbl2 (by simp at hf; omega),
          strip_blanks_split front y (x :: back) hbl2]
        have := strip_blanks_split front y [] (by simp)
        rw [this]
      · rw [if_neg (by tauto), forward_unless_blank_content b i _ _ d h hd hk, hx, if_neg hxb,
          if_neg hxb]
        simp

theorem set_self (b : List (List Char)) (i : Nat) (hi : i < b.length) : b.set i b[i] = b := by
  apply List.ext_getElem?
  intro j
  rw [List.getElem?_set]
  by_cases hj : i = j
  · subst hj
    simp [hi]
  · simp [hj]

/-- The first round of the loop of lines 655-656, at the end of a line that holds a
character before those that end it. -/
theorem backward_over_blanks_first (b : List (List Char)) (i : Nat) (body d : List Char)
    (h : TextBuffer.line_text b i = body ++ d) (hb : ∀ y ∈ body, is_delimiter y = false)
    (hd : d = [] ∨ is_line_ending d) (hn : body ≠ []) (fuel : Nat) :
    backward_over_blanks b (fuel + 1) ⟨i, body.length⟩ =
      backward_over_blanks b fuel ⟨i, body.length - 1⟩ := by
  have h0 : body.length ≠ 0 := fun e => hn (List.length_eq_zero.mp e)
  rw [backward_over_blanks, ends_line_end b i body d h hb hd]
  have hs : TextBuffer.starts_line ⟨i, body.length⟩ = false := by
    simp [TextBuffer.starts_line, h0]
  rw [hs]
  simp [TextBuffer.backward_char, h0]

/-- The body of the loop of lines 649-662 takes the spaces and tabs from the end of
the line and leaves the other lines as they are. -/
theorem cleanup_line_eq (b : List (List Char)) (i : Nat) (hw : well_formed b)
    (hi : i < b.length) : cleanup_line b i = b.set i (strip_line b[i]) := by
  obtain ⟨_, hw2, hw3⟩ := hw
  have hl : TextBuffer.line_text b i = b[i] := line_text_lt b i hi
  have h : TextBuffer.line_text b i = line_content b[i] ++ line_delimiter b[i] := by
    rw [hl]
    exact line_split b[i]
  have hb : ∀ y ∈ line_content b[i], is_delimiter y = false := line_content_mem b[i]
  have hd : line_delimiter b[i] = [] ∨ is_line_ending (line_delimiter b[i]) := by
    by_cases hlast : i + 1 < b.length
    · right
      have := hw2 i hlast
      rwa [hl] at this
    · left
      have e : b.length - 1 = i := by omega
      rw [e, hl] at hw3
      exact hw3
  have hd2 : line_delimiter b[i] ≠ [] ∨ i + 1 = b.length := by
    by_cases hlast : i + 1 < b.length
    · left
      have := hw2 i hlast
      rw [hl] at this
      exact is_line_ending_ne_nil _ this
    · right
      omega
  have hend : get_iter_at_line_end b i = ⟨i, (line_content b[i]).length⟩ := by
    by_cases hlast : i + 1 < b.length
    · have := hw2 i hlast
      rw [hl] at this
      exact get_iter_at_line_end_inner b i _ _ h hb this hlast
    · have e : b.length - 1 = i := by omega
      rw [e, hl] at hw3
      have h' : TextBuffer.line_text b i = line_content b[i] := by
        rw [h, hw3]
        simp
      exact get_iter_at_line_end_last b i _ h' hb (by omega)
  have hstart : TextBuffer.get_iter_at_line b i = ⟨i, 0⟩ := by
    simp [TextBuffer.get_iter_at_line, hi]
  unfold cleanup_line
  simp only [hend, hstart]
  by_cases hn : line_content b[i] = []
  · have e1 : strip_line b[i] = b[i] := by
      unfold strip_line
      rw [hn]
      have := line_split b[i]
      rw [hn] at this
      simpa [strip_blanks] using this.symm
    rw [if_pos (by rw [hn]; rfl), e1, set_self b i hi]
  · have hne : (⟨i, 0⟩ : TextBuffer.Iter) ≠ ⟨i, (line_content b[i]).length⟩ := by
      intro e
      injection e with _ e2
      exact hn (List.length_eq_zero.mp e2.symm)
    rw [if_neg hne, backward_over_blanks_first b i _ _ h hb hd hn]
    rcases List.eq_nil_or_concat (line_content b[i]) with e | ⟨front, x, e⟩
    · exact absurd e hn
    · have e' : line_content b[i] = front ++ x :: [] := by rw [e]; simp
      have hlen : (line_content b[i]).length - 1 = front.length := by rw [e]; simp
      have hlen2 : (line_content b[i]).length = front.length + 1 := by rw [e]; simp
      have hspec := backward_over_blanks_spec b i _ hd2 front x [] (line_content b[i]).length
        (by rw [← e']; exact h) (by rw [← e']; exact hb) (by simp) (by omega)
      rw [hlen, hspec, ← e']
      have hp : strip_blanks (line_content b[i]) <+: line_content b[i] :=
        List.rdropWhile_prefix _ _
      by_cases hsame : (strip_blanks (line_content b[i])).length = (line_content b[i]).length
      · rw [if_pos (by rw [hsame])]
        have e1 : strip_blanks (line_content b[i]) = line_content b[i] :=
          hp.eq_of_length hsame
        have e2 : strip_line b[i] = b[i] := by
          unfold strip_line
          rw [e1]
          exact (line_split b[i]).symm
        rw [e2, set_self b i hi]
      · have hne2 : (⟨i, (strip_blanks (line_content b[i])).length⟩ : TextBuffer.Iter) ≠
            ⟨i, (line_content b[i]).length⟩ := by
          intro e
          injection e with _ e2
          exact hsame e2
        rw [if_neg hne2, List.set_eq_take_append_cons_drop, if_pos hi]
        simp only [TextBuffer.erase, hl]
        have e1 : b[i].take (strip_blanks (line_content b[i])).length =
            strip_blanks (line_content b[i]) := by
          have hp2 : strip_blanks (line_content b[i]) <+: b[i] :=
            hp.trans ( List.takeWhile_prefix _)
          exact ( List.prefix_iff_eq_take.mp hp2).symm
        have e2 : b[i].drop (line_content b[i]).length = line_delimiter b[i] := by
          have := List.drop_left (line_content b[i]) (line_delimiter b[i])
          rwa [← line_split b[i]] at this
        rw [e1, e2]
        simp [strip_line]

theorem strip_blanks_mem (body : List Char) (x : Char) (h : x ∈ strip_blanks body) : x ∈ body :=
  ( List.rdropWhile_prefix _ _).subset h

theorem takeWhile_dropWhile_nil (p : Char → Bool) (l : List Char) :
    (l.dropWhile p).takeWhile p = [] := by
  induction l with
  | nil => rfl
  | cons a rest ih =>
    by_cases ha : p a = true
    · rw [List.dropWhile_cons_of_pos ha]
      exact ih
    · rw [List.dropWhile_cons_of_neg ha, List.takeWhile_cons_of_neg ha]

theorem dropWhile_dropWhile (p : Char → Bool) (l : List Char) :
    (l.dropWhile p).dropWhile p = l.dropWhile p := by
  induction l with
  | nil => rfl
  | cons a rest ih =>
    by_cases ha : p a = true
    · rw [List.dropWhile_cons_of_pos ha]
      exact ih
    · rw [List.dropWhile_cons_of_neg ha, List.dropWhile_cons_of_neg ha]

/-- A line without the spaces and tabs at its end has the characters before its end
without them, and the same characters at its end. -/
theorem strip_line_parts (line : List Char) :
    line_content (strip_line line) = strip_blanks (line_content line) ∧
    line_delimiter (strip_line line) = line_delimiter line := by
  have hp : ∀ a ∈ strip_blanks (line_content line), (fun c => !is_delimiter c) a = true := by
    intro a ha
    have := line_content_mem line a (strip_blanks_mem _ _ ha)
    simp [this]
  constructor
  · show List.takeWhile (fun c => !is_delimiter c)
        (strip_blanks (line_content line) ++ line_delimiter line) = _
    rw [List.takeWhile_append_of_pos hp]
    unfold line_delimiter
    rw [takeWhile_dropWhile_nil]
    simp
  · show List.dropWhile (fun c => !is_delimiter c)
        (strip_blanks (line_content line) ++ line_delimiter line) = _
    rw [List.dropWhile_append_of_pos hp]
    unfold line_delimiter
    rw [dropWhile_dropWhile]

theorem line_text_map (b : List (List Char)) (j : Nat) (hj : j < b.length) :
    TextBuffer.line_text (b.map strip_line) j = strip_line (TextBuffer.line_text b j) := by
  rw [line_text_lt b j hj, line_text_lt _ j (by simpa using hj)]
  simp

/-- Lines stay the lines of a buffer when the characters at the end of each stay. -/
theorem well_formed_of_delimiters (b b2 : List (List Char)) (hl : b2.length = b.length)
    (hd : ∀ j, j < b.length →
      line_delimiter (TextBuffer.line_text b2 j) = line_delimiter (TextBuffer.line_text b j))
    (hw : well_formed b) : well_formed b2 := by
  obtain ⟨h1, h2, h3⟩ := hw
  have hpos : 0 < b.length := List.length_pos.mpr h1
  refine ⟨?_, ?_, ?_⟩
  · intro e
    rw [e] at hl
    simp at hl
    omega
  · intro i hi
    rw [hl] at hi
    rw [hd i (by omega)]
    exact h2 i hi
  · rw [hl, hd _ (by omega)]
    exact h3

theorem well_formed_set (b : List (List Char)) (i : Nat) (hi : i < b.length)
    (hw : well_formed b) : well_formed (b.set i (strip_line b[i])) := by
  apply well_formed_of_delimiters b _ (by simp) _ hw
  intro j hj
  rw [line_text_lt b j hj, line_text_lt _ j (by simpa using hj), List.getElem_set]
  by_cases e : i = j
  · subst e
    rw [if_pos rfl]
    exact (strip_line_parts _).2
  · rw [if_neg e]

theorem well_formed_map (b : List (List Char)) (hw : well_formed b) :
    well_formed (b.map strip_line) := by
  apply well_formed_of_delimiters b _ (by simp) _ hw
  intro j hj
  rw [line_text_map b j hj]
  exact (strip_line_parts _).2

/-- The loop of lines 649-662 from `line` on takes the spaces and tabs from the end
of every line from `line` on, when the bound on its rounds is at least the number of
these lines. -/
theorem cleanup_lines_eq (fuel line : Nat) (b : List (List Char)) (hw : well_formed b)
    (hf : b.length ≤ line + fuel) :
    cleanup_lines fuel line b = b.take line ++ (b.drop line).map strip_line := by
  induction fuel generalizing line b with
  | zero =>
    rw [cleanup_lines, List.drop_of_length_le (by omega), List.take_of_length_le (by omega)]
    simp
  | succ fuel ih =>
    rw [cleanup_lines]
    simp only [TextBuffer.get_line_count]
    by_cases hl : line < b.length
    · rw [if_pos hl, cleanup_line_eq b line hw hl,
        ih (line + 1) _ (well_formed_set b line hl hw) (by simp; omega)]
      rw [List.set_eq_take_append_cons_drop, if_pos hl]
      have e1 : (b.take line ++ strip_line b[line] :: b.drop (line + 1)).take (line + 1) =
          b.take line ++ [strip_line b[line]] := by
        have : (b.take line).length = line := by simp; omega
        rw [List.take_append_eq_append_take, this]
        simp [List.take_of_length_le]
      have e2 : (b.take line ++ strip_line b[line] :: b.drop (line + 1)).drop (line + 1) =
          b.drop (line + 1) := by
        have : (b.take line).length = line := by simp; omega
        rw [List.drop_append_eq_append_drop, this]
        simp [List.drop_of_length_le]
      rw [e1, e2]
      have e3 : b.drop line = b[line] :: b.drop (line + 1) := List.drop_eq_getElem_cons hl
      rw [e3]
      simp only [List.map_cons, List.append_assoc, List.singleton_append]
    · rw [if_neg hl, List.drop_of_length_le (by omega), List.take_of_length_le (by omega)]
      simp

/-- The method takes the spaces and tabs from the end of every line, and adds a line
feed after the last line unless that line is then empty. -/
theorem cleanup_whitespace_characters_eq (b : List (List Char)) (hw : well_formed b) :
    cleanup_whitespace_characters b =
      if TextBuffer.line_text (b.map strip_line) (b.length - 1) = [] then b.map strip_line
      else TextBuffer.insert_line_feed_at_end (b.map strip_line) := by
  unfold cleanup_whitespace_characters
  simp only [TextBuffer.get_line_count]
  rw [cleanup_lines_eq _ 0 b hw (by omega)]
  simp only [List.take_zero, List.nil_append, List.drop_zero, TextBuffer.end_iter,
    TextBuffer.starts_line, List.length_map]
  by_cases h : TextBuffer.line_text (b.map strip_line) (b.length - 1) = []
  · rw [if_pos h, h]
    simp
  · rw [if_neg h]
    have : (TextBuffer.line_text (b.map strip_line) (b.length - 1)).length ≠ 0 :=
      fun e => h (List.length_eq_zero.mp e)
    simp [this]

theorem line_text_cons_succ (l : List Char) (rest : List (List Char)) (j : Nat) :
    TextBuffer.line_text (l :: rest) (j + 1) = TextBuffer.line_text rest j := by
  simp [TextBuffer.line_text]

theorem well_formed_single (l : List Char) (h : line_delimiter l = []) : well_formed [l] := by
  refine ⟨by simp, ?_, ?_⟩
  · intro i hi
    simp at hi
  · simpa [TextBuffer.line_text] using h

theorem well_formed_cons (l : List Char) (rest : List (List Char))
    (h : is_line_ending (line_delimiter l)) (hw : well_formed rest) : well_formed (l :: rest) := by
  obtain ⟨h1, h2, h3⟩ := hw
  have hpos : 0 < rest.length := List.length_pos.mpr h1
  refine ⟨by simp, ?_, ?_⟩
  · intro i hi
    cases i with
    | zero => simpa [TextBuffer.line_text] using h
    | succ j =>
      rw [line_text_cons_succ]
      exact h2 j (by simpa using hi)
  · have e : (l :: rest).length - 1 = (rest.length - 1) + 1 := by
      simp only [List.length_cons]
      omega
    rw [e, line_text_cons_succ]
    exact h3

theorem line_delimiter_append (line d : List Char) (a : Char) (rest : List Char)
    (hl : ∀ x ∈ line, is_delimiter x = false) (hd : d = a :: rest) (ha : is_delimiter a = true) :
    line_delimiter (line ++ d) = d := by
  unfold line_delimiter
  rw [List.dropWhile_append_of_pos (fun x hx => by simp [hl x hx]), hd,
    List.dropWhile_cons_of_neg (by simp [ha])]

theorem line_delimiter_nil (line : List Char) (hl : ∀ x ∈ line, is_delimiter x = false) :
    line_delimiter line = [] := by
  unfold line_delimiter
  rw [List.dropWhile_eq_nil_iff]
  intro x hx
  simp [hl x hx]

theorem mem_concat_not_delimiter (line : List Char) (c : Char)
    (hl : ∀ x ∈ line, is_delimiter x = false) (hc : is_delimiter c = false) :
    ∀ x ∈ line ++ [c], is_delimiter x = false := by
  intro x hx
  rcases List.mem_append.mp hx with h | h
  · exact hl x h
  · simp at h
    rw [h]
    exact hc

/-- The lines of a text are the lines of a buffer, and the text is their characters
in order. -/
theorem lines_of_spec (n : Nat) (rest line : List Char) (hn : rest.length ≤ n)
    (hl : ∀ x ∈ line, is_delimiter x = false) :
    well_formed (TextBuffer.lines_of line rest) ∧
    (TextBuffer.lines_of line rest).flatten = line ++ rest := by
  induction n generalizing rest line with
  | zero =>
    have : rest = [] := List.length_eq_zero.mp (by omega)
    subst this
    simp only [TextBuffer.lines_of]
    exact ⟨well_formed_single _ (line_delimiter_nil _ hl), by simp⟩
  | succ n ih =>
    cases rest with
    | nil =>
      simp only [TextBuffer.lines_of]
      exact ⟨well_formed_single _ (line_delimiter_nil _ hl), by simp⟩
    | cons c rest =>
      have hn2 : rest.length ≤ n := by simpa using hn
      by_cases hcr : c = '\r'
      · subst hcr
        cases rest with
        | nil =>
          simp only [TextBuffer.lines_of, if_true]
          refine ⟨well_formed_cons _ _ ?_ (well_formed_single _ rfl), by simp⟩
          rw [line_delimiter_append line ['\r'] '\r' [] hl rfl (by decide)]
          exact Or.inr (Or.inl rfl)
        | cons d rest2 =>
          have hn3 : rest2.length ≤ n := by
            simp only [List.length_cons] at hn2
            omega
          by_cases hlf : d = '\n'
          · subst hlf
            simp only [TextBuffer.lines_of, if_true]
            obtain ⟨h1, h2⟩ := ih rest2 [] hn3 (by simp)
            refine ⟨well_formed_cons _ _ ?_ h1, ?_⟩
            · rw [line_delimiter_append line ['\r', '\n'] '\r' ['\n'] hl rfl (by decide)]
              exact Or.inr (Or.inr (Or.inl rfl))
            · rw [List.flatten_cons, h2]
              simp
          · simp only [TextBuffer.lines_of, if_true, if_neg hlf]
            obtain ⟨h1, h2⟩ := ih (d :: rest2) [] hn2 (by simp)
            refine ⟨well_formed_cons _ _ ?_ h1, ?_⟩
            · rw [line_delimiter_append line ['\r'] '\r' [] hl rfl (by decide)]
              exact Or.inr (Or.inl rfl)
            · rw [List.flatten_cons, h2]
              simp
      · have hdef : TextBuffer.lines_of line (c :: rest) =
            if c = '\n' ∨ c = paragraph_separator then (line ++ [c]) :: TextBuffer.lines_of [] rest
            else TextBuffer.lines_of (line ++ [c]) rest := by
          cases rest <;> simp only [TextBuffer.lines_of, if_neg hcr]
        by_cases hc : c = '\n' ∨ c = paragraph_separator
        · rw [hdef, if_pos hc]
          obtain ⟨h1, h2⟩ := ih rest [] hn2 (by simp)
          refine ⟨well_formed_cons _ _ ?_ h1, ?_⟩
          · have hdel : is_delimiter c = true := by
              rcases hc with hc | hc <;> subst hc <;> decide
            rw [line_delimiter_append line [c] c [] hl rfl hdel]
            rcases hc with hc | hc
            · subst hc; exact Or.inl rfl
            · subst hc; exact Or.inr (Or.inr (Or.inr rfl))
          · rw [List.flatten_cons, h2]
            simp
        · rw [hdef, if_neg hc]
          have hdel : is_delimiter c = false := by
            simp only [is_delimiter, Bool.or_eq_false_iff, beq_eq_false_iff_ne]
            tauto
          obtain ⟨h1, h2⟩ := ih rest (line ++ [c]) hn2 (mem_concat_not_delimiter line c hl hdel)
          exact ⟨h1, by rw [h2]; simp⟩

theorem get_text_insert_line_feed (b : List (List Char)) (h : b ≠ []) :
    TextBuffer.get_text (TextBuffer.insert_line_feed_at_end b) = TextBuffer.get_text b ++ ['\n'] := by
  rcases List.eq_nil_or_concat b with e | ⟨init, last, e⟩
  · exact absurd e h
  · subst e
    simp [TextBuffer.get_text, TextBuffer.insert_line_feed_at_end, TextBuffer.line_text]

theorem is_line_ending_getLast (d : List Char) (h : is_line_ending d) :
    ∃ a, d.getLast? = some a ∧ is_delimiter a = true := by
  rcases h with h | h | h | h <;> subst h
  · exact ⟨'\n', rfl, by decide⟩
  · exact ⟨'\r', rfl, by decide⟩
  · exact ⟨'\n', rfl, by decide⟩
  · exact ⟨paragraph_separator, rfl, by decide⟩

/-- The text of a buffer ends at the start of a line exactly when the last line of
the buffer is empty. -/
theorem ends_at_line_start_iff (b : List (List Char)) (hw : well_formed b) :
    ends_at_line_start (TextBuffer.get_text b) = true ↔
      TextBuffer.line_text b (b.length - 1) = [] := by
  obtain ⟨h1, h2, h3⟩ := hw
  rcases List.eq_nil_or_concat b with e | ⟨init, last, e⟩
  · exact absurd e h1
  · subst e
    have hlast : TextBuffer.line_text (init.concat last) ((init.concat last).length - 1) = last := by
      simp [TextBuffer.line_text]
    rw [hlast] at h3 ⊢
    have htext : TextBuffer.get_text (init.concat last) = init.flatten ++ last := by
      simp [TextBuffer.get_text]
    rw [htext]
    constructor
    · intro h
      by_contra hne
      obtain ⟨a, ha⟩ : ∃ a, last.getLast? = some a := by
        cases hx : last.getLast? with
        | none => exact absurd (List.getLast?_eq_none_iff.mp hx) hne
        | some a => exact ⟨a, rfl⟩
      have hmem : a ∈ last := List.mem_of_mem_getLast? ha
      have hnd : is_delimiter a = false := by
        unfold line_delimiter at h3
        rw [List.dropWhile_eq_nil_iff] at h3
        simpa using h3 a hmem
      unfold ends_at_line_start at h
      rw [List.getLast?_append, ha, Option.or_some] at h
      simp only [] at h
      rw [hnd] at h
      cases h
    · intro h
      subst h
      rw [List.append_nil]
      rcases List.eq_nil_or_concat init with e | ⟨init2, l2, e⟩
      · subst e
        rfl
      · subst e
        have hi : TextBuffer.line_text ((init2.concat l2).concat []) init2.length = l2 := by
          simp only [TextBuffer.line_text, List.concat_eq_append, List.append_assoc,
            List.singleton_append]
          rw [List.getD_eq_getElem?_getD, List.getElem?_append_right (le_refl _)]
          simp
        have := h2 init2.length (by simp)
        rw [hi] at this
        obtain ⟨a, ha1, ha2⟩ := is_line_ending_getLast _ this
        have hl2 : l2.getLast? = some a := by
          rw [line_split l2, List.getLast?_append, ha1]
          rfl
        unfold ends_at_line_start
        simp only [List.concat_eq_append, List.flatten_append, List.flatten_cons,
          List.flatten_nil, List.append_nil]
        rw [List.getLast?_append, hl2]
        simpa using ha2

theorem strip_blanks_getLast (body : List Char) (c : Char)
    (h : (strip_blanks body).getLast? = some c) : is_blank c = false := by
  have hne : strip_blanks body ≠ [] := by
    intro e
    rw [e] at h
    cases h
  have := List.rdropWhile_last_not is_blank body hne
  rw [List.getLast?_eq_getLast _ hne] at h
  cases h
  simpa using this

theorem strip_line_getLast (line : List Char) (c : Char)
    (h : (line_content (strip_line line)).getLast? = some c) : is_blank c = false := by
  rw [(strip_line_parts line).1] at h
  exact strip_blanks_getLast _ c h

/-- The text after the method is the text of the stripped lines, with a line feed
added when the last of them is not empty. -/
theorem cleanup_text_eq (b : List (List Char)) (hw : well_formed b) :
    TextBuffer.get_text (cleanup_whitespace_characters b) =
      if TextBuffer.line_text (b.map strip_line) (b.length - 1) = [] then
        TextBuffer.get_text (b.map strip_line)
      else TextBuffer.get_text (b.map strip_line) ++ ['\n'] := by
  rw [cleanup_whitespace_characters_eq b hw]
  split
  · rfl
  · exact get_text_insert_line_feed _ (well_formed_map b hw).1

/-- The last line of a buffer without the spaces and tabs at its end. -/
theorem strip_last_line (b : List (List Char)) (hw : well_formed b) :
    TextBuffer.line_text (b.map strip_line) (b.length - 1) =
      strip_blanks (TextBuffer.line_text b (b.length - 1)) := by
  have hpos : 0 < b.length := List.length_pos.mpr hw.1
  rw [line_text_map b _ (by omega)]
  have hd := hw.2.2
  have hs := line_split (TextBuffer.line_text b (b.length - 1))
  rw [hd, List.append_nil] at hs
  unfold strip_line
  rw [hd, List.append_nil, ← hs]

/-- A line in the buffer after the method has no space or tab right before its end. -/
theorem cleanup_no_blank_at_end (b : List (List Char)) (hw : well_formed b)
    (line : List Char) (hmem : line ∈ cleanup_whitespace_characters b) (c : Char)
    (hc : (line_content line).getLast? = some c) : is_blank c = false := by
  rw [cleanup_whitespace_characters_eq _ hw] at hmem
  have hmap : ∀ l ∈ b.map strip_line,
      ∀ c, (line_content l).getLast? = some c → is_blank c = false := by
    intro l hl c hc
    obtain ⟨l0, _, e⟩ := List.mem_map.mp hl
    subst e
    exact strip_line_getLast l0 c hc
  by_cases hlast : TextBuffer.line_text (b.map strip_line) (b.length - 1) = []
  · rw [if_pos hlast] at hmem
    exact hmap line hmem c hc
  · rw [if_neg hlast] at hmem
    simp only [TextBuffer.insert_line_feed_at_end, List.length_map, List.mem_append,
      List.mem_cons, List.mem_singleton, List.not_mem_nil, or_false] at hmem
    rcases hmem with hmem | hmem | hmem
    · exact hmap line (List.mem_of_mem_take hmem) c hc
    · rw [strip_last_line b hw] at hmem
      have hp : ∀ a ∈ strip_blanks (TextBuffer.line_text b (b.length - 1)),
          (fun c => !is_delimiter c) a = true := by
        intro a ha
        have hd := hw.2.2
        unfold line_delimiter at hd
        rw [List.dropWhile_eq_nil_iff] at hd
        exact hd a (strip_blanks_mem _ _ ha)
      have hcont : line_content line = strip_blanks (TextBuffer.line_text b (b.length - 1)) := by
        rw [hmem]
        show List.takeWhile (fun c => !is_delimiter c) _ = _
        rw [List.takeWhile_append_of_pos hp]
        simp [is_delimiter]
      rw [hcont] at hc
      exact strip_blanks_getLast _ c hc
    · rw [hmem] at hc
      cases hc

/-- The first of the lines of a text is as long as `line_end` says: the lines of the
buffer of `cleanup_whitespace_characters` are those of the buffer of `replace_text`. -/
theorem lines_of_head_length (n : Nat) (rest line : List Char) (hn : rest.length ≤ n) :
    (TextBuffer.lines_of line rest).head?.map List.length = some (line.length + line_end rest) := by
  induction n generalizing rest line with
  | zero =>
    have : rest = [] := List.length_eq_zero.mp (by omega)
    subst this
    simp [TextBuffer.lines_of, line_end]
  | succ n ih =>
    cases rest with
    | nil => simp [TextBuffer.lines_of, line_end]
    | cons c rest =>
      have hn2 : rest.length ≤ n := by simpa using hn
      by_cases hcr : c = '\r'
      · subst hcr
        cases rest with
        | nil => simp [TextBuffer.lines_of, line_end]
        | cons d rest2 =>
          by_cases hlf : d = '\n'
          · subst hlf
            simp [TextBuffer.lines_of, line_end]
          · simp [TextBuffer.lines_of, line_end, hlf]
      · have hdef : TextBuffer.lines_of line (c :: rest) =
            if c = '\n' ∨ c = paragraph_separator then (line ++ [c]) :: TextBuffer.lines_of [] rest
            else TextBuffer.lines_of (line ++ [c]) rest := by
          cases rest <;> simp only [TextBuffer.lines_of, if_neg hcr]
        by_cases hc : c = '\n' ∨ c = paragraph_separator
        · rw [hdef, if_pos hc, line_end_delimiter c rest hcr hc]
          simp
        · rw [hdef, if_neg hc, ih rest (line ++ [c]) hn2, line_end_other c rest hcr hc]
          simp
          omega

/-- A last line of spaces and tabs only is emptied, and no line feed is added after
it: the text `a`, line feed, two spaces becomes `a`, line feed. -/
theorem cleanup_blank_last_line :
    TextBuffer.get_text
      (cleanup_whitespace_characters (TextBuffer.lines_of [] ['a', '\n', ' ', ' '])) =
      ['a', '\n'] := by
  decide

/-- C21: for every text set as the text of the buffer, the text after
`cleanup_whitespace_characters()` is the text with the spaces and tabs before the end
of every line taken out, every other character kept in order, followed by one line
feed unless the text so stripped ends at the start of a line; no line feed is added
when the text itself ends at the start of a line, and one is added when its last
line holds a character other than space and tab; in no line of the buffer afterwards
is the last character before the end of the line a space or tab. -/
theorem cleanup_whitespace_characters_spec (text : List Char) :
    TextBuffer.get_text (TextBuffer.lines_of [] text) = text ∧
    TextBuffer.get_text (cleanup_whitespace_characters (TextBuffer.lines_of [] text)) =
      TextBuffer.get_text ((TextBuffer.lines_of [] text).map strip_line) ++
        (if ends_at_line_start
            (TextBuffer.get_text ((TextBuffer.lines_of [] text).map strip_line)) = true
          then [] else ['\n']) ∧
    (ends_at_line_start text = true →
      TextBuffer.get_text (cleanup_whitespace_characters (TextBuffer.lines_of [] text)) =
        TextBuffer.get_text ((TextBuffer.lines_of [] text).map strip_line)) ∧
    ((∃ c ∈ TextBuffer.line_text (TextBuffer.lines_of [] text)
          ((TextBuffer.lines_of [] text).length - 1), is_blank c = false) →
      TextBuffer.get_text (cleanup_whitespace_characters (TextBuffer.lines_of [] text)) =
        TextBuffer.get_text ((TextBuffer.lines_of [] text).map strip_line) ++ ['\n']) ∧
    (∀ line ∈ cleanup_whitespace_characters (TextBuffer.lines_of [] text),
      ∀ c, (line_content line).getLast? = some c → is_blank c = false) := by
  obtain ⟨hw, hflat⟩ := lines_of_spec text.length text [] (le_refl _) (by simp)
  have htext : TextBuffer.get_text (TextBuffer.lines_of [] text) = text := by
    simpa [TextBuffer.get_text] using hflat
  have hwm := well_formed_map _ hw
  have hiff := ends_at_line_start_iff _ hwm
  rw [List.length_map] at hiff
  have hiff0 := ends_at_line_start_iff _ hw
  rw [htext] at hiff0
  refine ⟨htext, ?_, ?_, ?_, fun line hmem c hc => cleanup_no_blank_at_end _ hw line hmem c hc⟩
  · rw [cleanup_text_eq _ hw]
    by_cases hlast : TextBuffer.line_text ((TextBuffer.lines_of [] text).map strip_line)
        ((TextBuffer.lines_of [] text).length - 1) = []
    · rw [if_pos hlast, if_pos (hiff.mpr hlast), List.append_nil]
    · rw [if_neg hlast, if_neg (fun e => hlast (hiff.mp e))]
  · intro h
    rw [cleanup_text_eq _ hw, if_pos]
    rw [strip_last_line _ hw, hiff0.mp h]
    rfl
  · rintro ⟨c, hc, hb⟩
    rw [cleanup_text_eq _ hw, if_neg]
    rw [strip_last_line _ hw]
    intro e
    have := (List.rdropWhile_eq_nil_iff.mp e) c hc
    rw [hb] at this
    cases this

theorem cleanup_whitespace_characters_spec_witness :
    ends_at_line_start hello_world = false ∧
    TextBuffer.get_text (cleanup_whitespace_characters (TextBuffer.lines_of [] hello_world)) =
      hello_world_cleaned :=
  ⟨by decide, (cleanup_whitespace_characters_spec hello_world).2.1.trans (by decide)⟩

end BaseView

/-! ## The parameters of a command string -/

namespace CompileCommands

theorem remove_escaping_id (l : List Char) (h : ∀ x ∈ l, x ≠ '\\') : remove_escaping l = l := by
  induction l with
  | nil => rfl
  | cons c rest ih =>
    cases rest with
    | nil => rfl
    | cons d rest =>
      rw [remove_escaping, if_neg (h c (List.mem_cons_self _ _))]
      rw [ih (fun x hx => h x (List.mem_cons_of_mem _ hx))]

theorem mem_substr (s : List Char) (pos len : Nat) (x : Char) (h : x ∈ substr s pos len) :
    x ∈ s :=
  List.mem_of_mem_drop (List.mem_of_mem_take h)

theorem substr_succ (s rest : List Char) (pos len : Nat) (ch : Char)
    (h : s.drop (pos + len) = ch :: rest) :
    substr s pos (len + 1) = substr s pos len ++ [ch] := by
  unfold substr
  rw [List.take_succ, List.getElem?_drop]
  have : s[pos + len]? = some ch := by
    have := congrArg (fun l => l[0]?) h
    simpa [List.getElem?_drop] using this
  rw [this]
  rfl

/-- The parameters when the loop is left in the state `st`: lines 74-75. -/
theorem split_parameters_eq (s : List Char) :
    split_parameters s =
      match (scan s s 0 Splitter.start).parameter_start_pos with
      | some pos => (scan s s 0 Splitter.start).parameters ++
          [remove_escaping (substr s pos (scan s s 0 Splitter.start).parameter_size)]
      | none => (scan s s 0 Splitter.start).parameters := by
  unfold split_parameters
  simp only []
  split <;> simp_all [add_parameter]

/-- On a string without backslash and quote, the loop from index `c` on, with the
run `current` begun at `c - current.length`, adds the runs of what is left. -/
theorem scan_runs (s : List Char)
    (hq : ∀ x ∈ s, x ≠ '\\' ∧ x ≠ '\'' ∧ x ≠ '"') (rest : List Char) (c : Nat)
    (params : List (List Char)) (start : Option Nat) (size : Nat) (current : List Char)
    (hd : s.drop c = rest)
    (hc : (start = none ∧ size = 0 ∧ current = []) ∨
      (∃ p, start = some p ∧ p + size = c ∧ current = substr s p size ∧ current ≠ [])) :
    (match (scan s rest c ⟨params, false, false, false, start, size⟩).parameter_start_pos with
      | some pos => (scan s rest c ⟨params, false, false, false, start, size⟩).parameters ++
          [remove_escaping (substr s pos
            (scan s rest c ⟨params, false, false, false, start, size⟩).parameter_size)]
      | none => (scan s rest c ⟨params, false, false, false, start, size⟩).parameters) =
      params ++ runs current rest := by
  induction rest generalizing c params start size current with
  | nil =>
    simp only [scan, runs]
    rcases hc with ⟨h1, h2, h3⟩ | ⟨p, h1, h2, h4, hne⟩
    · subst h1 h3
      simp
    · subst h1
      simp only [if_neg hne]
      rw [← h4, remove_escaping_id current
        (fun x hx => (hq x (mem_substr s p size x (h4 ▸ hx))).1)]
  | cons ch rest ih =>
    have hch : ch ∈ s := List.mem_of_mem_drop (hd ▸ List.mem_cons_self _ _)
    obtain ⟨hb, hsq, hdq⟩ := hq ch hch
    have hd2 : s.drop (c + 1) = rest := by
      rw [← List.drop_drop, hd]
      rfl
    rw [scan]
    by_cases hbl : ch = ' ' ∨ ch = '\t'
    · have hblank : is_blank ch = true := by
        simpa [is_blank] using hbl
      rcases hc with ⟨h1, h2, h3⟩ | ⟨p, h1, h2, h4, hne⟩
      · subst h1 h2 h3
        have hstep : step s c ch ⟨params, false, false, false, none, 0⟩ =
            ⟨params, false, false, false, none, 0⟩ := by
          simp [step, hb, hbl]
        rw [hstep, ih (c + 1) params none 0 [] hd2 (Or.inl ⟨rfl, rfl, rfl⟩)]
        simp [runs, hblank]
      · subst h1
        have hstep : step s c ch ⟨params, false, false, false, some p, size⟩ =
            ⟨params ++ [current], false, false, false, none, 0⟩ := by
          simp only [step, hb, hbl, add_parameter]
          simp only [Bool.false_eq_true, if_false, and_self, if_true]
          rw [← h4, remove_escaping_id current
            (fun x hx => (hq x (mem_substr s p size x (h4 ▸ hx))).1)]
        rw [hstep, ih (c + 1) (params ++ [current]) none 0 [] hd2 (Or.inl ⟨rfl, rfl, rfl⟩)]
        simp [runs, hblank, hne]
    · have hblank : is_blank ch = false := by
        simpa [is_blank] using hbl
      have hstep : step s c ch ⟨params, false, false, false, start, size⟩ =
          ⟨params, false, false, false, if start = none then some c else start, size + 1⟩ := by
        simp [step, hb, hbl, hsq, hdq, count_char]
      rw [hstep, ih (c + 1) params _ (size + 1) (current ++ [ch]) hd2]
      · simp [runs, hblank]
      · right
        rcases hc with ⟨h1, h2, h3⟩ | ⟨p, h1, h2, h4, hne⟩
        · subst h1 h2 h3
          refine ⟨c, by simp, by omega, ?_, by simp⟩
          rw [substr_succ s rest c 0 ch hd]
          simp [substr]
        · subst h1
          refine ⟨p, by simp, by omega, ?_, by simp⟩
          rw [substr_succ s rest p size ch (by rw [h2]; exact hd), h4]

/-- On a command string without backslash and quote the parameters are the maximal
runs of characters other than space and tab, in order. -/
theorem split_parameters_unquoted (s : List Char)
    (hq : ∀ x ∈ s, x ≠ '\\' ∧ x ≠ '\'' ∧ x ≠ '"') : split_parameters s = runs [] s := by
  rw [split_parameters_eq]
  have := scan_runs s hq s 0 [] none 0 [] rfl (Or.inl ⟨rfl, rfl, rfl⟩)
  simpa [Splitter.start] using this

/-- C30, at the failing input: the command string `-DX="a b"` gives the one
parameter `-DX="a `, with the quote kept and the `b` cut off, and not `-DX=a b`;
a quoted section that begins its parameter and ends it, as in `"a b" c`, is taken
without its quotes. -/
theorem quoted_define_parameter :
    split_parameters quoted_define = [['-', 'D', 'X', '=', '"', 'a', ' ']] ∧
    split_parameters quoted_define ≠ [['-', 'D', 'X', '=', 'a', ' ', 'b']] ∧
    split_parameters ['"', 'a', ' ', 'b', '"', ' ', 'c'] = [['a', ' ', 'b'], ['c']] := by
  decide

end CompileCommands
